import Mathlib

/-!
# Verification of the rust-dnsio DNS message codec

A shallow embedding of the rust-dnsio decode/encode engine, its zero-copy
offset-based reference layer, and the message builder, together with proofs
of the specification claims about them.

Buffers are `List Nat`, each entry one byte of the Rust `&[u8]` slice; the
well-formedness predicate `bytesWf` records the u8 range invariant where a
claim's arithmetic depends on it.  Fallible Rust functions returning
`Result<T, Error>` become `Except Error T`.  The scanning loops of the name
codec are written with an explicit fuel argument; the fuel is instantiated
with the buffer length, which dominates the iteration count because every
iteration consumes at least one byte (when the fuel would run out the loop
is already out of buffer, and both return `insufficientData`).
-/

namespace DnsIO

/-- The closed error set of `src/error.rs`. -/
inductive Error where
  | invalidHeaderLength
  | insufficientData
  | invalidDomainName
deriving DecidableEq, Repr

deriving instance DecidableEq for Except

/-- A byte buffer: each entry is one `u8` of the Rust slice. -/
abbrev Bytes := List Nat

/-- The u8 range invariant of a Rust byte slice. -/
def bytesWf (data : Bytes) : Prop := ∀ b ∈ data, b < 256

instance : DecidablePred bytesWf := fun data =>
  inferInstanceAs (Decidable (∀ b ∈ data, b < 256))

/-- Modelled from the spec: the `dns_message` crate's header flags bitfield
(query/response flag, 4-bit opcode, AA/TC/RD/RA flags, 3 reserved/extension
bits, 4-bit response code).  The crate itself is an external collaborator not
present under `src/`; the bit positions follow §3 of the spec and the
in-repository variant `flags_from_u16`/`flags_to_u16` of `src/src/header.rs`. -/
structure Flags where
  qr : Bool
  opCode : Nat
  aa : Bool
  tc : Bool
  rd : Bool
  ra : Bool
  z : Nat
  rCode : Nat
deriving DecidableEq, Repr

/-- Modelled from the spec: decompose a 16-bit flags word into the bitfield. -/
def flagsFromU16 (v : Nat) : Flags :=
  { qr := (v >>> 15) % 2 == 1
    opCode := (v >>> 11) % 16
    aa := (v >>> 10) % 2 == 1
    tc := (v >>> 9) % 2 == 1
    rd := (v >>> 8) % 2 == 1
    ra := (v >>> 7) % 2 == 1
    z := (v >>> 4) % 8
    rCode := v % 16 }

/-- Modelled from the spec: reassemble the 16-bit flags word.  The summands
occupy disjoint bit ranges, so the `|=` accumulation of the source is
addition. -/
def flagsToU16 (f : Flags) : Nat :=
  (if f.qr then 32768 else 0) + (f.opCode % 16) * 2048 +
    (if f.aa then 1024 else 0) + (if f.tc then 512 else 0) +
    (if f.rd then 256 else 0) + (if f.ra then 128 else 0) +
    (f.z % 8) * 16 + f.rCode % 16

/-- Modelled from the spec: `Flags::from_flags_bytes` of the external
`dns_message` crate — big-endian pair of flag bytes to bitfield. -/
def Flags.fromFlagsBytes (hi lo : Nat) : Flags :=
  flagsFromU16 ((hi <<< 8) ||| lo)

/-- Modelled from the spec: `Flags::to_flags_bytes` — bitfield back to the
big-endian pair of wire bytes. -/
def Flags.toFlagsBytes (f : Flags) : Nat × Nat :=
  ((flagsToU16 f >>> 8) % 256, flagsToU16 f % 256)

/-- Modelled from the spec: the `dns_message` question-type enumeration with
its 16-bit byte mapping, kept as the raw 16-bit code (record-type-specific
interpretation is out of scope). -/
structure QType where
  code : Nat
deriving DecidableEq, Repr

/-- Modelled from the spec: `QType::from_question_bytes` (big-endian). -/
def QType.fromQuestionBytes (hi lo : Nat) : QType := ⟨(hi <<< 8) ||| lo⟩

/-- Modelled from the spec: `QType::to_question_bytes` (big-endian). -/
def QType.toQuestionBytes (t : QType) : Nat × Nat :=
  ((t.code >>> 8) % 256, t.code % 256)

/-- `QType::A` (wire code 1). -/
def QType.A : QType := ⟨1⟩

/-- Modelled from the spec: the `dns_message` question-class enumeration. -/
structure QClass where
  code : Nat
deriving DecidableEq, Repr

/-- Modelled from the spec: `QClass::from_question_bytes` (big-endian). -/
def QClass.fromQuestionBytes (hi lo : Nat) : QClass := ⟨(hi <<< 8) ||| lo⟩

/-- Modelled from the spec: `QClass::to_question_bytes` (big-endian). -/
def QClass.toQuestionBytes (c : QClass) : Nat × Nat :=
  ((c.code >>> 8) % 256, c.code % 256)

/-- `QClass::IN` (wire code 1). -/
def QClass.IN : QClass := ⟨1⟩

/-- Modelled from the spec: the `dns_message` resource-record type
enumeration. -/
structure RRType where
  code : Nat
deriving DecidableEq, Repr

/-- Modelled from the spec: `RRType::from_rr_bytes` (big-endian). -/
def RRType.fromRRBytes (hi lo : Nat) : RRType := ⟨(hi <<< 8) ||| lo⟩

/-- Modelled from the spec: `RRType::to_rr_bytes` (big-endian). -/
def RRType.toRRBytes (t : RRType) : Nat × Nat :=
  ((t.code >>> 8) % 256, t.code % 256)

/-- `RRType::A` (wire code 1). -/
def RRType.A : RRType := ⟨1⟩

/-- Modelled from the spec: the `dns_message` resource-record class
enumeration. -/
structure RRClass where
  code : Nat
deriving DecidableEq, Repr

/-- Modelled from the spec: `RRClass::from_rr_bytes` (big-endian). -/
def RRClass.fromRRBytes (hi lo : Nat) : RRClass := ⟨(hi <<< 8) ||| lo⟩

/-- Modelled from the spec: `RRClass::to_rr_bytes` (big-endian). -/
def RRClass.toRRBytes (c : RRClass) : Nat × Nat :=
  ((c.code >>> 8) % 256, c.code % 256)

/-- `RRClass::IN` (wire code 1). -/
def RRClass.IN : RRClass := ⟨1⟩

/-- Modelled from the spec: `dns_message::Label` — a length byte (1–63) plus
that many payload bytes. -/
structure DnsLabel where
  length : Nat
  data : Bytes
deriving DecidableEq, Repr

/-- Modelled from the spec: `dns_message::NameElement` — the tagged variant
Label | Pointer | Root | Reserved of §3 of the spec. -/
inductive NameElement where
  | label (l : DnsLabel)
  | pointer (value : Nat)
  | root
  | reserved
deriving DecidableEq, Repr

/-- Modelled from the spec: `dns_message::Header`. -/
structure Header where
  id : Nat
  flags : Flags
  qdCount : Nat
  anCount : Nat
  nsCount : Nat
  arCount : Nat
deriving DecidableEq, Repr

/-- Modelled from the spec: `dns_message::Question`. -/
structure Question where
  qName : List NameElement
  qType : QType
  qClass : QClass
deriving DecidableEq, Repr

/-- Modelled from the spec: `dns_message::resource_record::ResourceRecord`. -/
structure ResourceRecord where
  rrName : List NameElement
  rrType : RRType
  rrClass : RRClass
  rrTtl : Nat
  rrRdLength : Nat
  rrData : Bytes
deriving DecidableEq, Repr

/-- Modelled from the spec: `dns_message::Message`. -/
structure Message where
  header : Header
  question : List Question
  answer : List ResourceRecord
  authority : List ResourceRecord
  additional : List ResourceRecord
deriving DecidableEq, Repr

end DnsIO

namespace DnsIO

/-! ## Decoders (`src/src/decode/`) -/

/-- The scanning loop of `decode_name` (`src/src/decode/name.rs`).  `fuel`
bounds the iteration count; `decodeName` instantiates it with the buffer
length, which suffices because every iteration consumes at least one byte.
At fuel 0 the position is already past the end of the buffer, matching the
loop's own `InsufficientData` guard. -/
def decodeNameLoop (data : Bytes) (messageOffset : Nat) :
    Nat → Nat → List NameElement → Except Error (List NameElement × Nat)
  | 0, _, _ => .error .insufficientData
  | fuel + 1, offset, elements =>
    if messageOffset + offset ≥ data.length then .error .insufficientData
    else
      let length := data.getD (messageOffset + offset) 0
      if length = 0 then .ok (elements ++ [.root], offset + 1)
      else if length ≥ 192 then
        if messageOffset + offset + 1 ≥ data.length then .error .insufficientData
        else
          let secondByte := data.getD (messageOffset + offset + 1) 0
          .ok (elements ++ [.pointer (((length &&& 63) <<< 8) ||| secondByte)], offset + 2)
      else if length ≥ 64 then
        decodeNameLoop data messageOffset fuel (offset + 1) (elements ++ [.reserved])
      else if length > 63 then .error .invalidDomainName
      else
        if messageOffset + offset + 1 + length > data.length then .error .insufficientData
        else
          let labelData := (data.drop (messageOffset + offset + 1)).take length
          decodeNameLoop data messageOffset fuel (offset + 1 + length)
            (elements ++ [.label ⟨length, labelData⟩])

/-- `decode_name` (`src/src/decode/name.rs`): scan the element sequence of a
domain name starting at `messageOffset`, returning the elements and the
number of bytes consumed. -/
def decodeName (data : Bytes) (messageOffset : Nat) :
    Except Error (List NameElement × Nat) :=
  decodeNameLoop data messageOffset data.length 0 []

/-- `decode_header` (`src/src/decode/header.rs`). -/
def decodeHeader (data : Bytes) : Except Error (Header × Nat) :=
  if data.length < 12 then .error .invalidHeaderLength
  else
    .ok
      ({ id := (data.getD 0 0 <<< 8) ||| data.getD 1 0
         flags := Flags.fromFlagsBytes (data.getD 2 0) (data.getD 3 0)
         qdCount := (data.getD 4 0 <<< 8) ||| data.getD 5 0
         anCount := (data.getD 6 0 <<< 8) ||| data.getD 7 0
         nsCount := (data.getD 8 0 <<< 8) ||| data.getD 9 0
         arCount := (data.getD 10 0 <<< 8) ||| data.getD 11 0 }, 12)

/-- The per-entry loop of `decode_question` (`src/src/decode/question.rs`):
`data` is the slice that starts at the question section, `messageData` the
full message buffer, and names are decoded from `messageData` at absolute
offsets while the 4 trailing bytes are read from `data`. -/
def decodeQuestionLoop (data messageData : Bytes) (messageOffset : Nat) :
    Nat → Nat → List Question → Except Error (List Question × Nat)
  | 0, offset, acc => .ok (acc, offset)
  | n + 1, offset, acc =>
    match decodeName messageData (messageOffset + offset) with
    | .error e => .error e
    | .ok (qName, qNameEnd) =>
      let offset := offset + qNameEnd
      if offset + 4 > data.length then .error .insufficientData
      else
        let qType := QType.fromQuestionBytes (data.getD offset 0) (data.getD (offset + 1) 0)
        let qClass := QClass.fromQuestionBytes (data.getD (offset + 2) 0) (data.getD (offset + 3) 0)
        decodeQuestionLoop data messageData messageOffset n (offset + 4)
          (acc ++ [⟨qName, qType, qClass⟩])

/-- `decode_question` (`src/src/decode/question.rs`). -/
def decodeQuestion (data messageData : Bytes) (messageOffset : Nat) (qdCount : Nat) :
    Except Error (List Question × Nat) :=
  if qdCount = 0 then .ok ([], 0)
  else decodeQuestionLoop data messageData messageOffset qdCount 0 []

/-- `decode_resource_record` (`src/src/decode/resource_record.rs`). -/
def decodeResourceRecord (data messageData : Bytes) (messageOffset : Nat) :
    Except Error (ResourceRecord × Nat) :=
  match decodeName messageData messageOffset with
  | .error e => .error e
  | .ok (name, nameEnd) =>
    let offset := nameEnd
    if offset + 10 > data.length then .error .insufficientData
    else
      let rrType := RRType.fromRRBytes (data.getD offset 0) (data.getD (offset + 1) 0)
      let rrClass := RRClass.fromRRBytes (data.getD (offset + 2) 0) (data.getD (offset + 3) 0)
      let ttl := (data.getD (offset + 4) 0 <<< 24) ||| (data.getD (offset + 5) 0 <<< 16) |||
        (data.getD (offset + 6) 0 <<< 8) ||| data.getD (offset + 7) 0
      let rdLength := (data.getD (offset + 8) 0 <<< 8) ||| data.getD (offset + 9) 0
      let offset := offset + 10
      if offset + rdLength > data.length then .error .insufficientData
      else
        let rData := (data.drop offset).take rdLength
        .ok (⟨name, rrType, rrClass, ttl, rdLength, rData⟩, offset + rdLength)

/-- The per-entry loop of `decode_resource_records`
(`src/src/decode/resource_record.rs`): each entry is decoded on the slice
`data[offset..]` with the absolute offset advanced in step. -/
def decodeResourceRecordsLoop (data messageData : Bytes) (messageOffset : Nat) :
    Nat → Nat → List ResourceRecord → Except Error (List ResourceRecord × Nat)
  | 0, offset, acc => .ok (acc, offset)
  | n + 1, offset, acc =>
    match decodeResourceRecord (data.drop offset) messageData (messageOffset + offset) with
    | .error e => .error e
    | .ok (record, bytesRead) =>
      decodeResourceRecordsLoop data messageData messageOffset n (offset + bytesRead)
        (acc ++ [record])

/-- `decode_resource_records` (`src/src/decode/resource_record.rs`). -/
def decodeResourceRecords (data messageData : Bytes) (messageOffset : Nat) (n : Nat) :
    Except Error (List ResourceRecord × Nat) :=
  if n = 0 then .ok ([], 0)
  else decodeResourceRecordsLoop data messageData messageOffset n 0 []

/-- `decode_message` (`src/src/decode/message.rs`): header, then question,
answer, authority and additional sections in fixed order; the consumed length
of the additional section is discarded. -/
def decodeMessage (data : Bytes) : Except Error Message :=
  match decodeHeader data with
  | .error e => .error e
  | .ok (header, headerIndex) =>
    let offset := headerIndex
    match decodeQuestion (data.drop offset) data offset header.qdCount with
    | .error e => .error e
    | .ok (questions, questionsLen) =>
      let offset := offset + questionsLen
      match decodeResourceRecords (data.drop offset) data offset header.anCount with
      | .error e => .error e
      | .ok (answers, answersLen) =>
        let offset := offset + answersLen
        match decodeResourceRecords (data.drop offset) data offset header.nsCount with
        | .error e => .error e
        | .ok (authority, authorityLen) =>
          let offset := offset + authorityLen
          match decodeResourceRecords (data.drop offset) data offset header.arCount with
          | .error e => .error e
          | .ok (additional, _) =>
            .ok ⟨header, questions, answers, authority, additional⟩

end DnsIO

namespace DnsIO

/-! ## Encoders (`src/src/encode/`)

Rust's encoders write into a caller-supplied `&mut [u8]`, sub-slicing it as
`&mut buf[offset..]` for nested calls.  The embedding passes the slice as a
list and returns the updated list next to the written length; a nested call
on `buf[offset..]` becomes a call on `buf.drop offset` whose result is
spliced back with `buf.take offset ++ ·`. -/

/-- Overwrite `ws.length` bytes of `buf` starting at `offset`. -/
def setRange (buf : Bytes) (offset : Nat) (ws : Bytes) : Bytes :=
  buf.take offset ++ ws ++ buf.drop (offset + ws.length)

/-- The element loop of `encode_name` (`src/src/encode/name.rs`): Label is
length byte plus payload, Pointer is `0xC0 | high6bits` then `low8bits`,
Root is a single zero byte, Reserved has no byte representation and fails
`InvalidDomainName`. -/
def encodeNameLoop : List NameElement → Bytes → Nat → Except Error (Bytes × Nat)
  | [], buf, offset => .ok (buf, offset)
  | .label l :: rest, buf, offset =>
    if buf.length < offset + 1 + l.data.length then .error .insufficientData
    else encodeNameLoop rest (setRange buf offset (l.length :: l.data)) (offset + 1 + l.data.length)
  | .pointer p :: rest, buf, offset =>
    if buf.length < offset + 2 then .error .insufficientData
    else encodeNameLoop rest (setRange buf offset [192 ||| ((p >>> 8) % 256), p % 256]) (offset + 2)
  | .root :: rest, buf, offset =>
    if buf.length < offset + 1 then .error .insufficientData
    else encodeNameLoop rest (setRange buf offset [0]) (offset + 1)
  | .reserved :: _, _, _ => .error .invalidDomainName

/-- `encode_name` (`src/src/encode/name.rs`). -/
def encodeName (name : List NameElement) (buf : Bytes) : Except Error (Bytes × Nat) :=
  encodeNameLoop name buf 0

/-- The per-question loop of `encode_question` (`src/src/encode/question.rs`). -/
def encodeQuestionLoop : List Question → Bytes → Nat → Except Error (Bytes × Nat)
  | [], buf, offset => .ok (buf, offset)
  | q :: rest, buf, offset =>
    match encodeName q.qName (buf.drop offset) with
    | .error e => .error e
    | .ok (sub, nameLen) =>
      let buf := buf.take offset ++ sub
      let offset := offset + nameLen
      if offset + 4 > buf.length then .error .insufficientData
      else
        let (hT, lT) := q.qType.toQuestionBytes
        let (hC, lC) := q.qClass.toQuestionBytes
        encodeQuestionLoop rest (setRange buf offset [hT, lT, hC, lC]) (offset + 4)

/-- `encode_question` (`src/src/encode/question.rs`). -/
def encodeQuestion (questions : List Question) (buf : Bytes) : Except Error (Bytes × Nat) :=
  if questions.isEmpty then .ok (buf, 0) else encodeQuestionLoop questions buf 0

/-- `encode_resource_record` (`src/src/encode/resource_record.rs`). -/
def encodeResourceRecord (record : ResourceRecord) (buf : Bytes) :
    Except Error (Bytes × Nat) :=
  match encodeName record.rrName buf with
  | .error e => .error e
  | .ok (buf, nameLen) =>
    let offset := nameLen
    if offset + 10 > buf.length then .error .insufficientData
    else
      let (hT, lT) := record.rrType.toRRBytes
      let (hC, lC) := record.rrClass.toRRBytes
      let buf := setRange buf offset [hT, lT, hC, lC,
        (record.rrTtl >>> 24) % 256, (record.rrTtl >>> 16) % 256,
        (record.rrTtl >>> 8) % 256, record.rrTtl % 256,
        (record.rrRdLength >>> 8) % 256, record.rrRdLength % 256]
      let offset := offset + 10
      if offset + record.rrData.length > buf.length then .error .insufficientData
      else .ok (setRange buf offset record.rrData, offset + record.rrData.length)

/-- The per-record loop of `encode_resource_records`
(`src/src/encode/resource_record.rs`). -/
def encodeResourceRecordsLoop : List ResourceRecord → Bytes → Nat → Except Error (Bytes × Nat)
  | [], buf, offset => .ok (buf, offset)
  | r :: rest, buf, offset =>
    match encodeResourceRecord r (buf.drop offset) with
    | .error e => .error e
    | .ok (sub, written) =>
      encodeResourceRecordsLoop rest (buf.take offset ++ sub) (offset + written)

/-- `encode_resource_records` (`src/src/encode/resource_record.rs`). -/
def encodeResourceRecords (records : List ResourceRecord) (buf : Bytes) :
    Except Error (Bytes × Nat) :=
  if records.isEmpty then .ok (buf, 0) else encodeResourceRecordsLoop records buf 0

/-- `encode_header` (`src/src/encode/header.rs`). -/
def encodeHeader (header : Header) (buf : Bytes) : Except Error (Bytes × Nat) :=
  if buf.length < 12 then .error .invalidHeaderLength
  else
    let (hF, lF) := header.flags.toFlagsBytes
    .ok (setRange buf 0 [(header.id >>> 8) % 256, header.id % 256, hF, lF,
      (header.qdCount >>> 8) % 256, header.qdCount % 256,
      (header.anCount >>> 8) % 256, header.anCount % 256,
      (header.nsCount >>> 8) % 256, header.nsCount % 256,
      (header.arCount >>> 8) % 256, header.arCount % 256], 12)

/-- Modelled from the spec: the wire length of one name element (the `mt`
crate's `WireLength` is an external collaborator).  A Reserved element
occupies its single marker byte on the wire. -/
def NameElement.wireLength : NameElement → Nat
  | .label l => 1 + l.data.length
  | .pointer _ => 2
  | .root => 1
  | .reserved => 1

/-- Modelled from the spec: wire length of a name. -/
def nameWireLength (name : List NameElement) : Nat :=
  (name.map NameElement.wireLength).sum

/-- Modelled from the spec: wire length of a question (name + 4 bytes). -/
def questionWireLength (q : Question) : Nat := nameWireLength q.qName + 4

/-- Modelled from the spec: wire length of a resource record
(name + 10 fixed bytes + RDATA). -/
def resourceRecordWireLength (r : ResourceRecord) : Nat :=
  nameWireLength r.rrName + 10 + r.rrData.length

/-- Modelled from the spec: `Message::wire_length` — the sum of each
section's exact wire length (§4.5 of the spec). -/
def messageWireLength (m : Message) : Nat :=
  12 + (m.question.map questionWireLength).sum +
    (m.answer.map resourceRecordWireLength).sum +
    (m.authority.map resourceRecordWireLength).sum +
    (m.additional.map resourceRecordWireLength).sum

/-- `encode_message` (`src/src/encode/message.rs`): compute the total wire
length, zero-fill a buffer of that size, serialize header and the four
sections in fixed order, and truncate to the bytes written. -/
def encodeMessage (message : Message) : Except Error Bytes :=
  let length := messageWireLength message
  let data : Bytes := List.replicate length 0
  match encodeHeader message.header data with
  | .error e => .error e
  | .ok (data, headerLen) =>
    let offset := headerLen
    match encodeQuestion message.question (data.drop offset) with
    | .error e => .error e
    | .ok (sub, questionsLen) =>
      let data := data.take offset ++ sub
      let offset := offset + questionsLen
      match encodeResourceRecords message.answer (data.drop offset) with
      | .error e => .error e
      | .ok (sub, answersLen) =>
        let data := data.take offset ++ sub
        let offset := offset + answersLen
        match encodeResourceRecords message.authority (data.drop offset) with
        | .error e => .error e
        | .ok (sub, authorityLen) =>
          let data := data.take offset ++ sub
          let offset := offset + authorityLen
          match encodeResourceRecords message.additional (data.drop offset) with
          | .error e => .error e
          | .ok (sub, additionalLen) =>
            let data := data.take offset ++ sub
            let offset := offset + additionalLen
            .ok (data.take offset)

/-! ## Canonical wire bytes of decoded values

Pure byte images used to relate decoding and encoding. -/

/-- The byte image an encoder writes for one name element (Reserved has
none; the encoders reject it). -/
def NameElement.bytes : NameElement → Bytes
  | .label l => l.length :: l.data
  | .pointer p => [192 ||| ((p >>> 8) % 256), p % 256]
  | .root => [0]
  | .reserved => []

/-- The byte image of a whole name. -/
def nameBytes (name : List NameElement) : Bytes :=
  (name.map NameElement.bytes).flatten

/-- The byte image of a question. -/
def questionBytes (q : Question) : Bytes :=
  nameBytes q.qName ++ [q.qType.toQuestionBytes.1, q.qType.toQuestionBytes.2,
    q.qClass.toQuestionBytes.1, q.qClass.toQuestionBytes.2]

/-- The byte image of a resource record. -/
def resourceRecordBytes (r : ResourceRecord) : Bytes :=
  nameBytes r.rrName ++ [r.rrType.toRRBytes.1, r.rrType.toRRBytes.2,
    r.rrClass.toRRBytes.1, r.rrClass.toRRBytes.2,
    (r.rrTtl >>> 24) % 256, (r.rrTtl >>> 16) % 256, (r.rrTtl >>> 8) % 256, r.rrTtl % 256,
    (r.rrRdLength >>> 8) % 256, r.rrRdLength % 256] ++ r.rrData

/-- The byte image of a header. -/
def headerBytes (h : Header) : Bytes :=
  [(h.id >>> 8) % 256, h.id % 256, h.flags.toFlagsBytes.1, h.flags.toFlagsBytes.2,
    (h.qdCount >>> 8) % 256, h.qdCount % 256, (h.anCount >>> 8) % 256, h.anCount % 256,
    (h.nsCount >>> 8) % 256, h.nsCount % 256, (h.arCount >>> 8) % 256, h.arCount % 256]

/-- The byte image of a whole message. -/
def messageBytes (m : Message) : Bytes :=
  headerBytes m.header ++ (m.question.map questionBytes).flatten ++
    (m.answer.map resourceRecordBytes).flatten ++
    (m.authority.map resourceRecordBytes).flatten ++
    (m.additional.map resourceRecordBytes).flatten

/-- `true` on the Reserved element. -/
def NameElement.isReservedElem : NameElement → Bool
  | .reserved => true
  | _ => false

/-- `true` on Pointer elements. -/
def NameElement.isPointerElem : NameElement → Bool
  | .pointer _ => true
  | _ => false

/-- `true` on the terminal elements Root and Pointer. -/
def NameElement.isTerminal : NameElement → Bool
  | .root => true
  | .pointer _ => true
  | _ => false

/-- No element of the name is Reserved. -/
def noReserved (name : List NameElement) : Prop :=
  ∀ e ∈ name, e.isReservedElem = false

instance : DecidablePred noReserved := fun name =>
  inferInstanceAs (Decidable (∀ e ∈ name, e.isReservedElem = false))

/-- No element of the name is a compression Pointer. -/
def noPointer (name : List NameElement) : Prop :=
  ∀ e ∈ name, e.isPointerElem = false

instance : DecidablePred noPointer := fun name =>
  inferInstanceAs (Decidable (∀ e ∈ name, e.isPointerElem = false))

/-- All names appearing in a message, across the four sections. -/
def messageNames (m : Message) : List (List NameElement) :=
  m.question.map Question.qName ++ (m.answer.map ResourceRecord.rrName) ++
    (m.authority.map ResourceRecord.rrName) ++ (m.additional.map ResourceRecord.rrName)

/-- No name of the message contains a Reserved element. -/
def messageNoReserved (m : Message) : Prop := ∀ n ∈ messageNames m, noReserved n

instance : Decidable (messageNoReserved m) :=
  inferInstanceAs (Decidable (∀ n ∈ messageNames m, noReserved n))

/-- No name of the message contains a Pointer element. -/
def messageNoPointer (m : Message) : Prop := ∀ n ∈ messageNames m, noPointer n

instance : Decidable (messageNoPointer m) :=
  inferInstanceAs (Decidable (∀ n ∈ messageNames m, noPointer n))

end DnsIO

namespace DnsIO

/-! ## Zero-copy ref layer (`src/src/refs.rs`, `src/src/decode/ref/mod.rs`)

Offsets and lengths in this layer are Rust `u16` (`MsgOffset`); the `as
MsgOffset` casts become `% 65536` and `saturating_add` becomes
`min (· + ·) 65535`. -/

/-- The scanning loop of `name_wire_length_at` (`src/src/decode/ref/mod.rs`),
returning the position one past the name.  Fueled like `decodeNameLoop`. -/
def nameWireLengthAtLoop (buf : Bytes) : Nat → Nat → Except Error Nat
  | 0, _ => .error .insufficientData
  | fuel + 1, pos =>
    if pos ≥ buf.length then .error .insufficientData
    else
      let lenByte := buf.getD pos 0
      let pos := pos + 1
      if lenByte = 0 then .ok pos
      else if lenByte ≥ 192 then
        if pos ≥ buf.length then .error .insufficientData
        else .ok (pos + 1)
      else if lenByte ≥ 64 then nameWireLengthAtLoop buf fuel pos
      else if lenByte > 63 then .error .invalidDomainName
      else
        if pos + lenByte > buf.length then .error .insufficientData
        else nameWireLengthAtLoop buf fuel (pos + lenByte)

/-- `name_wire_length_at` (`src/src/decode/ref/mod.rs`). -/
def nameWireLengthAt (buf : Bytes) (offset : Nat) : Except Error Nat :=
  match nameWireLengthAtLoop buf buf.length offset with
  | .error e => .error e
  | .ok pos => .ok (pos - offset)

/-- `question_wire_length_at` (`src/src/decode/ref/mod.rs`). -/
def questionWireLengthAt (buf : Bytes) (offset : Nat) : Except Error Nat :=
  match nameWireLengthAt buf offset with
  | .error e => .error e
  | .ok nameLen =>
    if offset + nameLen + 4 > buf.length then .error .insufficientData
    else .ok (nameLen + 4)

/-- `resource_record_wire_length_at` (`src/src/decode/ref/mod.rs`). -/
def resourceRecordWireLengthAt (buf : Bytes) (offset : Nat) : Except Error Nat :=
  match nameWireLengthAt buf offset with
  | .error e => .error e
  | .ok nameLen =>
    let rrStart := offset + nameLen
    if rrStart + 10 > buf.length then .error .insufficientData
    else
      let rdlength := (buf.getD (rrStart + 8) 0 <<< 8) ||| buf.getD (rrStart + 9) 0
      let total := nameLen + 10 + rdlength
      if rrStart + 10 + rdlength > buf.length then .error .insufficientData
      else .ok total

/-- `NameElementRef` (`src/src/refs.rs`): a name element reduced to its kind
and its offset from the message start. -/
inductive NameElementRef where
  | label (offset : Nat)
  | pointer (offset : Nat)
  | root (offset : Nat)
  | reserved (offset : Nat)
deriving DecidableEq, Repr

/-- `NameElementRef::offset`. -/
def NameElementRef.offset : NameElementRef → Nat
  | .label o => o
  | .pointer o => o
  | .root o => o
  | .reserved o => o

/-- The scanning loop of `parse_name_elements_into` (`src/src/refs.rs`):
like `decodeNameLoop` but records only kinds and offsets, and fails
`InvalidDomainName` when an 11th element would be appended. -/
def parseNameLoop (buf : Bytes) : Nat → Nat → List NameElementRef →
    Except Error (List NameElementRef × Nat)
  | 0, _, _ => .error .insufficientData
  | fuel + 1, pos, acc =>
    if pos ≥ buf.length then .error .insufficientData
    else
      let lenByte := buf.getD pos 0
      let elemOffset := pos % 65536
      if lenByte = 0 then
        if acc.length ≥ 10 then .error .invalidDomainName
        else .ok (acc ++ [.root elemOffset], pos + 1)
      else if lenByte ≥ 192 then
        if pos + 1 ≥ buf.length then .error .insufficientData
        else if acc.length ≥ 10 then .error .invalidDomainName
        else .ok (acc ++ [.pointer elemOffset], pos + 2)
      else if lenByte ≥ 64 then
        if acc.length ≥ 10 then .error .invalidDomainName
        else parseNameLoop buf fuel (pos + 1) (acc ++ [.reserved elemOffset])
      else if lenByte > 63 then .error .invalidDomainName
      else
        if pos + 1 + lenByte > buf.length then .error .insufficientData
        else if acc.length ≥ 10 then .error .invalidDomainName
        else parseNameLoop buf fuel (pos + 1 + lenByte) (acc ++ [.label elemOffset])

/-- `parse_name_elements_into` (`src/src/refs.rs`): elements (padded to the
fixed capacity of 10 with Root placeholders), count, end offset. -/
def parseNameElementsInto (buf : Bytes) (offset : Nat) :
    Except Error (List NameElementRef × Nat × Nat) :=
  match parseNameLoop buf buf.length offset [] with
  | .error e => .error e
  | .ok (elems, pos) =>
    .ok (elems ++ List.replicate (10 - elems.length) (.root 0), elems.length, pos % 65536)

/-- `NameRef` (`src/src/refs.rs`). -/
structure NameRef where
  elements : List NameElementRef
  count : Nat
  endOffset : Nat
deriving DecidableEq, Repr

/-- `NameRef::empty`. -/
def NameRef.empty : NameRef := ⟨List.replicate 10 (.root 0), 0, 0⟩

/-- `NameRef::from_buf`. -/
def NameRef.fromBuf (buf : Bytes) (offset : Nat) : Except Error NameRef :=
  match parseNameElementsInto buf offset with
  | .error e => .error e
  | .ok (elements, count, endOffset) => .ok ⟨elements, count, endOffset⟩

/-- `NameRef::offset`. -/
def NameRef.offset (n : NameRef) : Nat :=
  if n.count = 0 then 0 else (n.elements.getD 0 (.root 0)).offset

/-- `NameRef::as_slice`. -/
def NameRef.asSlice (n : NameRef) : List NameElementRef := n.elements.take n.count

/-- `HeaderRef` (`src/src/refs.rs`): the header is always at offset 0. -/
structure HeaderRef where
deriving DecidableEq, Repr

/-- `HeaderRef::decode_header`: materialize via the ordinary header decoder. -/
def HeaderRef.decodeHeader (_ : HeaderRef) (data : Bytes) : Except Error Header :=
  match DnsIO.decodeHeader data with
  | .error e => .error e
  | .ok (header, _) => .ok header

/-- `QuestionRef` (`src/src/refs.rs`). -/
structure QuestionRef where
  offset : Nat
  len : Nat
deriving DecidableEq, Repr

/-- `QuestionRef::decode_question`: re-decode a single question at the
recorded offset.  The source `unwrap`s the head of the returned one-element
list; the empty case is unreachable on a success of `decode_question` with
count 1. -/
def QuestionRef.decodeQuestion (q : QuestionRef) (data : Bytes) : Except Error Question :=
  match DnsIO.decodeQuestion (data.drop q.offset) data q.offset 1 with
  | .error e => .error e
  | .ok (x :: _, _) => .ok x
  | .ok ([], _) => .error .insufficientData

/-- `QuestionSectionRef` (`src/src/refs.rs`): fixed capacity of 5. -/
structure QuestionSectionRef where
  questions : List QuestionRef
  endOffset : Nat
  count : Nat
deriving DecidableEq, Repr

/-- `QuestionSectionRef::as_slice`. -/
def QuestionSectionRef.asSlice (s : QuestionSectionRef) : List QuestionRef :=
  s.questions.take s.count

/-- `ResourceRecordRef` (`src/src/refs.rs`). -/
structure ResourceRecordRef where
  name : NameRef
  len : Nat
deriving DecidableEq, Repr

/-- `ResourceRecordRef::empty`. -/
def ResourceRecordRef.empty : ResourceRecordRef := ⟨NameRef.empty, 0⟩

/-- `ResourceRecordRef::offset`. -/
def ResourceRecordRef.offset (r : ResourceRecordRef) : Nat := r.name.offset

/-- `ResourceRecordRef::decode_resource_record`. -/
def ResourceRecordRef.decodeResourceRecord (r : ResourceRecordRef) (data : Bytes) :
    Except Error ResourceRecord :=
  match DnsIO.decodeResourceRecord (data.drop r.offset) data r.offset with
  | .error e => .error e
  | .ok (record, _) => .ok record

/-- `ResourceRecordSectionRef` (`src/src/refs.rs`): fixed capacity of 10. -/
structure ResourceRecordSectionRef where
  records : List ResourceRecordRef
  endOffset : Nat
  count : Nat
deriving DecidableEq, Repr

/-- `ResourceRecordSectionRef::as_slice`. -/
def ResourceRecordSectionRef.asSlice (s : ResourceRecordSectionRef) :
    List ResourceRecordRef := s.records.take s.count

/-- `MessageRef` (`src/src/refs.rs`). -/
structure MessageRef where
  header : HeaderRef
  question : QuestionSectionRef
  answer : ResourceRecordSectionRef
  authority : ResourceRecordSectionRef
  additional : ResourceRecordSectionRef
deriving DecidableEq, Repr

/-- The question loop of `decode_message_ref` (`src/src/decode/ref/mod.rs`). -/
def questionRefsLoop (data : Bytes) : Nat → Nat → List QuestionRef →
    Except Error (List QuestionRef × Nat)
  | 0, offset, acc => .ok (acc, offset)
  | n + 1, offset, acc =>
    match questionWireLengthAt data offset with
    | .error e => .error e
    | .ok len =>
      let len := len % 65536
      questionRefsLoop data n (min (offset + len) 65535) (acc ++ [⟨offset, len⟩])

/-- The record loop of `fill_resource_record_section`
(`src/src/decode/ref/mod.rs`). -/
def fillResourceRecordLoop (data : Bytes) : Nat → Nat → List ResourceRecordRef →
    Except Error (List ResourceRecordRef × Nat)
  | 0, offset, acc => .ok (acc, offset)
  | n + 1, offset, acc =>
    match resourceRecordWireLengthAt data offset with
    | .error e => .error e
    | .ok len =>
      let len := len % 65536
      match NameRef.fromBuf data offset with
      | .error e => .error e
      | .ok name =>
        fillResourceRecordLoop data n (min (offset + len) 65535) (acc ++ [⟨name, len⟩])

/-- `fill_resource_record_section` (`src/src/decode/ref/mod.rs`): hard
capacity check, then one ref per record. -/
def fillResourceRecordSection (data : Bytes) (offset : Nat) (count : Nat) (maxN : Nat) :
    Except Error (ResourceRecordSectionRef × Nat) :=
  if count > maxN then .error .invalidDomainName
  else
    match fillResourceRecordLoop data count offset [] with
    | .error e => .error e
    | .ok (refs, endOffset) =>
      .ok (⟨refs ++ List.replicate (10 - refs.length) ResourceRecordRef.empty,
        endOffset, count % 256⟩, endOffset)

/-- `decode_message_ref` (`src/src/decode/ref/mod.rs`). -/
def decodeMessageRef (data : Bytes) : Except Error MessageRef :=
  let headerRef : HeaderRef := ⟨⟩
  match headerRef.decodeHeader data with
  | .error e => .error e
  | .ok header =>
    if header.qdCount > 5 then .error .invalidDomainName
    else
      match questionRefsLoop data header.qdCount 12 [] with
      | .error e => .error e
      | .ok (qs, offset) =>
        let question : QuestionSectionRef :=
          ⟨qs ++ List.replicate (5 - qs.length) ⟨0, 0⟩, offset, header.qdCount % 256⟩
        match fillResourceRecordSection data offset header.anCount 10 with
        | .error e => .error e
        | .ok (answer, offset) =>
          match fillResourceRecordSection data offset header.nsCount 10 with
          | .error e => .error e
          | .ok (authority, offset) =>
            match fillResourceRecordSection data offset header.arCount 10 with
            | .error e => .error e
            | .ok (additional, _) =>
              .ok ⟨headerRef, question, answer, authority, additional⟩

/-- The question materialization loop of `MessageRef::decode_message`
(`src/src/refs.rs`). -/
def materializeQuestionList (data : Bytes) : List QuestionRef → Except Error (List Question)
  | [] => .ok []
  | q :: rest =>
    match q.decodeQuestion data with
    | .error e => .error e
    | .ok x =>
      match materializeQuestionList data rest with
      | .error e => .error e
      | .ok xs => .ok (x :: xs)

/-- The record materialization loop of `MessageRef::decode_message`. -/
def materializeRecordList (data : Bytes) : List ResourceRecordRef →
    Except Error (List ResourceRecord)
  | [] => .ok []
  | r :: rest =>
    match r.decodeResourceRecord data with
    | .error e => .error e
    | .ok x =>
      match materializeRecordList data rest with
      | .error e => .error e
      | .ok xs => .ok (x :: xs)

/-- `MessageRef::decode_message` (`src/src/refs.rs`): materialize the header,
every question and every record over the original buffer. -/
def MessageRef.decodeMessage (m : MessageRef) (data : Bytes) : Except Error Message :=
  match m.header.decodeHeader data with
  | .error e => .error e
  | .ok header =>
    match materializeQuestionList data m.question.asSlice with
    | .error e => .error e
    | .ok questions =>
      match materializeRecordList data m.answer.asSlice with
      | .error e => .error e
      | .ok answers =>
        match materializeRecordList data m.authority.asSlice with
        | .error e => .error e
        | .ok authority =>
          match materializeRecordList data m.additional.asSlice with
          | .error e => .error e
          | .ok additional =>
            .ok ⟨header, questions, answers, authority, additional⟩

end DnsIO

namespace DnsIO

/-! ## Message builder (`src/src/builder.rs`)

Text names are the UTF-8 bytes of the Rust `&str` (a `.` is byte 46, and in
UTF-8 byte 46 occurs only as the dot itself). -/

/-- `QuestionBuilder` (`src/src/builder.rs`). -/
structure QuestionBuilder where
  name : Bytes
  qType : QType
  qClass : QClass
deriving DecidableEq, Repr

/-- `ResourceRecordBuilder` (`src/src/builder.rs`). -/
structure ResourceRecordBuilder where
  name : Bytes
  rrType : RRType
  rrClass : RRClass
  ttl : Nat
  rdata : Bytes
deriving DecidableEq, Repr

/-- `MessageBuilder` (`src/src/builder.rs`). -/
structure MessageBuilder where
  id : Nat
  flags : Flags
  questions : List QuestionBuilder
  answers : List ResourceRecordBuilder
  authority : List ResourceRecordBuilder
  additional : List ResourceRecordBuilder
deriving DecidableEq, Repr

/-- `MessageBuilder::new`: query/response bit plus the RFC-conventional
defaults (recursion desired set, everything else zero). -/
def MessageBuilder.new (id : Nat) (isResponse : Bool) : MessageBuilder :=
  { id
    flags := { qr := isResponse, opCode := 0, aa := false, tc := false,
               rd := true, ra := false, z := 0, rCode := 0 }
    questions := [], answers := [], authority := [], additional := [] }

/-- `MessageBuilder::query`. -/
def MessageBuilder.query (id : Nat) : MessageBuilder := .new id false

/-- `MessageBuilder::response`. -/
def MessageBuilder.response (id : Nat) : MessageBuilder := .new id true

/-- `MessageBuilder::question`. -/
def MessageBuilder.question (b : MessageBuilder) (name : Bytes) (qType : QType)
    (qClass : QClass) : MessageBuilder :=
  { b with questions := b.questions ++ [⟨name, qType, qClass⟩] }

/-- `MessageBuilder::answer`. -/
def MessageBuilder.answer (b : MessageBuilder) (name : Bytes) (rrType : RRType)
    (rrClass : RRClass) (ttl : Nat) (rdata : Bytes) : MessageBuilder :=
  { b with answers := b.answers ++ [⟨name, rrType, rrClass, ttl, rdata⟩] }

/-- `MessageBuilder::authority` (named `addAuthority` here: the structure
field already uses the name). -/
def MessageBuilder.addAuthority (b : MessageBuilder) (name : Bytes) (rrType : RRType)
    (rrClass : RRClass) (ttl : Nat) (rdata : Bytes) : MessageBuilder :=
  { b with authority := b.authority ++ [⟨name, rrType, rrClass, ttl, rdata⟩] }

/-- `MessageBuilder::additional` (named `addAdditional` here: the structure
field already uses the name). -/
def MessageBuilder.addAdditional (b : MessageBuilder) (name : Bytes) (rrType : RRType)
    (rrClass : RRClass) (ttl : Nat) (rdata : Bytes) : MessageBuilder :=
  { b with additional := b.additional ++ [⟨name, rrType, rrClass, ttl, rdata⟩] }

/-- Rust's `str::split('.')`: split the byte list at every byte 46, keeping
empty segments. -/
def splitOnDot : Bytes → List Bytes
  | [] => [[]]
  | b :: rest =>
    match splitOnDot rest with
    | s :: ss => if b = 46 then [] :: s :: ss else (b :: s) :: ss
    | [] => [[]]

/-- The label loop of `encode_name_bytes` (`src/src/builder.rs`): skip empty
segments, reject any label longer than 63 bytes, emit length byte plus
payload. -/
def encodeLabelsLoop : List Bytes → Except Error Bytes
  | [] => .ok []
  | lab :: rest =>
    if lab.isEmpty then encodeLabelsLoop rest
    else if lab.length > 63 then .error .invalidDomainName
    else
      match encodeLabelsLoop rest with
      | .error e => .error e
      | .ok tl => .ok ((lab.length :: lab) ++ tl)

/-- `encode_name_bytes` (`src/src/builder.rs`): dot-split labels followed by
the root byte; the empty name is just the root byte. -/
def encodeNameBytes (name : Bytes) : Except Error Bytes :=
  if name.isEmpty then .ok [0]
  else
    match encodeLabelsLoop (splitOnDot name) with
    | .error e => .error e
    | .ok bs => .ok (bs ++ [0])

/-- The header value assembled by `build_encode_direct`: the section counts
are `len() as u16`. -/
def builderHeader (b : MessageBuilder) : Header :=
  ⟨b.id, b.flags, b.questions.length % 65536, b.answers.length % 65536,
    b.authority.length % 65536, b.additional.length % 65536⟩

/-- The wire bytes `build_encode_direct` writes for one question. -/
def buildQuestionBytes (q : QuestionBuilder) : Except Error Bytes :=
  match encodeNameBytes q.name with
  | .error e => .error e
  | .ok nb =>
    .ok (nb ++ [q.qType.toQuestionBytes.1, q.qType.toQuestionBytes.2,
      q.qClass.toQuestionBytes.1, q.qClass.toQuestionBytes.2])

/-- The wire bytes `build_encode_direct` writes for one resource record; the
RDLENGTH field is the two low bytes of `rdata.len()`. -/
def buildRecordBytes (r : ResourceRecordBuilder) : Except Error Bytes :=
  match encodeNameBytes r.name with
  | .error e => .error e
  | .ok nb =>
    .ok (nb ++ [r.rrType.toRRBytes.1, r.rrType.toRRBytes.2,
      r.rrClass.toRRBytes.1, r.rrClass.toRRBytes.2,
      (r.ttl >>> 24) % 256, (r.ttl >>> 16) % 256, (r.ttl >>> 8) % 256, r.ttl % 256,
      (r.rdata.length >>> 8) % 256, r.rdata.length % 256] ++ r.rdata)

/-- The question-section bytes of `build_encode_direct`. -/
def buildQuestionsBytes : List QuestionBuilder → Except Error Bytes
  | [] => .ok []
  | q :: rest =>
    match buildQuestionBytes q with
    | .error e => .error e
    | .ok qb =>
      match buildQuestionsBytes rest with
      | .error e => .error e
      | .ok rb => .ok (qb ++ rb)

/-- The record-section bytes of `build_encode_direct`. -/
def buildRecordsBytes : List ResourceRecordBuilder → Except Error Bytes
  | [] => .ok []
  | r :: rest =>
    match buildRecordBytes r with
    | .error e => .error e
    | .ok rb =>
      match buildRecordsBytes rest with
      | .error e => .error e
      | .ok rsb => .ok (rb ++ rsb)

/-- `MessageBuilder::build_encode_direct` (`src/src/builder.rs`): header of
`as u16` section counts, then the question, answer, authority and additional
sections in fixed order.  The sequential `resize`-and-write of the source
appends exactly these per-entry byte runs; a name whose non-empty dot-split
label exceeds 63 bytes fails `InvalidDomainName` (discovered in the same
section order as the source's pre-pass over the same names). -/
def MessageBuilder.buildEncodeDirect (b : MessageBuilder) : Except Error Bytes :=
  match buildQuestionsBytes b.questions with
  | .error e => .error e
  | .ok qb =>
    match buildRecordsBytes b.answers with
    | .error e => .error e
    | .ok ab =>
      match buildRecordsBytes b.authority with
      | .error e => .error e
      | .ok authb =>
        match buildRecordsBytes b.additional with
        | .error e => .error e
        | .ok addb =>
          .ok (headerBytes (builderHeader b) ++ qb ++ ab ++ authb ++ addb)

/-- `MessageBuilder::build` (`src/src/builder.rs`): encode directly, then
re-decode the fresh bytes through the message codec. -/
def MessageBuilder.build (b : MessageBuilder) : Except Error Message :=
  match b.buildEncodeDirect with
  | .error e => .error e
  | .ok buf => decodeMessage buf

end DnsIO

namespace DnsIO

/-! ## Arithmetic helpers -/

theorem or_eq_add_of_mod_eq_zero {x y n : Nat} (hx : x % 2 ^ n = 0) (hy : y < 2 ^ n) :
    x ||| y = x + y := by
  obtain ⟨c, rfl⟩ := Nat.dvd_of_mod_eq_zero hx
  exact (Nat.mul_add_lt_is_or hy c).symm

theorem shiftLeft8_or_eq_add (a b : Nat) (hb : b < 256) : (a <<< 8) ||| b = 256 * a + b := by
  rw [Nat.shiftLeft_eq]
  have h : a * 2 ^ 8 ||| b = a * 2 ^ 8 + b :=
    or_eq_add_of_mod_eq_zero (Nat.mul_mod_left a (2 ^ 8)) (by norm_num at hb ⊢; omega)
  rw [h]; ring

theorem be16_shiftRight (a b : Nat) (ha : a < 256) (hb : b < 256) :
    (((a <<< 8) ||| b) >>> 8) % 256 = a := by
  rw [shiftLeft8_or_eq_add a b hb, Nat.shiftRight_eq_div_pow]
  norm_num; omega

theorem be16_mod (a b : Nat) (hb : b < 256) : ((a <<< 8) ||| b) % 256 = b := by
  rw [shiftLeft8_or_eq_add a b hb]; omega

theorem be16_lt (a b : Nat) (ha : a < 256) (hb : b < 256) : (a <<< 8) ||| b < 65536 := by
  rw [shiftLeft8_or_eq_add a b hb]; omega

theorem split16_combine (v : Nat) (hv : v < 65536) :
    (((v >>> 8) % 256) <<< 8) ||| (v % 256) = v := by
  rw [shiftLeft8_or_eq_add _ _ (Nat.mod_lt _ (by norm_num)), Nat.shiftRight_eq_div_pow]
  norm_num; omega

theorem be32_eq_add (b4 b5 b6 b7 : Nat) (h5 : b5 < 256) (h6 : b6 < 256) (h7 : b7 < 256) :
    (b4 <<< 24) ||| (b5 <<< 16) ||| (b6 <<< 8) ||| b7 =
      16777216 * b4 + 65536 * b5 + 256 * b6 + b7 := by
  rw [Nat.shiftLeft_eq, Nat.shiftLeft_eq, Nat.shiftLeft_eq]
  have e1 : b4 * 2 ^ 24 ||| b5 * 2 ^ 16 = b4 * 2 ^ 24 + b5 * 2 ^ 16 := by
    refine @or_eq_add_of_mod_eq_zero _ _ 24 (Nat.mul_mod_left _ _) ?_
    norm_num; omega
  have m2 : (b4 * 2 ^ 24 + b5 * 2 ^ 16) % 2 ^ 16 = 0 := by
    norm_num [Nat.add_mod, Nat.mul_mod]
  have e2 : b4 * 2 ^ 24 + b5 * 2 ^ 16 ||| b6 * 2 ^ 8 = b4 * 2 ^ 24 + b5 * 2 ^ 16 + b6 * 2 ^ 8 := by
    refine @or_eq_add_of_mod_eq_zero _ _ 16 m2 ?_
    norm_num; omega
  have m3 : (b4 * 2 ^ 24 + b5 * 2 ^ 16 + b6 * 2 ^ 8) % 2 ^ 8 = 0 := by
    norm_num [Nat.add_mod, Nat.mul_mod]
  have e3 : b4 * 2 ^ 24 + b5 * 2 ^ 16 + b6 * 2 ^ 8 ||| b7 =
      b4 * 2 ^ 24 + b5 * 2 ^ 16 + b6 * 2 ^ 8 + b7 :=
    @or_eq_add_of_mod_eq_zero _ _ 8 m3 (by norm_num; omega)
  rw [e1, e2, e3]; ring

/-! ## List helpers -/

theorem getD_append {l l' : Bytes} {i : Nat} (h : i < l.length) :
    (l ++ l').getD i 0 = l.getD i 0 := by
  simp [List.getD, List.getElem?_append_left h]

theorem getD_append_right {l l' : Bytes} {i : Nat} :
    (l ++ l').getD (l.length + i) 0 = l'.getD i 0 := by
  simp [List.getD, List.getElem?_append_right (Nat.le_add_right _ _)]

theorem getD_drop (l : Bytes) (n i : Nat) : (l.drop n).getD i 0 = l.getD (n + i) 0 := by
  simp [List.getD, List.getElem?_drop]

theorem bytesWf_getD {data : Bytes} (h : bytesWf data) {i : Nat} (hi : i < data.length) :
    data.getD i 0 < 256 := by
  have : data.getD i 0 ∈ data := by
    rw [List.getD_eq_getElem _ _ hi]
    exact List.getElem_mem hi
  exact h _ this

theorem bytesWf_append {l l' : Bytes} (h : bytesWf l) (h' : bytesWf l') :
    bytesWf (l ++ l') := by
  intro b hb
  rcases List.mem_append.mp hb with hb | hb
  · exact h b hb
  · exact h' b hb

theorem bytesWf_drop {l : Bytes} (h : bytesWf l) (n : Nat) : bytesWf (l.drop n) :=
  fun b hb => h b (List.mem_of_mem_drop hb)

theorem bytesWf_take {l : Bytes} (h : bytesWf l) (n : Nat) : bytesWf (l.take n) :=
  fun b hb => h b (List.mem_of_mem_take hb)

theorem setRange_length {buf ws : Bytes} {off : Nat} (h : off + ws.length ≤ buf.length) :
    (setRange buf off ws).length = buf.length := by
  simp [setRange]; omega

end DnsIO

namespace DnsIO

theorem ite_beq_mod_two (x c : Nat) :
    (if (x % 2 == 1) then c else 0) = c * (x % 2) := by
  rcases Nat.mod_two_eq_zero_or_one x with h | h <;> simp [h]

/-- The flags bitfield occupies all 16 bits, so decompose-then-reassemble is
the identity on 16-bit words. -/
theorem flagsToU16_flagsFromU16 (v : Nat) (hv : v < 65536) :
    flagsToU16 (flagsFromU16 v) = v := by
  unfold flagsToU16 flagsFromU16
  simp only [ite_beq_mod_two, Nat.shiftRight_eq_div_pow]
  norm_num
  omega

theorem flags_fromBytes_toBytes (hi lo : Nat) (hhi : hi < 256) (hlo : lo < 256) :
    (Flags.fromFlagsBytes hi lo).toFlagsBytes = (hi, lo) := by
  unfold Flags.fromFlagsBytes Flags.toFlagsBytes
  rw [flagsToU16_flagsFromU16 _ (be16_lt hi lo hhi hlo)]
  rw [be16_shiftRight hi lo hhi hlo, be16_mod hi lo hlo]

end DnsIO

namespace DnsIO

/-! ## Step and fuel lemmas for the name-decoding loop -/

theorem decodeNameLoop_oob {data : Bytes} {mo off : Nat} {acc : List NameElement}
    {f : Nat} (h : data.length ≤ mo + off) :
    decodeNameLoop data mo f off acc = .error .insufficientData := by
  cases f with
  | zero => rfl
  | succ f => simp [decodeNameLoop, h]

theorem decodeNameLoop_congr (data : Bytes) (mo : Nat) :
    ∀ f₁ f₂ off acc, data.length ≤ mo + off + f₁ → data.length ≤ mo + off + f₂ →
      decodeNameLoop data mo f₁ off acc = decodeNameLoop data mo f₂ off acc := by
  intro f₁
  induction f₁ with
  | zero =>
    intro f₂ off acc h₁ h₂
    rw [decodeNameLoop_oob (by omega), decodeNameLoop_oob (by omega)]
  | succ f₁ ih =>
    intro f₂ off acc h₁ h₂
    by_cases hoob : data.length ≤ mo + off
    · rw [decodeNameLoop_oob hoob, decodeNameLoop_oob hoob]
    · cases f₂ with
      | zero => omega
      | succ f₂ =>
        have hguard : ¬ (mo + off ≥ data.length) := by omega
        simp only [decodeNameLoop, hguard, if_false]
        split_ifs
        all_goals first
          | rfl
          | (apply ih <;> omega)

theorem decodeNameLoop_root {data : Bytes} {mo off : Nat} {acc : List NameElement}
    (h : mo + off < data.length) (hb : data.getD (mo + off) 0 = 0) (f : Nat) :
    decodeNameLoop data mo (f + 1) off acc = .ok (acc ++ [.root], off + 1) := by
  have h' : ¬ (mo + off ≥ data.length) := by omega
  simp only [decodeNameLoop]
  rw [if_neg h', if_pos hb]

theorem decodeNameLoop_pointer {data : Bytes} {mo off : Nat} {acc : List NameElement}
    (h : mo + off < data.length) (h2 : mo + off + 1 < data.length)
    (hb : 192 ≤ data.getD (mo + off) 0) (f : Nat) :
    decodeNameLoop data mo (f + 1) off acc =
      .ok (acc ++ [.pointer (((data.getD (mo + off) 0 &&& 63) <<< 8) |||
        data.getD (mo + off + 1) 0)], off + 2) := by
  have h' : ¬ (mo + off ≥ data.length) := by omega
  have h0 : ¬ (data.getD (mo + off) 0 = 0) := by omega
  have h2' : ¬ (mo + off + 1 ≥ data.length) := by omega
  simp only [decodeNameLoop]
  rw [if_neg h', if_neg h0, if_pos hb, if_neg h2']

theorem decodeNameLoop_pointer_oob {data : Bytes} {mo off : Nat} {acc : List NameElement}
    (h : mo + off < data.length) (hb : 192 ≤ data.getD (mo + off) 0)
    (h2 : data.length ≤ mo + off + 1) (f : Nat) :
    decodeNameLoop data mo (f + 1) off acc = .error .insufficientData := by
  have h' : ¬ (mo + off ≥ data.length) := by omega
  have h0 : ¬ (data.getD (mo + off) 0 = 0) := by omega
  simp only [decodeNameLoop]
  rw [if_neg h', if_neg h0, if_pos hb, if_pos h2]

theorem decodeNameLoop_reserved_step {data : Bytes} {mo off : Nat} {acc : List NameElement}
    (h : mo + off < data.length) (hb : 64 ≤ data.getD (mo + off) 0)
    (hb2 : data.getD (mo + off) 0 < 192) (f : Nat) :
    decodeNameLoop data mo (f + 1) off acc =
      decodeNameLoop data mo f (off + 1) (acc ++ [.reserved]) := by
  have h' : ¬ (mo + off ≥ data.length) := by omega
  have h0 : ¬ (data.getD (mo + off) 0 = 0) := by omega
  have h192 : ¬ (data.getD (mo + off) 0 ≥ 192) := by omega
  simp only [decodeNameLoop]
  rw [if_neg h', if_neg h0, if_neg h192, if_pos hb]

theorem decodeNameLoop_label_step {data : Bytes} {mo off : Nat} {acc : List NameElement}
    (h : mo + off < data.length) (hb1 : 1 ≤ data.getD (mo + off) 0)
    (hb2 : data.getD (mo + off) 0 ≤ 63)
    (hfit : mo + off + 1 + data.getD (mo + off) 0 ≤ data.length) (f : Nat) :
    decodeNameLoop data mo (f + 1) off acc =
      decodeNameLoop data mo f (off + 1 + data.getD (mo + off) 0)
        (acc ++ [.label ⟨data.getD (mo + off) 0,
          (data.drop (mo + off + 1)).take (data.getD (mo + off) 0)⟩]) := by
  have h' : ¬ (mo + off ≥ data.length) := by omega
  have h0 : ¬ (data.getD (mo + off) 0 = 0) := by omega
  have h192 : ¬ (data.getD (mo + off) 0 ≥ 192) := by omega
  have h64 : ¬ (data.getD (mo + off) 0 ≥ 64) := by omega
  have h63 : ¬ (data.getD (mo + off) 0 > 63) := by omega
  have hfit' : ¬ (mo + off + 1 + data.getD (mo + off) 0 > data.length) := by omega
  simp only [decodeNameLoop]
  rw [if_neg h', if_neg h0, if_neg h192, if_neg h64, if_neg h63, if_neg hfit']

theorem decodeNameLoop_label_oob {data : Bytes} {mo off : Nat} {acc : List NameElement}
    (h : mo + off < data.length) (hb1 : 1 ≤ data.getD (mo + off) 0)
    (hb2 : data.getD (mo + off) 0 ≤ 63)
    (hnofit : data.length < mo + off + 1 + data.getD (mo + off) 0) (f : Nat) :
    decodeNameLoop data mo (f + 1) off acc = .error .insufficientData := by
  have h' : ¬ (mo + off ≥ data.length) := by omega
  have h0 : ¬ (data.getD (mo + off) 0 = 0) := by omega
  have h192 : ¬ (data.getD (mo + off) 0 ≥ 192) := by omega
  have h64 : ¬ (data.getD (mo + off) 0 ≥ 64) := by omega
  have h63 : ¬ (data.getD (mo + off) 0 > 63) := by omega
  have hfit' : mo + off + 1 + data.getD (mo + off) 0 > data.length := by omega
  simp only [decodeNameLoop]
  rw [if_neg h', if_neg h0, if_neg h192, if_neg h64, if_neg h63, if_pos hfit']

end DnsIO

namespace DnsIO

/-- On any input the name loop either succeeds or reports missing data: the
`InvalidDomainName` branch is dead because the four length-byte bands cover
every value. -/
theorem decodeNameLoop_ok_or_insufficient (data : Bytes) (mo : Nat) :
    ∀ f off acc, (∃ r, decodeNameLoop data mo f off acc = .ok r) ∨
      decodeNameLoop data mo f off acc = .error .insufficientData := by
  intro f
  induction f with
  | zero => intro off acc; exact .inr rfl
  | succ f ih =>
    intro off acc
    by_cases hoob : data.length ≤ mo + off
    · exact .inr (decodeNameLoop_oob hoob)
    · have h : mo + off < data.length := by omega
      rcases Nat.lt_or_ge (data.getD (mo + off) 0) 1 with hb | hb
      · exact .inl ⟨_, decodeNameLoop_root h (by omega) f⟩
      · rcases Nat.lt_or_ge (data.getD (mo + off) 0) 64 with hb2 | hb2
        · rcases Nat.lt_or_ge data.length (mo + off + 1 + data.getD (mo + off) 0) with hfit | hfit
          · exact .inr (decodeNameLoop_label_oob h hb (by omega) hfit f)
          · rw [decodeNameLoop_label_step h hb (by omega) hfit f]
            exact ih _ _
        · rcases Nat.lt_or_ge (data.getD (mo + off) 0) 192 with hb3 | hb3
          · rw [decodeNameLoop_reserved_step h hb2 hb3 f]
            exact ih _ _
          · rcases Nat.lt_or_ge (mo + off + 1) data.length with h2 | h2
            · exact .inl ⟨_, decodeNameLoop_pointer h h2 hb3 f⟩
            · exact .inr (decodeNameLoop_pointer_oob h hb3 h2 f)

/-- Every successful run of the name loop appends a single terminal element
(Root or Pointer), and it comes last. -/
theorem decodeNameLoop_terminal (data : Bytes) (mo : Nat) :
    ∀ f off acc elems len, (∀ e ∈ acc, e.isTerminal = false) →
      decodeNameLoop data mo f off acc = .ok (elems, len) →
      ∃ pre e, elems = pre ++ [e] ∧ e.isTerminal = true ∧
        ∀ x ∈ pre, x.isTerminal = false := by
  intro f
  induction f with
  | zero => intro off acc elems len _ hrun; exact absurd hrun (by simp [decodeNameLoop])
  | succ f ih =>
    intro off acc elems len hacc hrun
    by_cases hoob : data.length ≤ mo + off
    · rw [decodeNameLoop_oob hoob] at hrun; exact absurd hrun (by simp)
    · have h : mo + off < data.length := by omega
      rcases Nat.lt_or_ge (data.getD (mo + off) 0) 1 with hb | hb
      · rw [decodeNameLoop_root h (by omega) f] at hrun
        simp only [Except.ok.injEq, Prod.mk.injEq] at hrun
        obtain ⟨helems, -⟩ := hrun
        exact ⟨acc, .root, helems.symm, rfl, hacc⟩
      · rcases Nat.lt_or_ge (data.getD (mo + off) 0) 64 with hb2 | hb2
        · rcases Nat.lt_or_ge data.length (mo + off + 1 + data.getD (mo + off) 0) with hfit | hfit
          · rw [decodeNameLoop_label_oob h hb (by omega) hfit f] at hrun
            exact absurd hrun (by simp)
          · rw [decodeNameLoop_label_step h hb (by omega) hfit f] at hrun
            refine ih _ _ _ _ ?_ hrun
            intro e he
            rcases List.mem_append.mp he with he | he
            · exact hacc e he
            · simp at he; subst he; rfl
        · rcases Nat.lt_or_ge (data.getD (mo + off) 0) 192 with hb3 | hb3
          · rw [decodeNameLoop_reserved_step h hb2 hb3 f] at hrun
            refine ih _ _ _ _ ?_ hrun
            intro e he
            rcases List.mem_append.mp he with he | he
            · exact hacc e he
            · simp at he; subst he; rfl
          · rcases Nat.lt_or_ge (mo + off + 1) data.length with h2 | h2
            · rw [decodeNameLoop_pointer h h2 hb3 f] at hrun
              simp only [Except.ok.injEq, Prod.mk.injEq] at hrun
              obtain ⟨helems, -⟩ := hrun
              exact ⟨acc, .pointer ((data.getD (mo + off) 0 &&& 63) <<< 8 |||
                data.getD (mo + off + 1) 0), helems.symm, rfl, hacc⟩
            · rw [decodeNameLoop_pointer_oob h hb3 h2 f] at hrun
              exact absurd hrun (by simp)

end DnsIO

namespace DnsIO

/-- C5: a buffer shorter than 12 bytes fails `InvalidHeaderLength`; a buffer
of at least 12 bytes decodes to consumed length 12 and a header whose id,
flags and the four counts question/answer/authority/additional are parsed as
big-endian 16-bit fields from bytes 0–1, 2–3 and 4–11 in that fixed order. -/
theorem c5_header_fixed_layout (data : Bytes) :
    (data.length < 12 → decodeHeader data = .error .invalidHeaderLength) ∧
    (12 ≤ data.length → bytesWf data →
      decodeHeader data = .ok
        ({ id := 256 * data.getD 0 0 + data.getD 1 0
           flags := Flags.fromFlagsBytes (data.getD 2 0) (data.getD 3 0)
           qdCount := 256 * data.getD 4 0 + data.getD 5 0
           anCount := 256 * data.getD 6 0 + data.getD 7 0
           nsCount := 256 * data.getD 8 0 + data.getD 9 0
           arCount := 256 * data.getD 10 0 + data.getD 11 0 }, 12)) := by
  constructor
  · intro h
    simp [decodeHeader, h]
  · intro h hwf
    have hb : ∀ i, i < 12 → data.getD i 0 < 256 := fun i hi =>
      bytesWf_getD hwf (lt_of_lt_of_le hi h)
    simp only [decodeHeader]
    rw [if_neg (by omega)]
    rw [shiftLeft8_or_eq_add _ _ (hb 1 (by norm_num)),
      shiftLeft8_or_eq_add _ _ (hb 5 (by norm_num)),
      shiftLeft8_or_eq_add _ _ (hb 7 (by norm_num)),
      shiftLeft8_or_eq_add _ _ (hb 9 (by norm_num)),
      shiftLeft8_or_eq_add _ _ (hb 11 (by norm_num))]

/-- Witness for C5 at two concrete buffers, one per branch. -/
theorem c5_witness :
    decodeHeader [0, 1, 2] = .error .invalidHeaderLength ∧
    decodeHeader [0, 1, 1, 0, 0, 1, 0, 0, 0, 0, 0, 0] =
      .ok ({ id := 1, flags := Flags.fromFlagsBytes 1 0, qdCount := 1,
             anCount := 0, nsCount := 0, arCount := 0 }, 12) :=
  ⟨(c5_header_fixed_layout [0, 1, 2]).1 (by decide),
   (c5_header_fixed_layout [0, 1, 1, 0, 0, 1, 0, 0, 0, 0, 0, 0]).2
     (by decide) (by decide)⟩

/-- C8: `decode_name` never returns `InvalidDomainName` — the four
length-byte bands are exhaustive, so the only outcomes are success or
`InsufficientData`. -/
theorem c8_name_bands_exhaustive (data : Bytes) (messageOffset : Nat) :
    (∃ r, decodeName data messageOffset = .ok r) ∨
      decodeName data messageOffset = .error .insufficientData :=
  decodeNameLoop_ok_or_insufficient data messageOffset data.length 0 []

/-- Witness for C8 at concrete buffers covering both outcomes. -/
theorem c8_witness :
    ((∃ r, decodeName [3, 97, 98, 99, 0] 0 = .ok r) ∨
      decodeName [3, 97, 98, 99, 0] 0 = .error .insufficientData) ∧
    ((∃ r, decodeName [70, 1] 0 = .ok r) ∨
      decodeName [70, 1] 0 = .error .insufficientData) :=
  ⟨c8_name_bands_exhaustive [3, 97, 98, 99, 0] 0, c8_name_bands_exhaustive [70, 1] 0⟩

/-- C4: each step of `decode_name` is determined by the next length byte —
0 appends Root and terminates after 1 byte; ≥ 192 consumes exactly 2 bytes
and appends a Pointer of value `((byte0 &&& 0x3F) <<< 8) ||| byte1`; a byte
in [64,191] consumes 1 byte, appends Reserved and continues; a byte in
[1,63] consumes 1 + that many payload bytes as a Label and continues; and
every successful decode has exactly one terminal element (Root or Pointer),
in last position. -/
theorem c4_name_step_bands (data : Bytes) (mo off : Nat) (acc : List NameElement) (f : Nat) :
    (data.getD (mo + off) 0 = 0 → mo + off < data.length →
      decodeNameLoop data mo (f + 1) off acc = .ok (acc ++ [.root], off + 1)) ∧
    (192 ≤ data.getD (mo + off) 0 → mo + off + 1 < data.length →
      decodeNameLoop data mo (f + 1) off acc =
        .ok (acc ++ [.pointer (((data.getD (mo + off) 0 &&& 63) <<< 8) |||
          data.getD (mo + off + 1) 0)], off + 2)) ∧
    (64 ≤ data.getD (mo + off) 0 → data.getD (mo + off) 0 ≤ 191 →
      mo + off < data.length →
      decodeNameLoop data mo (f + 1) off acc =
        decodeNameLoop data mo f (off + 1) (acc ++ [.reserved])) ∧
    (1 ≤ data.getD (mo + off) 0 → data.getD (mo + off) 0 ≤ 63 →
      mo + off + 1 + data.getD (mo + off) 0 ≤ data.length →
      decodeNameLoop data mo (f + 1) off acc =
        decodeNameLoop data mo f (off + 1 + data.getD (mo + off) 0)
          (acc ++ [.label ⟨data.getD (mo + off) 0,
            (data.drop (mo + off + 1)).take (data.getD (mo + off) 0)⟩])) ∧
    (∀ elems len, decodeName data mo = .ok (elems, len) →
      ∃ pre e, elems = pre ++ [e] ∧ e.isTerminal = true ∧
        ∀ x ∈ pre, x.isTerminal = false) := by
  refine ⟨fun hb h => decodeNameLoop_root h hb f,
    fun hb h2 => decodeNameLoop_pointer (by omega) h2 hb f,
    fun hb hb2 h => decodeNameLoop_reserved_step h hb (by omega) f,
    fun hb1 hb2 hfit => decodeNameLoop_label_step (by omega) hb1 hb2 hfit f,
    fun elems len hrun => decodeNameLoop_terminal data mo data.length 0 [] elems len
      (by intro e he; simp at he) hrun⟩

/-- Witness for C4: all five conjuncts applied at concrete one-name buffers. -/
theorem c4_witness :
    decodeNameLoop [0] 0 1 0 [] = .ok ([.root], 1) ∧
    decodeNameLoop [192, 5] 0 1 0 [] = .ok ([.pointer 5], 2) ∧
    decodeNameLoop [70, 0] 0 2 0 [] = decodeNameLoop [70, 0] 0 1 1 [.reserved] ∧
    decodeNameLoop [1, 97, 0] 0 3 0 [] =
      decodeNameLoop [1, 97, 0] 0 2 2 [.label ⟨1, [97]⟩] ∧
    (∃ pre e, [NameElement.label ⟨1, [97]⟩, .root] = pre ++ [e] ∧
      e.isTerminal = true ∧ ∀ x ∈ pre, x.isTerminal = false) :=
  ⟨(c4_name_step_bands [0] 0 0 [] 0).1 (by decide) (by decide),
   (c4_name_step_bands [192, 5] 0 0 [] 0).2.1 (by decide) (by decide),
   (c4_name_step_bands [70, 0] 0 0 [] 1).2.2.1 (by decide) (by decide) (by decide),
   (c4_name_step_bands [1, 97, 0] 0 0 [] 2).2.2.2.1 (by decide) (by decide) (by decide),
   (c4_name_step_bands [1, 97, 0] 0 0 [] 0).2.2.2.2 [.label ⟨1, [97]⟩, .root] 3 (by decide)⟩

end DnsIO

namespace DnsIO

theorem extract_append {data e : Bytes} {k b : Nat} (h : k + b ≤ data.length) :
    ((data ++ e).drop k).take b = (data.drop k).take b := by
  rw [List.drop_append_of_le_length (by omega)]
  rw [List.take_append_of_le_length (by simp; omega)]

/-- Successful runs of the name loop are preserved by extra fuel. -/
theorem decodeNameLoop_fuel_mono (data : Bytes) (mo : Nat) :
    ∀ f f' off acc r, f ≤ f' → decodeNameLoop data mo f off acc = .ok r →
      decodeNameLoop data mo f' off acc = .ok r := by
  intro f
  induction f with
  | zero => intro f' off acc r _ hrun; exact absurd hrun (by simp [decodeNameLoop])
  | succ f ih =>
    intro f' off acc r hle hrun
    obtain ⟨f'', rfl⟩ : ∃ f'', f' = f'' + 1 := ⟨f' - 1, by omega⟩
    by_cases hoob : data.length ≤ mo + off
    · rw [decodeNameLoop_oob hoob] at hrun; exact absurd hrun (by simp)
    · have h : mo + off < data.length := by omega
      rcases Nat.lt_or_ge (data.getD (mo + off) 0) 1 with hb | hb
      · rw [decodeNameLoop_root h (by omega) f] at hrun
        rw [decodeNameLoop_root h (by omega) f'']
        exact hrun
      · rcases Nat.lt_or_ge (data.getD (mo + off) 0) 64 with hb2 | hb2
        · rcases Nat.lt_or_ge data.length (mo + off + 1 + data.getD (mo + off) 0) with hfit | hfit
          · rw [decodeNameLoop_label_oob h hb (by omega) hfit f] at hrun
            exact absurd hrun (by simp)
          · rw [decodeNameLoop_label_step h hb (by omega) hfit f] at hrun
            rw [decodeNameLoop_label_step h hb (by omega) hfit f'']
            exact ih f'' _ _ _ (by omega) hrun
        · rcases Nat.lt_or_ge (data.getD (mo + off) 0) 192 with hb3 | hb3
          · rw [decodeNameLoop_reserved_step h hb2 hb3 f] at hrun
            rw [decodeNameLoop_reserved_step h hb2 hb3 f'']
            exact ih f'' _ _ _ (by omega) hrun
          · rcases Nat.lt_or_ge (mo + off + 1) data.length with h2 | h2
            · rw [decodeNameLoop_pointer h h2 hb3 f] at hrun
              rw [decodeNameLoop_pointer h h2 hb3 f'']
              exact hrun
            · rw [decodeNameLoop_pointer_oob h hb3 h2 f] at hrun
              exact absurd hrun (by simp)

/-- Successful runs of the name loop never look past the bytes they consume:
appending to the buffer changes nothing. -/
theorem decodeNameLoop_append (data extra : Bytes) (mo : Nat) :
    ∀ f off acc r, decodeNameLoop data mo f off acc = .ok r →
      decodeNameLoop (data ++ extra) mo f off acc = .ok r := by
  intro f
  induction f with
  | zero => intro off acc r hrun; exact absurd hrun (by simp [decodeNameLoop])
  | succ f ih =>
    intro off acc r hrun
    by_cases hoob : data.length ≤ mo + off
    · rw [decodeNameLoop_oob hoob] at hrun; exact absurd hrun (by simp)
    · have h : mo + off < data.length := by omega
      have h' : mo + off < (data ++ extra).length := by simp; omega
      have hg : (data ++ extra).getD (mo + off) 0 = data.getD (mo + off) 0 := getD_append h
      rcases Nat.lt_or_ge (data.getD (mo + off) 0) 1 with hb | hb
      · rw [decodeNameLoop_root h (by omega) f] at hrun
        rw [decodeNameLoop_root h' (by omega) f]
        exact hrun
      · rcases Nat.lt_or_ge (data.getD (mo + off) 0) 64 with hb2 | hb2
        · rcases Nat.lt_or_ge data.length (mo + off + 1 + data.getD (mo + off) 0) with hfit | hfit
          · rw [decodeNameLoop_label_oob h hb (by omega) hfit f] at hrun
            exact absurd hrun (by simp)
          · rw [decodeNameLoop_label_step h hb (by omega) hfit f] at hrun
            have hstep := @decodeNameLoop_label_step (data ++ extra) mo off acc h' (by omega)
              (by rw [hg]; omega) (by rw [hg]; simp only [List.length_append]; omega) f
            rw [hstep, hg, extract_append (by omega)]
            exact ih _ _ _ hrun
        · rcases Nat.lt_or_ge (data.getD (mo + off) 0) 192 with hb3 | hb3
          · rw [decodeNameLoop_reserved_step h hb2 hb3 f] at hrun
            rw [decodeNameLoop_reserved_step h' (by omega) (by omega) f]
            exact ih _ _ _ hrun
          · rcases Nat.lt_or_ge (mo + off + 1) data.length with h2 | h2
            · rw [decodeNameLoop_pointer h h2 hb3 f] at hrun
              have h2' : mo + off + 1 < (data ++ extra).length := by simp; omega
              rw [decodeNameLoop_pointer h' h2' (by omega) f, hg,
                @getD_append data extra _ h2]
              exact hrun
            · rw [decodeNameLoop_pointer_oob h hb3 h2 f] at hrun
              exact absurd hrun (by simp)

/-- `decode_name` ignores bytes after the name it consumes. -/
theorem decodeName_append {data extra : Bytes} {mo : Nat}
    {r : List NameElement × Nat} (hrun : decodeName data mo = .ok r) :
    decodeName (data ++ extra) mo = .ok r := by
  unfold decodeName at hrun ⊢
  exact decodeNameLoop_fuel_mono (data ++ extra) mo data.length (data ++ extra).length 0 []
    r (by simp) (decodeNameLoop_append data extra mo data.length 0 [] r hrun)

end DnsIO

namespace DnsIO

theorem decodeQuestionLoop_offset_le (dataS msg : Bytes) (mo : Nat) :
    ∀ n off acc qs off', off ≤ dataS.length →
      decodeQuestionLoop dataS msg mo n off acc = .ok (qs, off') →
      off' ≤ dataS.length := by
  intro n
  induction n with
  | zero =>
    intro off acc qs off' hle hrun
    simp only [decodeQuestionLoop, Except.ok.injEq, Prod.mk.injEq] at hrun
    omega
  | succ n ih =>
    intro off acc qs off' hle hrun
    simp only [decodeQuestionLoop] at hrun
    cases hname : decodeName msg (mo + off) with
    | error e => rw [hname] at hrun; exact absurd hrun (by simp)
    | ok p =>
      obtain ⟨qName, qNameEnd⟩ := p
      rw [hname] at hrun
      dsimp only at hrun
      by_cases hguard : off + qNameEnd + 4 > dataS.length
      · rw [if_pos hguard] at hrun; exact absurd hrun (by simp)
      · rw [if_neg hguard] at hrun
        exact ih _ _ _ _ (by omega) hrun

theorem decodeQuestionLoop_append (dataS msg e₁ e₂ : Bytes) (mo : Nat) :
    ∀ n off acc r, decodeQuestionLoop dataS msg mo n off acc = .ok r →
      decodeQuestionLoop (dataS ++ e₁) (msg ++ e₂) mo n off acc = .ok r := by
  intro n
  induction n with
  | zero => intro off acc r hrun; exact hrun
  | succ n ih =>
    intro off acc r hrun
    simp only [decodeQuestionLoop] at hrun ⊢
    cases hname : decodeName msg (mo + off) with
    | error e => rw [hname] at hrun; exact absurd hrun (by simp)
    | ok p =>
      obtain ⟨qName, qNameEnd⟩ := p
      rw [hname] at hrun
      dsimp only at hrun
      rw [decodeName_append hname]
      dsimp only
      by_cases hguard : off + qNameEnd + 4 > dataS.length
      · rw [if_pos hguard] at hrun; exact absurd hrun (by simp)
      · rw [if_neg hguard] at hrun
        rw [if_neg (by simp; omega)]
        have hg : ∀ i, i < dataS.length → (dataS ++ e₁).getD i 0 = dataS.getD i 0 :=
          fun i hi => getD_append hi
        rw [hg (off + qNameEnd) (by omega), hg (off + qNameEnd + 1) (by omega),
          hg (off + qNameEnd + 2) (by omega), hg (off + qNameEnd + 3) (by omega)]
        exact ih _ _ _ hrun

theorem decodeQuestion_offset_le {dataS msg : Bytes} {mo n : Nat}
    {qs : List Question} {qLen : Nat}
    (hrun : decodeQuestion dataS msg mo n = .ok (qs, qLen)) : qLen ≤ dataS.length := by
  unfold decodeQuestion at hrun
  by_cases hn : n = 0
  · rw [if_pos hn] at hrun
    simp only [Except.ok.injEq, Prod.mk.injEq] at hrun
    omega
  · rw [if_neg hn] at hrun
    exact decodeQuestionLoop_offset_le dataS msg mo n 0 [] qs qLen (by omega) hrun

theorem decodeQuestion_append {dataS msg e₁ e₂ : Bytes} {mo n : Nat}
    {r : List Question × Nat} (hrun : decodeQuestion dataS msg mo n = .ok r) :
    decodeQuestion (dataS ++ e₁) (msg ++ e₂) mo n = .ok r := by
  unfold decodeQuestion at hrun ⊢
  by_cases hn : n = 0
  · rw [if_pos hn] at hrun ⊢; exact hrun
  · rw [if_neg hn] at hrun ⊢
    exact decodeQuestionLoop_append dataS msg e₁ e₂ mo n 0 [] r hrun

theorem decodeResourceRecord_consumed_le {dataS msg : Bytes} {mo : Nat}
    {rec : ResourceRecord} {consumed : Nat}
    (hrun : decodeResourceRecord dataS msg mo = .ok (rec, consumed)) :
    consumed ≤ dataS.length := by
  unfold decodeResourceRecord at hrun
  cases hname : decodeName msg mo with
  | error e => rw [hname] at hrun; exact absurd hrun (by simp)
  | ok p =>
    obtain ⟨name, nameEnd⟩ := p
    rw [hname] at hrun
    dsimp only at hrun
    by_cases hguard : nameEnd + 10 > dataS.length
    · rw [if_pos hguard] at hrun; exact absurd hrun (by simp)
    · rw [if_neg hguard] at hrun
      by_cases hguard2 : nameEnd + 10 +
          ((dataS.getD (nameEnd + 8) 0 <<< 8) ||| dataS.getD (nameEnd + 9) 0) > dataS.length
      · rw [if_pos hguard2] at hrun; exact absurd hrun (by simp)
      · rw [if_neg hguard2] at hrun
        simp only [Except.ok.injEq, Prod.mk.injEq] at hrun
        omega

theorem decodeResourceRecord_append {dataS msg e₁ e₂ : Bytes} {mo : Nat}
    {r : ResourceRecord × Nat} (hrun : decodeResourceRecord dataS msg mo = .ok r) :
    decodeResourceRecord (dataS ++ e₁) (msg ++ e₂) mo = .ok r := by
  unfold decodeResourceRecord at hrun ⊢
  cases hname : decodeName msg mo with
  | error e => rw [hname] at hrun; exact absurd hrun (by simp)
  | ok p =>
    obtain ⟨name, nameEnd⟩ := p
    rw [hname] at hrun
    dsimp only at hrun
    rw [decodeName_append hname]
    dsimp only
    by_cases hguard : nameEnd + 10 > dataS.length
    · rw [if_pos hguard] at hrun; exact absurd hrun (by simp)
    · rw [if_neg hguard] at hrun
      rw [if_neg (by simp; omega)]
      have hg : ∀ i, i < dataS.length → (dataS ++ e₁).getD i 0 = dataS.getD i 0 :=
        fun i hi => getD_append hi
      rw [hg nameEnd (by omega), hg (nameEnd + 1) (by omega), hg (nameEnd + 2) (by omega),
        hg (nameEnd + 3) (by omega), hg (nameEnd + 4) (by omega), hg (nameEnd + 5) (by omega),
        hg (nameEnd + 6) (by omega), hg (nameEnd + 7) (by omega), hg (nameEnd + 8) (by omega),
        hg (nameEnd + 9) (by omega)]
      by_cases hguard2 : nameEnd + 10 +
          ((dataS.getD (nameEnd + 8) 0 <<< 8) ||| dataS.getD (nameEnd + 9) 0) > dataS.length
      · rw [if_pos hguard2] at hrun; exact absurd hrun (by simp)
      · rw [if_neg hguard2] at hrun
        rw [if_neg (by simp only [List.length_append]; omega)]
        rw [extract_append (by omega)]
        exact hrun

theorem decodeResourceRecordsLoop_offset_le (dataS msg : Bytes) (mo : Nat) :
    ∀ n off acc rs off', off ≤ dataS.length →
      decodeResourceRecordsLoop dataS msg mo n off acc = .ok (rs, off') →
      off' ≤ dataS.length := by
  intro n
  induction n with
  | zero =>
    intro off acc rs off' hle hrun
    simp only [decodeResourceRecordsLoop, Except.ok.injEq, Prod.mk.injEq] at hrun
    omega
  | succ n ih =>
    intro off acc rs off' hle hrun
    simp only [decodeResourceRecordsLoop] at hrun
    cases hrec : decodeResourceRecord (dataS.drop off) msg (mo + off) with
    | error e => rw [hrec] at hrun; exact absurd hrun (by simp)
    | ok p =>
      obtain ⟨record, bytesRead⟩ := p
      rw [hrec] at hrun
      dsimp only at hrun
      have hb := decodeResourceRecord_consumed_le hrec
      simp only [List.length_drop] at hb
      exact ih _ _ _ _ (by omega) hrun

theorem decodeResourceRecordsLoop_append (dataS msg e₁ e₂ : Bytes) (mo : Nat) :
    ∀ n off acc r, off ≤ dataS.length →
      decodeResourceRecordsLoop dataS msg mo n off acc = .ok r →
      decodeResourceRecordsLoop (dataS ++ e₁) (msg ++ e₂) mo n off acc = .ok r := by
  intro n
  induction n with
  | zero => intro off acc r _ hrun; exact hrun
  | succ n ih =>
    intro off acc r hle hrun
    simp only [decodeResourceRecordsLoop] at hrun ⊢
    cases hrec : decodeResourceRecord (dataS.drop off) msg (mo + off) with
    | error e => rw [hrec] at hrun; exact absurd hrun (by simp)
    | ok p =>
      obtain ⟨record, bytesRead⟩ := p
      rw [hrec] at hrun
      dsimp only at hrun
      have hb := decodeResourceRecord_consumed_le hrec
      simp only [List.length_drop] at hb
      have hdrop : (dataS ++ e₁).drop off = dataS.drop off ++ e₁ :=
        List.drop_append_of_le_length hle
      rw [hdrop, decodeResourceRecord_append hrec]
      dsimp only
      exact ih _ _ _ (by omega) hrun

theorem decodeResourceRecords_offset_le {dataS msg : Bytes} {mo n : Nat}
    {rs : List ResourceRecord} {rLen : Nat}
    (hrun : decodeResourceRecords dataS msg mo n = .ok (rs, rLen)) : rLen ≤ dataS.length := by
  unfold decodeResourceRecords at hrun
  by_cases hn : n = 0
  · rw [if_pos hn] at hrun
    simp only [Except.ok.injEq, Prod.mk.injEq] at hrun
    omega
  · rw [if_neg hn] at hrun
    exact decodeResourceRecordsLoop_offset_le dataS msg mo n 0 [] rs rLen (by omega) hrun

theorem decodeResourceRecords_append {dataS msg e₁ e₂ : Bytes} {mo n : Nat}
    {r : List ResourceRecord × Nat} (hrun : decodeResourceRecords dataS msg mo n = .ok r) :
    decodeResourceRecords (dataS ++ e₁) (msg ++ e₂) mo n = .ok r := by
  unfold decodeResourceRecords at hrun ⊢
  by_cases hn : n = 0
  · rw [if_pos hn] at hrun ⊢; exact hrun
  · rw [if_neg hn] at hrun ⊢
    exact decodeResourceRecordsLoop_append dataS msg e₁ e₂ mo n 0 [] r (by omega) hrun

theorem decodeHeader_ok_facts {data : Bytes} {h : Header} {idx : Nat}
    (hrun : decodeHeader data = .ok (h, idx)) : idx = 12 ∧ 12 ≤ data.length := by
  unfold decodeHeader at hrun
  by_cases hlen : data.length < 12
  · rw [if_pos hlen] at hrun; exact absurd hrun (by simp)
  · rw [if_neg hlen] at hrun
    simp only [Except.ok.injEq, Prod.mk.injEq] at hrun
    omega

theorem decodeHeader_append {data extra : Bytes} {r : Header × Nat}
    (hrun : decodeHeader data = .ok r) : decodeHeader (data ++ extra) = .ok r := by
  obtain ⟨h, idx⟩ := r
  obtain ⟨-, hlen⟩ := decodeHeader_ok_facts hrun
  unfold decodeHeader at hrun ⊢
  rw [if_neg (by omega)] at hrun
  rw [if_neg (by simp; omega)]
  have hg : ∀ i, i < data.length → (data ++ extra).getD i 0 = data.getD i 0 :=
    fun i hi => getD_append hi
  rw [hg 0 (by omega), hg 1 (by omega), hg 2 (by omega), hg 3 (by omega),
    hg 4 (by omega), hg 5 (by omega), hg 6 (by omega), hg 7 (by omega),
    hg 8 (by omega), hg 9 (by omega), hg 10 (by omega), hg 11 (by omega)]
  exact hrun

end DnsIO

namespace DnsIO

/-- C10: whatever `decode_message` accepts, it still accepts — with a
field-for-field identical result — after arbitrary extra bytes are appended:
bytes beyond the four declared sections are never read. -/
theorem c10_trailing_bytes_ignored (data extra : Bytes) (m : Message)
    (h : decodeMessage data = .ok m) : decodeMessage (data ++ extra) = .ok m := by
  unfold decodeMessage at h ⊢
  cases hh : decodeHeader data with
  | error e => rw [hh] at h; exact absurd h (by simp)
  | ok p =>
    obtain ⟨header, headerIndex⟩ := p
    obtain ⟨hidx, hlen⟩ := decodeHeader_ok_facts hh
    subst hidx
    rw [hh] at h
    dsimp only at h
    rw [decodeHeader_append hh]
    dsimp only
    cases hq : decodeQuestion (data.drop 12) data 12 header.qdCount with
    | error e => rw [hq] at h; exact absurd h (by simp)
    | ok pq =>
      obtain ⟨questions, qLen⟩ := pq
      rw [hq] at h
      dsimp only at h
      have hqb := decodeQuestion_offset_le hq
      simp only [List.length_drop] at hqb
      have hq' : decodeQuestion ((data ++ extra).drop 12) (data ++ extra) 12
          header.qdCount = .ok (questions, qLen) := by
        rw [List.drop_append_of_le_length hlen]
        exact decodeQuestion_append hq
      rw [hq']
      dsimp only
      cases ha : decodeResourceRecords (data.drop (12 + qLen)) data (12 + qLen)
          header.anCount with
      | error e => rw [ha] at h; exact absurd h (by simp)
      | ok pa =>
        obtain ⟨answers, aLen⟩ := pa
        rw [ha] at h
        dsimp only at h
        have hab := decodeResourceRecords_offset_le ha
        simp only [List.length_drop] at hab
        have ha' : decodeResourceRecords ((data ++ extra).drop (12 + qLen)) (data ++ extra)
            (12 + qLen) header.anCount = .ok (answers, aLen) := by
          rw [List.drop_append_of_le_length (by omega)]
          exact decodeResourceRecords_append ha
        rw [ha']
        dsimp only
        cases hn : decodeResourceRecords (data.drop (12 + qLen + aLen)) data
            (12 + qLen + aLen) header.nsCount with
        | error e => rw [hn] at h; exact absurd h (by simp)
        | ok pn =>
          obtain ⟨authority, nLen⟩ := pn
          rw [hn] at h
          dsimp only at h
          have hnb := decodeResourceRecords_offset_le hn
          simp only [List.length_drop] at hnb
          have hn' : decodeResourceRecords ((data ++ extra).drop (12 + qLen + aLen))
              (data ++ extra) (12 + qLen + aLen) header.nsCount = .ok (authority, nLen) := by
            rw [List.drop_append_of_le_length (by omega)]
            exact decodeResourceRecords_append hn
          rw [hn']
          dsimp only
          cases hr : decodeResourceRecords (data.drop (12 + qLen + aLen + nLen)) data
              (12 + qLen + aLen + nLen) header.arCount with
          | error e => rw [hr] at h; exact absurd h (by simp)
          | ok pr =>
            obtain ⟨additional, rLen⟩ := pr
            rw [hr] at h
            dsimp only at h
            have hr' : decodeResourceRecords ((data ++ extra).drop (12 + qLen + aLen + nLen))
                (data ++ extra) (12 + qLen + aLen + nLen) header.arCount =
                  .ok (additional, rLen) := by
              rw [List.drop_append_of_le_length (by omega)]
              exact decodeResourceRecords_append hr
            rw [hr']
            dsimp only
            exact h

/-- The 29-byte query of the repository's own builder test:
id 1, RD set, one question `example.com` type A class IN. -/
def sampleQueryBytes : Bytes :=
  [0, 1, 1, 0, 0, 1, 0, 0, 0, 0, 0, 0,
   7, 101, 120, 97, 109, 112, 108, 101, 3, 99, 111, 109, 0,
   0, 1, 0, 1]

/-- The decoded form of `sampleQueryBytes`. -/
def sampleQueryMessage : Message :=
  { header := { id := 1
                flags := { qr := false, opCode := 0, aa := false, tc := false,
                           rd := true, ra := false, z := 0, rCode := 0 }
                qdCount := 1, anCount := 0, nsCount := 0, arCount := 0 }
    question := [{ qName := [.label ⟨7, [101, 120, 97, 109, 112, 108, 101]⟩,
                             .label ⟨3, [99, 111, 109]⟩, .root]
                   qType := ⟨1⟩, qClass := ⟨1⟩ }]
    answer := [], authority := [], additional := [] }

/-- Witness for C10: the sample query with two trailing garbage bytes. -/
theorem c10_witness :
    decodeMessage (sampleQueryBytes ++ [222, 173]) = .ok sampleQueryMessage :=
  c10_trailing_bytes_ignored sampleQueryBytes [222, 173] sampleQueryMessage (by decide)

end DnsIO

namespace DnsIO

/-! ## Write lemmas for the name encoder -/

theorem take_setRange {buf w : Bytes} {off : Nat} (h : off + w.length ≤ buf.length) :
    (setRange buf off w).take (off + w.length) = buf.take off ++ w := by
  have hX : (buf.take off ++ w).length = off + w.length := by simp; omega
  calc (setRange buf off w).take (off + w.length)
      = ((buf.take off ++ w) ++ buf.drop (off + w.length)).take (buf.take off ++ w).length := by
        simp [setRange, hX]
    _ = buf.take off ++ w := List.take_left _ _

theorem drop_setRange {buf w : Bytes} {off k : Nat} (h : off + w.length ≤ buf.length)
    (hk : off + w.length ≤ k) :
    (setRange buf off w).drop k = buf.drop k := by
  have hX : (buf.take off ++ w).length = off + w.length := by simp; omega
  have : setRange buf off w = (buf.take off ++ w) ++ buf.drop (off + w.length) := by
    simp [setRange]
  rw [this]
  have hk' : k = (buf.take off ++ w).length + (k - off - w.length) := by omega
  rw [hk', List.drop_append, List.drop_drop]
  congr 1
  omega

/-- Processing a concatenation of element lists is sequential composition. -/
theorem encodeNameLoop_append_eq (xs ys : List NameElement) :
    ∀ buf off, encodeNameLoop (xs ++ ys) buf off =
      match encodeNameLoop xs buf off with
      | .error e => .error e
      | .ok (buf', off') => encodeNameLoop ys buf' off' := by
  induction xs with
  | nil => intro buf off; rfl
  | cons e rest ih =>
    intro buf off
    cases e with
    | label l =>
      simp only [List.cons_append, encodeNameLoop]
      by_cases hfit : buf.length < off + 1 + l.data.length
      · simp only [if_pos hfit]
      · simp only [if_neg hfit]
        exact ih _ _
    | pointer p =>
      simp only [List.cons_append, encodeNameLoop]
      by_cases hfit : buf.length < off + 2
      · simp only [if_pos hfit]
      · simp only [if_neg hfit]
        exact ih _ _
    | root =>
      simp only [List.cons_append, encodeNameLoop]
      by_cases hfit : buf.length < off + 1
      · simp only [if_pos hfit]
      · simp only [if_neg hfit]
        exact ih _ _
    | reserved => rfl

theorem nameWireLength_nil : nameWireLength [] = 0 := rfl

theorem nameWireLength_cons (e : NameElement) (rest : List NameElement) :
    nameWireLength (e :: rest) = e.wireLength + nameWireLength rest := by
  simp [nameWireLength]

theorem nameBytes_nil : nameBytes [] = [] := rfl

theorem nameBytes_cons (e : NameElement) (rest : List NameElement) :
    nameBytes (e :: rest) = e.bytes ++ nameBytes rest := by
  simp [nameBytes]

/-- A successful run of the name encoder writes exactly the canonical bytes
of the elements and leaves the rest of the buffer unchanged. -/
theorem encodeNameLoop_writes (name : List NameElement) :
    ∀ buf off, noReserved name → off + nameWireLength name ≤ buf.length →
      encodeNameLoop name buf off =
        .ok (buf.take off ++ nameBytes name ++ buf.drop (off + nameWireLength name),
          off + nameWireLength name) := by
  induction name with
  | nil =>
    intro buf off _ hfit
    simp [encodeNameLoop, nameBytes, nameWireLength, List.take_append_drop]
  | cons e rest ih =>
    intro buf off hnr hfit
    have hnre : e.isReservedElem = false := hnr e (by simp)
    have hnr' : noReserved rest := fun x hx => hnr x (by simp [hx])
    rw [nameWireLength_cons] at hfit
    cases e with
    | label l =>
      have hew : (NameElement.label l).wireLength = 1 + l.data.length := rfl
      rw [hew] at hfit
      have hsl : (l.length :: l.data).length = 1 + l.data.length := by simp; omega
      simp only [encodeNameLoop]
      rw [if_neg (by omega)]
      have hlen : (setRange buf off (l.length :: l.data)).length = buf.length :=
        setRange_length (by rw [hsl]; omega)
      rw [ih _ _ hnr' (by rw [hlen]; omega)]
      have htake : (setRange buf off (l.length :: l.data)).take (off + 1 + l.data.length) =
          buf.take off ++ (l.length :: l.data) := by
        have h1 := @take_setRange buf (l.length :: l.data) off
          (by rw [hsl]; omega)
        rw [hsl] at h1
        rw [show off + 1 + l.data.length = off + (1 + l.data.length) from by omega]
        exact h1
      have hdrop : (setRange buf off (l.length :: l.data)).drop
          (off + 1 + l.data.length + nameWireLength rest) =
          buf.drop (off + 1 + l.data.length + nameWireLength rest) :=
        drop_setRange (by rw [hsl]; omega) (by rw [hsl]; omega)
      rw [htake, hdrop, nameWireLength_cons, nameBytes_cons, hew]
      have hbe : NameElement.bytes (.label l) = l.length :: l.data := rfl
      rw [hbe]
      have hidx : off + 1 + l.data.length + nameWireLength rest =
          off + (1 + l.data.length + nameWireLength rest) := by omega
      rw [hidx]
      simp [List.append_assoc]
    | pointer p =>
      have hew : (NameElement.pointer p).wireLength = 2 := rfl
      rw [hew] at hfit
      have hsl : ([192 ||| ((p >>> 8) % 256), p % 256] : Bytes).length = 2 := by simp
      simp only [encodeNameLoop]
      rw [if_neg (by omega)]
      have hlen : (setRange buf off [192 ||| ((p >>> 8) % 256), p % 256]).length =
          buf.length := setRange_length (by rw [hsl]; omega)
      rw [ih _ _ hnr' (by rw [hlen]; omega)]
      have htake : (setRange buf off [192 ||| ((p >>> 8) % 256), p % 256]).take (off + 2) =
          buf.take off ++ [192 ||| ((p >>> 8) % 256), p % 256] := by
        have h1 := @take_setRange buf
          [192 ||| ((p >>> 8) % 256), p % 256] off (by rw [hsl]; omega)
        rw [hsl] at h1
        exact h1
      have hdrop : (setRange buf off [192 ||| ((p >>> 8) % 256), p % 256]).drop
          (off + 2 + nameWireLength rest) =
          buf.drop (off + 2 + nameWireLength rest) :=
        drop_setRange (by rw [hsl]; omega) (by rw [hsl]; omega)
      rw [htake, hdrop, nameWireLength_cons, nameBytes_cons, hew]
      have hbe : NameElement.bytes (.pointer p) = [192 ||| ((p >>> 8) % 256), p % 256] := rfl
      rw [hbe]
      have hidx : off + 2 + nameWireLength rest = off + (2 + nameWireLength rest) := by omega
      rw [hidx]
      simp [List.append_assoc]
    | root =>
      have hew : (NameElement.root).wireLength = 1 := rfl
      rw [hew] at hfit
      have hsl : ([0] : Bytes).length = 1 := by simp
      simp only [encodeNameLoop]
      rw [if_neg (by omega)]
      have hlen : (setRange buf off [0]).length = buf.length :=
        setRange_length (by rw [hsl]; omega)
      rw [ih _ _ hnr' (by rw [hlen]; omega)]
      have htake : (setRange buf off [0]).take (off + 1) = buf.take off ++ [0] := by
        have h1 := @take_setRange buf [0] off (by rw [hsl]; omega)
        rw [hsl] at h1
        exact h1
      have hdrop : (setRange buf off [0]).drop (off + 1 + nameWireLength rest) =
          buf.drop (off + 1 + nameWireLength rest) :=
        drop_setRange (by rw [hsl]; omega) (by rw [hsl]; omega)
      rw [htake, hdrop, nameWireLength_cons, nameBytes_cons, hew]
      have hbe : NameElement.bytes .root = [0] := rfl
      rw [hbe]
      have hidx : off + 1 + nameWireLength rest = off + (1 + nameWireLength rest) := by omega
      rw [hidx]
      simp [List.append_assoc]
    | reserved => exact absurd hnre (by simp [NameElement.isReservedElem])

end DnsIO

namespace DnsIO

/-- With no Reserved element, a buffer too small for the name makes the
encoder fail `InsufficientData`. -/
theorem encodeNameLoop_insufficient (name : List NameElement) :
    ∀ buf off, noReserved name → buf.length < off + nameWireLength name →
      off ≤ buf.length → encodeNameLoop name buf off = .error .insufficientData := by
  induction name with
  | nil =>
    intro buf off _ hlt hle
    rw [nameWireLength_nil] at hlt
    omega
  | cons e rest ih =>
    intro buf off hnr hlt hle
    have hnre : e.isReservedElem = false := hnr e (by simp)
    have hnr' : noReserved rest := fun x hx => hnr x (by simp [hx])
    rw [nameWireLength_cons] at hlt
    cases e with
    | label l =>
      have hew : (NameElement.label l).wireLength = 1 + l.data.length := rfl
      rw [hew] at hlt
      simp only [encodeNameLoop]
      by_cases hfit : buf.length < off + 1 + l.data.length
      · rw [if_pos hfit]
      · rw [if_neg hfit]
        have hlen : (setRange buf off (l.length :: l.data)).length = buf.length :=
          setRange_length (by simp; omega)
        exact ih _ _ hnr' (by rw [hlen]; omega) (by rw [hlen]; omega)
    | pointer p =>
      have hew : (NameElement.pointer p).wireLength = 2 := rfl
      rw [hew] at hlt
      simp only [encodeNameLoop]
      by_cases hfit : buf.length < off + 2
      · rw [if_pos hfit]
      · rw [if_neg hfit]
        have hlen : (setRange buf off [192 ||| ((p >>> 8) % 256), p % 256]).length =
            buf.length := setRange_length (by simp; omega)
        exact ih _ _ hnr' (by rw [hlen]; omega) (by rw [hlen]; omega)
    | root =>
      have hew : (NameElement.root).wireLength = 1 := rfl
      rw [hew] at hlt
      simp only [encodeNameLoop]
      by_cases hfit : buf.length < off + 1
      · rw [if_pos hfit]
      · rw [if_neg hfit]
        have hlen : (setRange buf off [0]).length = buf.length :=
          setRange_length (by simp; omega)
        exact ih _ _ hnr' (by rw [hlen]; omega) (by rw [hlen]; omega)
    | reserved => exact absurd hnre (by simp [NameElement.isReservedElem])

/-- A successful encoder run implies no Reserved element, the exact written
length, and (for nonempty names) that the write fitted. -/
theorem encodeNameLoop_ok_inv (name : List NameElement) :
    ∀ buf off buf' off', encodeNameLoop name buf off = .ok (buf', off') →
      noReserved name ∧ off' = off + nameWireLength name ∧
        (name = [] ∨ off' ≤ buf.length) := by
  induction name with
  | nil =>
    intro buf off buf' off' hrun
    simp only [encodeNameLoop, Except.ok.injEq, Prod.mk.injEq] at hrun
    refine ⟨fun e he => absurd he (by simp), ?_, .inl rfl⟩
    rw [nameWireLength_nil]
    omega
  | cons e rest ih =>
    intro buf off buf' off' hrun
    cases e with
    | label l =>
      simp only [encodeNameLoop] at hrun
      by_cases hfit : buf.length < off + 1 + l.data.length
      · rw [if_pos hfit] at hrun; exact absurd hrun (by simp)
      · rw [if_neg hfit] at hrun
        obtain ⟨hnr', hoff, hrest⟩ := ih _ _ _ _ hrun
        have hlen : (setRange buf off (l.length :: l.data)).length = buf.length :=
          setRange_length (by simp; omega)
        refine ⟨?_, ?_, .inr ?_⟩
        · intro x hx
          rcases List.mem_cons.mp hx with rfl | hx
          · rfl
          · exact hnr' x hx
        · rw [nameWireLength_cons]
          have hew : (NameElement.label l).wireLength = 1 + l.data.length := rfl
          rw [hew]; omega
        · rcases hrest with rfl | hrest
          · rw [nameWireLength_nil] at hoff; omega
          · rw [hlen] at hrest; exact hrest
    | pointer p =>
      simp only [encodeNameLoop] at hrun
      by_cases hfit : buf.length < off + 2
      · rw [if_pos hfit] at hrun; exact absurd hrun (by simp)
      · rw [if_neg hfit] at hrun
        obtain ⟨hnr', hoff, hrest⟩ := ih _ _ _ _ hrun
        have hlen : (setRange buf off [192 ||| ((p >>> 8) % 256), p % 256]).length =
            buf.length := setRange_length (by simp; omega)
        refine ⟨?_, ?_, .inr ?_⟩
        · intro x hx
          rcases List.mem_cons.mp hx with rfl | hx
          · rfl
          · exact hnr' x hx
        · rw [nameWireLength_cons]
          have hew : (NameElement.pointer p).wireLength = 2 := rfl
          rw [hew]; omega
        · rcases hrest with rfl | hrest
          · rw [nameWireLength_nil] at hoff; omega
          · rw [hlen] at hrest; exact hrest
    | root =>
      simp only [encodeNameLoop] at hrun
      by_cases hfit : buf.length < off + 1
      · rw [if_pos hfit] at hrun; exact absurd hrun (by simp)
      · rw [if_neg hfit] at hrun
        obtain ⟨hnr', hoff, hrest⟩ := ih _ _ _ _ hrun
        have hlen : (setRange buf off [0]).length = buf.length :=
          setRange_length (by simp; omega)
        refine ⟨?_, ?_, .inr ?_⟩
        · intro x hx
          rcases List.mem_cons.mp hx with rfl | hx
          · rfl
          · exact hnr' x hx
        · rw [nameWireLength_cons]
          have hew : (NameElement.root).wireLength = 1 := rfl
          rw [hew]; omega
        · rcases hrest with rfl | hrest
          · rw [nameWireLength_nil] at hoff; omega
          · rw [hlen] at hrest; exact hrest
    | reserved => exact absurd hrun (by simp [encodeNameLoop])

/-- An `InvalidDomainName` failure of the encoder decomposes the name at the
first Reserved element actually reached. -/
theorem encodeNameLoop_invalid_decomp (name : List NameElement) :
    ∀ buf off, encodeNameLoop name buf off = .error .invalidDomainName →
      ∃ pre rest, name = pre ++ .reserved :: rest ∧
        ∃ r, encodeNameLoop pre buf off = .ok r := by
  induction name with
  | nil => intro buf off hrun; exact absurd hrun (by simp [encodeNameLoop])
  | cons e rest ih =>
    intro buf off hrun
    cases e with
    | label l =>
      simp only [encodeNameLoop] at hrun
      by_cases hfit : buf.length < off + 1 + l.data.length
      · rw [if_pos hfit] at hrun; exact absurd hrun (by simp)
      · rw [if_neg hfit] at hrun
        obtain ⟨pre, rest', heq, r, hok⟩ := ih _ _ hrun
        refine ⟨.label l :: pre, rest', by rw [heq]; rfl, r, ?_⟩
        simp only [encodeNameLoop]
        rw [if_neg hfit]
        exact hok
    | pointer p =>
      simp only [encodeNameLoop] at hrun
      by_cases hfit : buf.length < off + 2
      · rw [if_pos hfit] at hrun; exact absurd hrun (by simp)
      · rw [if_neg hfit] at hrun
        obtain ⟨pre, rest', heq, r, hok⟩ := ih _ _ hrun
        refine ⟨.pointer p :: pre, rest', by rw [heq]; rfl, r, ?_⟩
        simp only [encodeNameLoop]
        rw [if_neg hfit]
        exact hok
    | root =>
      simp only [encodeNameLoop] at hrun
      by_cases hfit : buf.length < off + 1
      · rw [if_pos hfit] at hrun; exact absurd hrun (by simp)
      · rw [if_neg hfit] at hrun
        obtain ⟨pre, rest', heq, r, hok⟩ := ih _ _ hrun
        refine ⟨.root :: pre, rest', by rw [heq]; rfl, r, ?_⟩
        simp only [encodeNameLoop]
        rw [if_neg hfit]
        exact hok
    | reserved =>
      exact ⟨[], rest, rfl, (buf, off), rfl⟩

/-- C7: `encode_name` fails `InvalidDomainName` exactly when it reaches a
Reserved element; otherwise it writes, per element, the wire bytes of a
Label (length byte plus payload), Pointer (`0xC0 | high6bits`, `low8bits`)
or Root (single zero byte), and fails `InsufficientData` when the
destination is too small. -/
theorem c7_encode_name_errors (name : List NameElement) (buf : Bytes) :
    (encodeName name buf = .error .invalidDomainName ↔
      ∃ pre rest, name = pre ++ .reserved :: rest ∧ noReserved pre ∧
        nameWireLength pre ≤ buf.length) ∧
    (noReserved name → nameWireLength name ≤ buf.length →
      encodeName name buf =
        .ok (nameBytes name ++ buf.drop (nameWireLength name), nameWireLength name)) ∧
    (noReserved name → buf.length < nameWireLength name →
      encodeName name buf = .error .insufficientData) := by
  refine ⟨⟨?_, ?_⟩, ?_, ?_⟩
  · intro hrun
    obtain ⟨pre, rest, heq, ⟨buf', off'⟩, hok⟩ := encodeNameLoop_invalid_decomp name buf 0 hrun
    obtain ⟨hnr, hoff, hle⟩ := encodeNameLoop_ok_inv pre buf 0 buf' off' hok
    refine ⟨pre, rest, heq, hnr, ?_⟩
    rcases hle with rfl | hle
    · rw [nameWireLength_nil]; omega
    · omega
  · rintro ⟨pre, rest, rfl, hnr, hle⟩
    unfold encodeName
    rw [encodeNameLoop_append_eq]
    rw [encodeNameLoop_writes pre buf 0 hnr (by omega)]
    rfl
  · intro hnr hle
    unfold encodeName
    have := encodeNameLoop_writes name buf 0 hnr (by omega)
    rw [this]
    simp
  · intro hnr hlt
    exact encodeNameLoop_insufficient name buf 0 hnr (by omega) (by omega)

/-- Witness for C7: all three parts at small concrete names and buffers. -/
theorem c7_witness :
    encodeName [.label ⟨1, [97]⟩, .reserved] [0, 0, 0] = .error .invalidDomainName ∧
    encodeName [.root] [5] = .ok ([0], 1) ∧
    encodeName [.label ⟨2, [97, 98]⟩] [0] = .error .insufficientData :=
  ⟨(c7_encode_name_errors [.label ⟨1, [97]⟩, .reserved] [0, 0, 0]).1.mpr
      ⟨[.label ⟨1, [97]⟩], [], rfl, by decide, by decide⟩,
   (c7_encode_name_errors [.root] [5]).2.1 (by decide) (by decide),
   (c7_encode_name_errors [.label ⟨2, [97, 98]⟩] [0]).2.2 (by decide) (by decide)⟩

end DnsIO

namespace DnsIO

/-! ## Step lemmas for the ref-layer name scanning loop -/

theorem parseNameLoop_oob {buf : Bytes} {pos f : Nat} {acc : List NameElementRef}
    (h : buf.length ≤ pos) : parseNameLoop buf f pos acc = .error .insufficientData := by
  cases f with
  | zero => rfl
  | succ f => simp [parseNameLoop, h]

theorem parseNameLoop_root_over {buf : Bytes} {pos : Nat} {acc : List NameElementRef}
    (h : pos < buf.length) (hb : buf.getD pos 0 = 0) (hover : 10 ≤ acc.length) (f : Nat) :
    parseNameLoop buf (f + 1) pos acc = .error .invalidDomainName := by
  simp only [parseNameLoop]
  rw [if_neg (by omega), if_pos hb, if_pos hover]

theorem parseNameLoop_root_ok {buf : Bytes} {pos : Nat} {acc : List NameElementRef}
    (h : pos < buf.length) (hb : buf.getD pos 0 = 0) (hok : acc.length < 10) (f : Nat) :
    parseNameLoop buf (f + 1) pos acc = .ok (acc ++ [.root (pos % 65536)], pos + 1) := by
  simp only [parseNameLoop]
  rw [if_neg (by omega), if_pos hb, if_neg (by omega)]

theorem parseNameLoop_pointer_oob {buf : Bytes} {pos : Nat} {acc : List NameElementRef}
    (h : pos < buf.length) (hb : 192 ≤ buf.getD pos 0) (h2 : buf.length ≤ pos + 1) (f : Nat) :
    parseNameLoop buf (f + 1) pos acc = .error .insufficientData := by
  simp only [parseNameLoop]
  rw [if_neg (by omega), if_neg (by omega), if_pos hb, if_pos (by omega)]

theorem parseNameLoop_pointer_over {buf : Bytes} {pos : Nat} {acc : List NameElementRef}
    (h : pos < buf.length) (hb : 192 ≤ buf.getD pos 0) (h2 : pos + 1 < buf.length)
    (hover : 10 ≤ acc.length) (f : Nat) :
    parseNameLoop buf (f + 1) pos acc = .error .invalidDomainName := by
  simp only [parseNameLoop]
  rw [if_neg (by omega), if_neg (by omega), if_pos hb, if_neg (by omega), if_pos hover]

theorem parseNameLoop_pointer_ok {buf : Bytes} {pos : Nat} {acc : List NameElementRef}
    (h : pos < buf.length) (hb : 192 ≤ buf.getD pos 0) (h2 : pos + 1 < buf.length)
    (hok : acc.length < 10) (f : Nat) :
    parseNameLoop buf (f + 1) pos acc = .ok (acc ++ [.pointer (pos % 65536)], pos + 2) := by
  simp only [parseNameLoop]
  rw [if_neg (by omega), if_neg (by omega), if_pos hb, if_neg (by omega), if_neg (by omega)]

theorem parseNameLoop_reserved_over {buf : Bytes} {pos : Nat} {acc : List NameElementRef}
    (h : pos < buf.length) (hb : 64 ≤ buf.getD pos 0) (hb2 : buf.getD pos 0 < 192)
    (hover : 10 ≤ acc.length) (f : Nat) :
    parseNameLoop buf (f + 1) pos acc = .error .invalidDomainName := by
  simp only [parseNameLoop]
  rw [if_neg (by omega), if_neg (by omega), if_neg (by omega), if_pos hb, if_pos hover]

theorem parseNameLoop_reserved_step {buf : Bytes} {pos : Nat} {acc : List NameElementRef}
    (h : pos < buf.length) (hb : 64 ≤ buf.getD pos 0) (hb2 : buf.getD pos 0 < 192)
    (hok : acc.length < 10) (f : Nat) :
    parseNameLoop buf (f + 1) pos acc =
      parseNameLoop buf f (pos + 1) (acc ++ [.reserved (pos % 65536)]) := by
  simp only [parseNameLoop]
  rw [if_neg (by omega), if_neg (by omega), if_neg (by omega), if_pos hb, if_neg (by omega)]

theorem parseNameLoop_label_oob {buf : Bytes} {pos : Nat} {acc : List NameElementRef}
    (h : pos < buf.length) (hb1 : 1 ≤ buf.getD pos 0) (hb2 : buf.getD pos 0 ≤ 63)
    (hnofit : buf.length < pos + 1 + buf.getD pos 0) (f : Nat) :
    parseNameLoop buf (f + 1) pos acc = .error .insufficientData := by
  simp only [parseNameLoop]
  rw [if_neg (by omega), if_neg (by omega), if_neg (by omega), if_neg (by omega),
    if_neg (by omega), if_pos (by omega)]

theorem parseNameLoop_label_over {buf : Bytes} {pos : Nat} {acc : List NameElementRef}
    (h : pos < buf.length) (hb1 : 1 ≤ buf.getD pos 0) (hb2 : buf.getD pos 0 ≤ 63)
    (hfit : pos + 1 + buf.getD pos 0 ≤ buf.length) (hover : 10 ≤ acc.length) (f : Nat) :
    parseNameLoop buf (f + 1) pos acc = .error .invalidDomainName := by
  simp only [parseNameLoop]
  rw [if_neg (by omega), if_neg (by omega), if_neg (by omega), if_neg (by omega),
    if_neg (by omega), if_neg (by omega), if_pos hover]

theorem parseNameLoop_label_step {buf : Bytes} {pos : Nat} {acc : List NameElementRef}
    (h : pos < buf.length) (hb1 : 1 ≤ buf.getD pos 0) (hb2 : buf.getD pos 0 ≤ 63)
    (hfit : pos + 1 + buf.getD pos 0 ≤ buf.length) (hok : acc.length < 10) (f : Nat) :
    parseNameLoop buf (f + 1) pos acc =
      parseNameLoop buf f (pos + 1 + buf.getD pos 0) (acc ++ [.label (pos % 65536)]) := by
  simp only [parseNameLoop]
  rw [if_neg (by omega), if_neg (by omega), if_neg (by omega), if_neg (by omega),
    if_neg (by omega), if_neg (by omega), if_neg (by omega)]

end DnsIO

namespace DnsIO

/-- If the plain decoder finds more than 10 elements in a name, the
fixed-capacity ref-layer scan of the same bytes fails `InvalidDomainName`. -/
theorem parse_invalid_of_decode_overflow (data : Bytes) (mo : Nat) :
    ∀ f off accD accP elems c, accP.length = accD.length →
      decodeNameLoop data mo f off accD = .ok (elems, c) → 10 < elems.length →
      parseNameLoop data f (mo + off) accP = .error .invalidDomainName := by
  intro f
  induction f with
  | zero =>
    intro off accD accP elems c _ hrun _
    exact absurd hrun (by simp [decodeNameLoop])
  | succ f ih =>
    intro off accD accP elems c hlen hrun hover
    by_cases hoob : data.length ≤ mo + off
    · rw [decodeNameLoop_oob hoob] at hrun; exact absurd hrun (by simp)
    · have h : mo + off < data.length := by omega
      rcases Nat.lt_or_ge (data.getD (mo + off) 0) 1 with hb | hb
      · rw [decodeNameLoop_root h (by omega) f] at hrun
        simp only [Except.ok.injEq, Prod.mk.injEq] at hrun
        obtain ⟨helems, -⟩ := hrun
        have : 10 ≤ accP.length := by
          have := congrArg List.length helems
          simp at this
          omega
        exact parseNameLoop_root_over h (by omega) this f
      · rcases Nat.lt_or_ge (data.getD (mo + off) 0) 64 with hb2 | hb2
        · rcases Nat.lt_or_ge data.length (mo + off + 1 + data.getD (mo + off) 0) with hfit | hfit
          · rw [decodeNameLoop_label_oob h hb (by omega) hfit f] at hrun
            exact absurd hrun (by simp)
          · rw [decodeNameLoop_label_step h hb (by omega) hfit f] at hrun
            by_cases hcap : 10 ≤ accP.length
            · exact parseNameLoop_label_over h hb (by omega) (by omega) hcap f
            · rw [parseNameLoop_label_step h hb (by omega) (by omega) (by omega) f]
              have hres := ih (off + 1 + data.getD (mo + off) 0)
                (accD ++ [.label ⟨data.getD (mo + off) 0,
                  (data.drop (mo + off + 1)).take (data.getD (mo + off) 0)⟩])
                (accP ++ [.label ((mo + off) % 65536)]) elems c
                (by simp [hlen]) hrun hover
              rw [show mo + off + 1 + data.getD (mo + off) 0 =
                mo + (off + 1 + data.getD (mo + off) 0) from by omega]
              exact hres
        · rcases Nat.lt_or_ge (data.getD (mo + off) 0) 192 with hb3 | hb3
          · rw [decodeNameLoop_reserved_step h hb2 hb3 f] at hrun
            by_cases hcap : 10 ≤ accP.length
            · exact parseNameLoop_reserved_over h hb2 hb3 hcap f
            · rw [parseNameLoop_reserved_step h hb2 hb3 (by omega) f]
              have hres := ih (off + 1) (accD ++ [.reserved])
                (accP ++ [.reserved ((mo + off) % 65536)]) elems c
                (by simp [hlen]) hrun hover
              rw [show mo + off + 1 = mo + (off + 1) from by omega]
              exact hres
          · rcases Nat.lt_or_ge (mo + off + 1) data.length with h2 | h2
            · rw [decodeNameLoop_pointer h h2 hb3 f] at hrun
              simp only [Except.ok.injEq, Prod.mk.injEq] at hrun
              obtain ⟨helems, -⟩ := hrun
              have : 10 ≤ accP.length := by
                have := congrArg List.length helems
                simp at this
                omega
              exact parseNameLoop_pointer_over h hb3 h2 this f
            · rw [decodeNameLoop_pointer_oob h hb3 h2 f] at hrun
              exact absurd hrun (by simp)

theorem parseNameLoop_prefix (buf : Bytes) :
    ∀ f pos acc elems pos', parseNameLoop buf f pos acc = .ok (elems, pos') →
      ∃ tail, elems = acc ++ tail := by
  intro f
  induction f with
  | zero =>
    intro pos acc elems pos' hrun
    exact absurd hrun (by simp [parseNameLoop])
  | succ f ih =>
    intro pos acc elems pos' hrun
    by_cases hoob : buf.length ≤ pos
    · rw [parseNameLoop_oob hoob] at hrun; exact absurd hrun (by simp)
    · have h : pos < buf.length := by omega
      by_cases hcap : 10 ≤ acc.length
      · rcases Nat.lt_or_ge (buf.getD pos 0) 1 with hb | hb
        · rw [parseNameLoop_root_over h (by omega) hcap f] at hrun
          exact absurd hrun (by simp)
        · rcases Nat.lt_or_ge (buf.getD pos 0) 64 with hb2 | hb2
          · rcases Nat.lt_or_ge buf.length (pos + 1 + buf.getD pos 0) with hfit | hfit
            · rw [parseNameLoop_label_oob h hb (by omega) hfit f] at hrun
              exact absurd hrun (by simp)
            · rw [parseNameLoop_label_over h hb (by omega) hfit hcap f] at hrun
              exact absurd hrun (by simp)
          · rcases Nat.lt_or_ge (buf.getD pos 0) 192 with hb3 | hb3
            · rw [parseNameLoop_reserved_over h hb2 hb3 hcap f] at hrun
              exact absurd hrun (by simp)
            · rcases Nat.lt_or_ge (pos + 1) buf.length with h2 | h2
              · rw [parseNameLoop_pointer_over h hb3 h2 hcap f] at hrun
                exact absurd hrun (by simp)
              · rw [parseNameLoop_pointer_oob h hb3 h2 f] at hrun
                exact absurd hrun (by simp)
      · rcases Nat.lt_or_ge (buf.getD pos 0) 1 with hb | hb
        · rw [parseNameLoop_root_ok h (by omega) (by omega) f] at hrun
          simp only [Except.ok.injEq, Prod.mk.injEq] at hrun
          exact ⟨[.root (pos % 65536)], hrun.1.symm⟩
        · rcases Nat.lt_or_ge (buf.getD pos 0) 64 with hb2 | hb2
          · rcases Nat.lt_or_ge buf.length (pos + 1 + buf.getD pos 0) with hfit | hfit
            · rw [parseNameLoop_label_oob h hb (by omega) hfit f] at hrun
              exact absurd hrun (by simp)
            · rw [parseNameLoop_label_step h hb (by omega) hfit (by omega) f] at hrun
              obtain ⟨tail, htail⟩ := ih _ _ _ _ hrun
              exact ⟨.label (pos % 65536) :: tail, by simp [htail]⟩
          · rcases Nat.lt_or_ge (buf.getD pos 0) 192 with hb3 | hb3
            · rw [parseNameLoop_reserved_step h hb2 hb3 (by omega) f] at hrun
              obtain ⟨tail, htail⟩ := ih _ _ _ _ hrun
              exact ⟨.reserved (pos % 65536) :: tail, by simp [htail]⟩
            · rcases Nat.lt_or_ge (pos + 1) buf.length with h2 | h2
              · rw [parseNameLoop_pointer_ok h hb3 h2 (by omega) f] at hrun
                simp only [Except.ok.injEq, Prod.mk.injEq] at hrun
                exact ⟨[.pointer (pos % 65536)], hrun.1.symm⟩
              · rw [parseNameLoop_pointer_oob h hb3 h2 f] at hrun
                exact absurd hrun (by simp)

/-- A successful ref-layer name scan records at most 10 elements. -/
theorem parseNameLoop_le10 (buf : Bytes) :
    ∀ f pos acc elems pos', parseNameLoop buf f pos acc = .ok (elems, pos') →
      elems.length ≤ 10 := by
  intro f
  induction f with
  | zero =>
    intro pos acc elems pos' hrun
    exact absurd hrun (by simp [parseNameLoop])
  | succ f ih =>
    intro pos acc elems pos' hrun
    by_cases hoob : buf.length ≤ pos
    · rw [parseNameLoop_oob hoob] at hrun; exact absurd hrun (by simp)
    · have h : pos < buf.length := by omega
      by_cases hcap : 10 ≤ acc.length
      · rcases Nat.lt_or_ge (buf.getD pos 0) 1 with hb | hb
        · rw [parseNameLoop_root_over h (by omega) hcap f] at hrun
          exact absurd hrun (by simp)
        · rcases Nat.lt_or_ge (buf.getD pos 0) 64 with hb2 | hb2
          · rcases Nat.lt_or_ge buf.length (pos + 1 + buf.getD pos 0) with hfit | hfit
            · rw [parseNameLoop_label_oob h hb (by omega) hfit f] at hrun
              exact absurd hrun (by simp)
            · rw [parseNameLoop_label_over h hb (by omega) hfit hcap f] at hrun
              exact absurd hrun (by simp)
          · rcases Nat.lt_or_ge (buf.getD pos 0) 192 with hb3 | hb3
            · rw [parseNameLoop_reserved_over h hb2 hb3 hcap f] at hrun
              exact absurd hrun (by simp)
            · rcases Nat.lt_or_ge (pos + 1) buf.length with h2 | h2
              · rw [parseNameLoop_pointer_over h hb3 h2 hcap f] at hrun
                exact absurd hrun (by simp)
              · rw [parseNameLoop_pointer_oob h hb3 h2 f] at hrun
                exact absurd hrun (by simp)
      · rcases Nat.lt_or_ge (buf.getD pos 0) 1 with hb | hb
        · rw [parseNameLoop_root_ok h (by omega) (by omega) f] at hrun
          simp only [Except.ok.injEq, Prod.mk.injEq] at hrun
          obtain ⟨helems, -⟩ := hrun
          have := congrArg List.length helems
          simp at this
          omega
        · rcases Nat.lt_or_ge (buf.getD pos 0) 64 with hb2 | hb2
          · rcases Nat.lt_or_ge buf.length (pos + 1 + buf.getD pos 0) with hfit | hfit
            · rw [parseNameLoop_label_oob h hb (by omega) hfit f] at hrun
              exact absurd hrun (by simp)
            · rw [parseNameLoop_label_step h hb (by omega) hfit (by omega) f] at hrun
              exact ih _ _ _ _ hrun
          · rcases Nat.lt_or_ge (buf.getD pos 0) 192 with hb3 | hb3
            · rw [parseNameLoop_reserved_step h hb2 hb3 (by omega) f] at hrun
              exact ih _ _ _ _ hrun
            · rcases Nat.lt_or_ge (pos + 1) buf.length with h2 | h2
              · rw [parseNameLoop_pointer_ok h hb3 h2 (by omega) f] at hrun
                simp only [Except.ok.injEq, Prod.mk.injEq] at hrun
                obtain ⟨helems, -⟩ := hrun
                have := congrArg List.length helems
                simp at this
                omega
              · rw [parseNameLoop_pointer_oob h hb3 h2 f] at hrun
                exact absurd hrun (by simp)

end DnsIO

namespace DnsIO

/-- The first element recorded by a successful ref-layer name scan sits at
the scan's start position (as a 16-bit offset). -/
theorem parseNameLoop_head (buf : Bytes) (f pos : Nat) (elems : List NameElementRef)
    (pos' : Nat) (hrun : parseNameLoop buf f pos [] = .ok (elems, pos')) :
    ∃ e tail, elems = e :: tail ∧ e.offset = pos % 65536 := by
  cases f with
  | zero => exact absurd hrun (by simp [parseNameLoop])
  | succ f =>
    by_cases hoob : buf.length ≤ pos
    · rw [parseNameLoop_oob hoob] at hrun; exact absurd hrun (by simp)
    · have h : pos < buf.length := by omega
      rcases Nat.lt_or_ge (buf.getD pos 0) 1 with hb | hb
      · rw [parseNameLoop_root_ok h (by omega) (by simp) f] at hrun
        simp only [Except.ok.injEq, Prod.mk.injEq, List.nil_append] at hrun
        exact ⟨.root (pos % 65536), [], hrun.1.symm, rfl⟩
      · rcases Nat.lt_or_ge (buf.getD pos 0) 64 with hb2 | hb2
        · rcases Nat.lt_or_ge buf.length (pos + 1 + buf.getD pos 0) with hfit | hfit
          · rw [parseNameLoop_label_oob h hb (by omega) hfit f] at hrun
            exact absurd hrun (by simp)
          · rw [parseNameLoop_label_step h hb (by omega) hfit (by simp) f] at hrun
            obtain ⟨tail, htail⟩ := parseNameLoop_prefix buf f _ _ _ _ hrun
            exact ⟨.label (pos % 65536), tail, by simpa using htail, rfl⟩
        · rcases Nat.lt_or_ge (buf.getD pos 0) 192 with hb3 | hb3
          · rw [parseNameLoop_reserved_step h hb2 hb3 (by simp) f] at hrun
            obtain ⟨tail, htail⟩ := parseNameLoop_prefix buf f _ _ _ _ hrun
            exact ⟨.reserved (pos % 65536), tail, by simpa using htail, rfl⟩
          · rcases Nat.lt_or_ge (pos + 1) buf.length with h2 | h2
            · rw [parseNameLoop_pointer_ok h hb3 h2 (by simp) f] at hrun
              simp only [Except.ok.injEq, Prod.mk.injEq, List.nil_append] at hrun
              exact ⟨.pointer (pos % 65536), [], hrun.1.symm, rfl⟩
            · rw [parseNameLoop_pointer_oob h hb3 h2 f] at hrun
              exact absurd hrun (by simp)

/-- A successful `NameRef::from_buf` records between 1 and 10 elements and
its first element sits at the requested offset. -/
theorem fromBuf_ok_inv {buf : Bytes} {off : Nat} {nref : NameRef}
    (hrun : NameRef.fromBuf buf off = .ok nref) :
    1 ≤ nref.count ∧ nref.count ≤ 10 ∧ nref.offset = off % 65536 := by
  unfold NameRef.fromBuf parseNameElementsInto at hrun
  cases hp : parseNameLoop buf buf.length off [] with
  | error e => rw [hp] at hrun; exact absurd hrun (by simp)
  | ok p =>
    obtain ⟨elems, pos⟩ := p
    rw [hp] at hrun
    dsimp only at hrun
    simp only [Except.ok.injEq] at hrun
    obtain ⟨e, tail, helems, hoff⟩ := parseNameLoop_head buf buf.length off elems pos hp
    have hle := parseNameLoop_le10 buf buf.length off [] elems pos hp
    subst hrun
    refine ⟨by simp [helems], by simp [hle], ?_⟩
    unfold NameRef.offset
    rw [if_neg (by simp [helems])]
    simp [helems, hoff]

/-- A successful `fill_resource_record_section` passed its capacity check
and stores the entry count. -/
theorem fillResourceRecordSection_ok_inv {data : Bytes} {off count maxN : Nat}
    {sec : ResourceRecordSectionRef} {off' : Nat}
    (hrun : fillResourceRecordSection data off count maxN = .ok (sec, off')) :
    count ≤ maxN ∧ sec.count = count % 256 := by
  unfold fillResourceRecordSection at hrun
  by_cases hcap : count > maxN
  · rw [if_pos hcap] at hrun; exact absurd hrun (by simp)
  · rw [if_neg hcap] at hrun
    cases hl : fillResourceRecordLoop data count off [] with
    | error e => rw [hl] at hrun; exact absurd hrun (by simp)
    | ok p =>
      obtain ⟨refs, endOffset⟩ := p
      rw [hl] at hrun
      dsimp only at hrun
      simp only [Except.ok.injEq, Prod.mk.injEq] at hrun
      obtain ⟨hsec, -⟩ := hrun
      exact ⟨by omega, by rw [← hsec]⟩

theorem headerRef_decode_ok {data : Bytes} {h : Header}
    (hh : decodeHeader data = .ok (h, 12)) :
    HeaderRef.decodeHeader ⟨⟩ data = .ok h := by
  unfold HeaderRef.decodeHeader
  rw [hh]

/-- A record fill step fails as soon as the record's name fails the
ref-layer element parse (`NameRef::from_buf`). -/
theorem fillResourceRecordLoop_name_invalid {data : Bytes} {off : Nat} (n : Nat)
    (acc : List ResourceRecordRef)
    (hfb : NameRef.fromBuf data off = .error .invalidDomainName) :
    ∃ e, fillResourceRecordLoop data (n + 1) off acc = .error e := by
  cases hw : resourceRecordWireLengthAt data off with
  | error e' =>
    refine ⟨e', ?_⟩
    unfold fillResourceRecordLoop
    rw [hw]
  | ok len =>
    refine ⟨.invalidDomainName, ?_⟩
    unfold fillResourceRecordLoop
    rw [hw]
    dsimp only
    rw [hfb]

/-- C6 (amended): the ref layer's fixed capacities are hard limits where a
cap exists — a header stating more than 5 questions fails
`InvalidDomainName` immediately; a section count beyond a
`fill_resource_record_section` capacity fails `InvalidDomainName`; a header
stating more than 10 records in any record section makes
`decode_message_ref` fail; a RECORD name of more than 10 elements makes the
ref-layer element parse `parse_name_elements_into` fail `InvalidDomainName`,
and `decode_message_ref` itself fails whenever a non-empty record section
starts at such a name; and a successful `decode_message_ref` never records
more entries than the 5/10/10/10 capacities. Question names carry no element
cap: they are only wire-length scanned (`question_wire_length_at`), so a
question name of more than 10 elements does not by itself make
`decode_message_ref` fail. -/
theorem c6_ref_fixed_capacities (data : Bytes) :
    (∀ h, decodeHeader data = .ok (h, 12) → 5 < h.qdCount →
      decodeMessageRef data = .error .invalidDomainName) ∧
    (∀ off count maxN, maxN < count →
      fillResourceRecordSection data off count maxN = .error .invalidDomainName) ∧
    (∀ h, decodeHeader data = .ok (h, 12) →
      (10 < h.anCount ∨ 10 < h.nsCount ∨ 10 < h.arCount) →
      ∃ e, decodeMessageRef data = .error e) ∧
    (∀ off elems c, decodeName data off = .ok (elems, c) → 10 < elems.length →
      parseNameElementsInto data off = .error .invalidDomainName) ∧
    (∀ h qs off elems c, decodeHeader data = .ok (h, 12) → h.qdCount ≤ 5 →
      questionRefsLoop data h.qdCount 12 [] = .ok (qs, off) → 1 ≤ h.anCount →
      decodeName data off = .ok (elems, c) → 10 < elems.length →
      ∃ e, decodeMessageRef data = .error e) ∧
    (∀ mref, decodeMessageRef data = .ok mref →
      mref.question.count ≤ 5 ∧ mref.answer.count ≤ 10 ∧
        mref.authority.count ≤ 10 ∧ mref.additional.count ≤ 10) := by
  have hfill : ∀ off count maxN, maxN < count →
      fillResourceRecordSection data off count maxN = .error .invalidDomainName := by
    intro off count maxN hlt
    unfold fillResourceRecordSection
    rw [if_pos (by omega)]
  have hq5err : ∀ h, decodeHeader data = .ok (h, 12) → 5 < h.qdCount →
      decodeMessageRef data = .error .invalidDomainName := by
    intro h hh hq5
    unfold decodeMessageRef
    dsimp only
    rw [headerRef_decode_ok hh]
    dsimp only
    rw [if_pos (by omega)]
  have hparse : ∀ off elems c, decodeName data off = .ok (elems, c) → 10 < elems.length →
      parseNameElementsInto data off = .error .invalidDomainName := by
    intro off elems c hdec hover
    unfold parseNameElementsInto
    have := parse_invalid_of_decode_overflow data off data.length 0 [] [] elems c rfl
      (by exact hdec) hover
    rw [Nat.add_zero] at this
    rw [this]
  refine ⟨hq5err, hfill, ?_, hparse, ?_, ?_⟩
  · intro h hh hor
    by_cases hq5 : 5 < h.qdCount
    · exact ⟨.invalidDomainName, hq5err h hh hq5⟩
    · unfold decodeMessageRef
      dsimp only
      rw [headerRef_decode_ok hh]
      dsimp only
      rw [if_neg (by omega)]
      cases hql : questionRefsLoop data h.qdCount 12 [] with
      | error e => exact ⟨e, rfl⟩
      | ok p =>
        obtain ⟨qs, off⟩ := p
        dsimp only
        by_cases han : 10 < h.anCount
        · rw [hfill off h.anCount 10 han]
          exact ⟨.invalidDomainName, rfl⟩
        · cases ha : fillResourceRecordSection data off h.anCount 10 with
          | error e => exact ⟨e, rfl⟩
          | ok pa =>
            obtain ⟨answer, off₂⟩ := pa
            dsimp only
            by_cases hns : 10 < h.nsCount
            · rw [hfill off₂ h.nsCount 10 hns]
              exact ⟨.invalidDomainName, rfl⟩
            · cases hn : fillResourceRecordSection data off₂ h.nsCount 10 with
              | error e => exact ⟨e, rfl⟩
              | ok pn =>
                obtain ⟨authority, off₃⟩ := pn
                dsimp only
                have har : 10 < h.arCount := by omega
                rw [hfill off₃ h.arCount 10 har]
                exact ⟨.invalidDomainName, rfl⟩
  · intro h qs off elems c hh hq5 hql han hdec hover
    have hfb : NameRef.fromBuf data off = .error .invalidDomainName := by
      unfold NameRef.fromBuf
      rw [hparse off elems c hdec hover]
    have hsec : ∃ e, fillResourceRecordSection data off h.anCount 10 = .error e := by
      by_cases hcap : h.anCount > 10
      · exact ⟨.invalidDomainName, hfill off h.anCount 10 hcap⟩
      · obtain ⟨n, hn⟩ : ∃ n, h.anCount = n + 1 := ⟨h.anCount - 1, by omega⟩
        obtain ⟨e, he⟩ := fillResourceRecordLoop_name_invalid n [] hfb
        refine ⟨e, ?_⟩
        unfold fillResourceRecordSection
        rw [if_neg hcap, hn, he]
    obtain ⟨e, he⟩ := hsec
    refine ⟨e, ?_⟩
    unfold decodeMessageRef
    dsimp only
    rw [headerRef_decode_ok hh]
    dsimp only
    rw [if_neg (by omega), hql]
    dsimp only
    rw [he]
  · intro mref hrun
    unfold decodeMessageRef at hrun
    dsimp only at hrun
    cases hh : HeaderRef.decodeHeader ⟨⟩ data with
    | error e => rw [hh] at hrun; exact absurd hrun (by simp)
    | ok header =>
      rw [hh] at hrun
      dsimp only at hrun
      by_cases hq5 : header.qdCount > 5
      · rw [if_pos hq5] at hrun; exact absurd hrun (by simp)
      · rw [if_neg hq5] at hrun
        cases hql : questionRefsLoop data header.qdCount 12 [] with
        | error e => rw [hql] at hrun; exact absurd hrun (by simp)
        | ok p =>
          obtain ⟨qs, off⟩ := p
          rw [hql] at hrun
          dsimp only at hrun
          cases ha : fillResourceRecordSection data off header.anCount 10 with
          | error e => rw [ha] at hrun; exact absurd hrun (by simp)
          | ok pa =>
            obtain ⟨answer, off₂⟩ := pa
            rw [ha] at hrun
            dsimp only at hrun
            cases hn : fillResourceRecordSection data off₂ header.nsCount 10 with
            | error e => rw [hn] at hrun; exact absurd hrun (by simp)
            | ok pn =>
              obtain ⟨authority, off₃⟩ := pn
              rw [hn] at hrun
              dsimp only at hrun
              cases hr : fillResourceRecordSection data off₃ header.arCount 10 with
              | error e => rw [hr] at hrun; exact absurd hrun (by simp)
              | ok pr =>
                obtain ⟨additional, off₄⟩ := pr
                rw [hr] at hrun
                dsimp only at hrun
                simp only [Except.ok.injEq] at hrun
                subst hrun
                obtain ⟨hanle, hanc⟩ := fillResourceRecordSection_ok_inv ha
                obtain ⟨hnsle, hnsc⟩ := fillResourceRecordSection_ok_inv hn
                obtain ⟨harle, harc⟩ := fillResourceRecordSection_ok_inv hr
                refine ⟨?_, ?_, ?_, ?_⟩ <;> simp only [hanc, hnsc, harc] <;> omega

end DnsIO

namespace DnsIO

/-- The ref-layer decode of `sampleQueryBytes`. -/
def sampleQueryMessageRef : MessageRef :=
  { header := ⟨⟩
    question := { questions := [⟨12, 17⟩, ⟨0, 0⟩, ⟨0, 0⟩, ⟨0, 0⟩, ⟨0, 0⟩]
                  endOffset := 29, count := 1 }
    answer := { records := List.replicate 10 ResourceRecordRef.empty
                endOffset := 29, count := 0 }
    authority := { records := List.replicate 10 ResourceRecordRef.empty
                   endOffset := 29, count := 0 }
    additional := { records := List.replicate 10 ResourceRecordRef.empty
                    endOffset := 29, count := 0 } }

/-- Witness for C6: all six parts at concrete inputs — 6 stated questions,
an 11-record fill, an 11-record answer count, an 11-element name, a
one-answer buffer whose record name has 12 elements, and the in-capacity
sample query. -/
theorem c6_witness :
    decodeMessageRef [0, 1, 0, 0, 0, 6, 0, 0, 0, 0, 0, 0] = .error .invalidDomainName ∧
    fillResourceRecordSection [] 0 11 10 = .error .invalidDomainName ∧
    (∃ e, decodeMessageRef [0, 1, 0, 0, 0, 0, 0, 11, 0, 0, 0, 0] = .error e) ∧
    parseNameElementsInto [64, 64, 64, 64, 64, 64, 64, 64, 64, 64, 0] 0 =
      .error .invalidDomainName ∧
    (∃ e, decodeMessageRef
      ([0, 0, 0, 0, 0, 0, 0, 1, 0, 0, 0, 0] ++ (List.replicate 11 64 ++ [0])) =
        .error e) ∧
    (sampleQueryMessageRef.question.count ≤ 5 ∧ sampleQueryMessageRef.answer.count ≤ 10 ∧
      sampleQueryMessageRef.authority.count ≤ 10 ∧
      sampleQueryMessageRef.additional.count ≤ 10) :=
  ⟨(c6_ref_fixed_capacities [0, 1, 0, 0, 0, 6, 0, 0, 0, 0, 0, 0]).1
      { id := 1, flags := Flags.fromFlagsBytes 0 0, qdCount := 6,
        anCount := 0, nsCount := 0, arCount := 0 } (by decide) (by decide),
   (c6_ref_fixed_capacities []).2.1 0 11 10 (by decide),
   (c6_ref_fixed_capacities [0, 1, 0, 0, 0, 0, 0, 11, 0, 0, 0, 0]).2.2.1
      { id := 1, flags := Flags.fromFlagsBytes 0 0, qdCount := 0,
        anCount := 11, nsCount := 0, arCount := 0 } (by decide) (by decide),
   (c6_ref_fixed_capacities [64, 64, 64, 64, 64, 64, 64, 64, 64, 64, 0]).2.2.2.1 0
      [.reserved, .reserved, .reserved, .reserved, .reserved, .reserved, .reserved,
        .reserved, .reserved, .reserved, .root] 11 (by decide) (by decide),
   (c6_ref_fixed_capacities
      ([0, 0, 0, 0, 0, 0, 0, 1, 0, 0, 0, 0] ++ (List.replicate 11 64 ++ [0]))).2.2.2.2.1
      { id := 0, flags := Flags.fromFlagsBytes 0 0, qdCount := 0,
        anCount := 1, nsCount := 0, arCount := 0 } [] 12
      (List.replicate 11 NameElement.reserved ++ [NameElement.root]) 12
      (by decide) (by decide) (by decide) (by decide) (by decide) (by decide),
   (c6_ref_fixed_capacities sampleQueryBytes).2.2.2.2.2 sampleQueryMessageRef (by decide)⟩

/-- Input on which the ref decoder accepts an over-long question name: one
question whose name is 11 Reserved bytes and a root (12 elements), then
type 1, class 1. -/
def c6Data : Bytes :=
  [0, 0, 0, 0, 0, 1, 0, 0, 0, 0, 0, 0] ++ (List.replicate 11 64 ++ [0, 0, 1, 0, 1])

/-- C6, original reading refuted: `c6Data` contains a name of more than 10
elements — the single question's name, 12 elements as decoded by
`decode_name` — yet `decode_message_ref` succeeds and records that question,
because question names are only wire-length scanned, never element-parsed. -/
theorem c6_counterexample :
    ∃ mref elems c, decodeMessageRef c6Data = .ok mref ∧
      (mref.question.questions.getD 0 ⟨0, 0⟩).offset = 12 ∧ mref.question.count = 1 ∧
      decodeName c6Data 12 = .ok (elems, c) ∧ 10 < elems.length := by
  refine ⟨⟨⟨⟩, ⟨[⟨12, 16⟩, ⟨0, 0⟩, ⟨0, 0⟩, ⟨0, 0⟩, ⟨0, 0⟩], 28, 1⟩,
    ⟨List.replicate 10 ResourceRecordRef.empty, 28, 0⟩,
    ⟨List.replicate 10 ResourceRecordRef.empty, 28, 0⟩,
    ⟨List.replicate 10 ResourceRecordRef.empty, 28, 0⟩⟩,
    List.replicate 11 NameElement.reserved ++ [NameElement.root], 12,
    ?_, ?_, ?_, ?_, ?_⟩ <;> decide

end DnsIO

namespace DnsIO

/-- C9: the concrete 29-byte scenario — id 1, only RD set, QDCOUNT 1, other
counts 0, one question `example.com` type A class IN: `decode_message`
restores exactly those fields, and the builder query
`query(1).question("example.com", A, IN).build_encode_direct()` reproduces
exactly those 29 bytes. -/
theorem c9_concrete_query_roundtrip :
    sampleQueryBytes.length = 29 ∧
    decodeMessage sampleQueryBytes = .ok sampleQueryMessage ∧
    (MessageBuilder.query 1 |>.question
      [101, 120, 97, 109, 112, 108, 101, 46, 99, 111, 109]
      QType.A QClass.IN).buildEncodeDirect = .ok sampleQueryBytes := by
  refine ⟨by decide, by decide, by decide⟩

end DnsIO

namespace DnsIO

/-! ## Encode-side write lemmas (sections and message) -/

theorem take_split_head {data : Bytes} {pos : Nat} (h : pos < data.length) (k : Nat) :
    (data.drop pos).take (k + 1) = data.getD pos 0 :: (data.drop (pos + 1)).take k := by
  rw [List.drop_eq_getElem_cons h, List.take_succ_cons, List.getD_eq_getElem _ _ h]

theorem nameBytes_length {name : List NameElement} (hnr : noReserved name) :
    (nameBytes name).length = nameWireLength name := by
  induction name with
  | nil => rfl
  | cons e rest ih =>
    have hnr' : noReserved rest := fun x hx => hnr x (by simp [hx])
    rw [nameBytes_cons, nameWireLength_cons]
    simp only [List.length_append, ih hnr']
    cases e with
    | label l => simp [NameElement.bytes, NameElement.wireLength]; omega
    | pointer p => simp [NameElement.bytes, NameElement.wireLength]
    | root => simp [NameElement.bytes, NameElement.wireLength]
    | reserved => exact absurd (hnr .reserved (by simp)) (by simp [NameElement.isReservedElem])

theorem questionBytes_length {q : Question} (hnr : noReserved q.qName) :
    (questionBytes q).length = questionWireLength q := by
  simp [questionBytes, questionWireLength, nameBytes_length hnr]

theorem resourceRecordBytes_length {r : ResourceRecord} (hnr : noReserved r.rrName) :
    (resourceRecordBytes r).length = resourceRecordWireLength r := by
  simp [resourceRecordBytes, resourceRecordWireLength, nameBytes_length hnr]
  omega

theorem encodeName_writes {name : List NameElement} {buf : Bytes} (hnr : noReserved name)
    (hfit : nameWireLength name ≤ buf.length) :
    encodeName name buf =
      .ok (nameBytes name ++ buf.drop (nameWireLength name), nameWireLength name) := by
  unfold encodeName
  rw [encodeNameLoop_writes name buf 0 hnr (by omega)]
  simp

theorem append_take_ext {X buf : Bytes} {n : Nat} (hX : X.length = n) :
    (X ++ buf.drop n).take n = X := by
  subst hX
  exact List.take_left X _

theorem append_drop_ext {X buf : Bytes} {n k : Nat} (hX : X.length = n) (hk : n ≤ k) :
    (X ++ buf.drop n).drop k = buf.drop k := by
  rw [show k = X.length + (k - n) from by omega, List.drop_append, List.drop_drop]
  congr 1
  omega

theorem encodeQuestionLoop_writes (qs : List Question) :
    ∀ buf off, (∀ q ∈ qs, noReserved q.qName) →
      off + (qs.map questionWireLength).sum ≤ buf.length → off ≤ buf.length →
      encodeQuestionLoop qs buf off =
        .ok (buf.take off ++ (qs.map questionBytes).flatten ++
          buf.drop (off + (qs.map questionWireLength).sum),
          off + (qs.map questionWireLength).sum) := by
  induction qs with
  | nil =>
    intro buf off _ hfit hle
    simp [encodeQuestionLoop, List.take_append_drop]
  | cons q rest ih =>
    intro buf off hnr hfit hle
    have hnrq : noReserved q.qName := hnr q (by simp)
    have hnr' : ∀ x ∈ rest, noReserved x.qName := fun x hx => hnr x (by simp [hx])
    simp only [List.map_cons, List.sum_cons] at hfit ⊢
    have hqw : questionWireLength q = nameWireLength q.qName + 4 := rfl
    set wl := nameWireLength q.qName with hwl
    simp only [encodeQuestionLoop]
    rw [encodeName_writes hnrq (by simp; omega)]
    dsimp only
    have hnl : (nameBytes q.qName).length = wl := nameBytes_length hnrq
    rw [List.drop_drop]
    rw [← List.append_assoc]
    set X1 := buf.take off ++ nameBytes q.qName with hX1
    have hX1l : X1.length = off + wl := by
      rw [hX1]
      simp [hnl]
      omega
    have hlen1 : (X1 ++ buf.drop (off + wl)).length = buf.length := by
      simp [hX1l]
      omega
    rw [if_neg (by rw [hlen1]; omega)]
    have hsr : setRange (X1 ++ buf.drop (off + wl)) (off + wl)
        [q.qType.toQuestionBytes.1, q.qType.toQuestionBytes.2,
          q.qClass.toQuestionBytes.1, q.qClass.toQuestionBytes.2] =
        (buf.take off ++ questionBytes q) ++ buf.drop (off + wl + 4) := by
      unfold setRange
      have h4 : ([q.qType.toQuestionBytes.1, q.qType.toQuestionBytes.2,
        q.qClass.toQuestionBytes.1, q.qClass.toQuestionBytes.2] : Bytes).length = 4 := rfl
      rw [h4, append_take_ext hX1l, append_drop_ext hX1l (by omega)]
      rw [hX1]
      simp [questionBytes, List.append_assoc]
    rw [hsr]
    have hqbl : (questionBytes q).length = wl + 4 := by
      rw [questionBytes_length hnrq, hqw]
    set X2 := buf.take off ++ questionBytes q with hX2
    have hX2l : X2.length = off + (wl + 4) := by
      rw [hX2]
      simp [hqbl]
      omega
    have hX2l' : X2.length = off + wl + 4 := by omega
    have hrw4 : off + wl + 4 = off + (wl + 4) := by omega
    rw [hrw4]
    have hlen2 : (X2 ++ buf.drop (off + (wl + 4))).length = buf.length := by
      simp [hX2l]
      omega
    rw [ih _ _ hnr' (by rw [hlen2]; rw [hqw] at hfit; omega) (by rw [hlen2]; omega)]
    rw [append_take_ext hX2l, append_drop_ext hX2l (by omega)]
    simp only [Except.ok.injEq, Prod.mk.injEq, List.flatten_cons]
    constructor
    · rw [hX2]
      rw [show off + (wl + 4) + (List.map questionWireLength rest).sum =
        off + (questionWireLength q + (List.map questionWireLength rest).sum) from by
          rw [hqw]; omega]
      simp [List.append_assoc]
    · rw [hqw]; omega

end DnsIO

namespace DnsIO

theorem encodeResourceRecord_writes {r : ResourceRecord} {buf : Bytes}
    (hnr : noReserved r.rrName) (hfit : resourceRecordWireLength r ≤ buf.length) :
    encodeResourceRecord r buf =
      .ok (resourceRecordBytes r ++ buf.drop (resourceRecordWireLength r),
        resourceRecordWireLength r) := by
  have hrw : resourceRecordWireLength r =
      nameWireLength r.rrName + 10 + r.rrData.length := rfl
  set wl := nameWireLength r.rrName with hwl
  unfold encodeResourceRecord
  rw [encodeName_writes hnr (by omega)]
  dsimp only
  have hnl : (nameBytes r.rrName).length = wl := nameBytes_length hnr
  have hlen1 : (nameBytes r.rrName ++ buf.drop wl).length = buf.length := by
    simp [hnl]
    omega
  rw [if_neg (by rw [hlen1]; omega)]
  set w10 : Bytes := [r.rrType.toRRBytes.1, r.rrType.toRRBytes.2,
    r.rrClass.toRRBytes.1, r.rrClass.toRRBytes.2,
    (r.rrTtl >>> 24) % 256, (r.rrTtl >>> 16) % 256,
    (r.rrTtl >>> 8) % 256, r.rrTtl % 256,
    (r.rrRdLength >>> 8) % 256, r.rrRdLength % 256] with hw10
  have hsr : setRange (nameBytes r.rrName ++ buf.drop wl) wl w10 =
      (nameBytes r.rrName ++ w10) ++ buf.drop (wl + 10) := by
    unfold setRange
    have h10 : w10.length = 10 := rfl
    rw [h10, append_take_ext hnl, append_drop_ext hnl (by omega)]
  rw [hsr]
  set X2 := nameBytes r.rrName ++ w10 with hX2
  have hX2l : X2.length = wl + 10 := by
    rw [hX2]
    simp [hnl]
    rfl
  have hlen2 : (X2 ++ buf.drop (wl + 10)).length = buf.length := by
    simp [hX2l]
    omega
  rw [if_neg (by rw [hlen2]; omega)]
  have hsr2 : setRange (X2 ++ buf.drop (wl + 10)) (wl + 10) r.rrData =
      (X2 ++ r.rrData) ++ buf.drop (wl + 10 + r.rrData.length) := by
    unfold setRange
    rw [append_take_ext hX2l, append_drop_ext hX2l (by omega)]
  rw [hsr2]
  have hbytes : resourceRecordBytes r = X2 ++ r.rrData := by
    rw [hX2, hw10]
    simp [resourceRecordBytes, List.append_assoc]
  rw [hbytes, hrw]

theorem encodeResourceRecordsLoop_writes (rs : List ResourceRecord) :
    ∀ buf off, (∀ r ∈ rs, noReserved r.rrName) →
      off + (rs.map resourceRecordWireLength).sum ≤ buf.length → off ≤ buf.length →
      encodeResourceRecordsLoop rs buf off =
        .ok (buf.take off ++ (rs.map resourceRecordBytes).flatten ++
          buf.drop (off + (rs.map resourceRecordWireLength).sum),
          off + (rs.map resourceRecordWireLength).sum) := by
  induction rs with
  | nil =>
    intro buf off _ hfit hle
    simp [encodeResourceRecordsLoop, List.take_append_drop]
  | cons r rest ih =>
    intro buf off hnr hfit hle
    have hnrr : noReserved r.rrName := hnr r (by simp)
    have hnr' : ∀ x ∈ rest, noReserved x.rrName := fun x hx => hnr x (by simp [hx])
    simp only [List.map_cons, List.sum_cons] at hfit ⊢
    set rwl := resourceRecordWireLength r with hrwl
    simp only [encodeResourceRecordsLoop]
    rw [encodeResourceRecord_writes hnrr (by simp; omega)]
    dsimp only
    rw [List.drop_drop]
    rw [← List.append_assoc]
    set X1 := buf.take off ++ resourceRecordBytes r with hX1
    have hrbl : (resourceRecordBytes r).length = rwl := resourceRecordBytes_length hnrr
    have hX1l : X1.length = off + rwl := by
      rw [hX1]
      simp [hrbl]
      omega
    have hlen1 : (X1 ++ buf.drop (off + rwl)).length = buf.length := by
      simp [hX1l]
      omega
    rw [ih _ _ hnr' (by rw [hlen1]; omega) (by rw [hlen1]; omega)]
    rw [append_take_ext hX1l, append_drop_ext hX1l (by omega)]
    simp only [Except.ok.injEq, Prod.mk.injEq, List.flatten_cons]
    constructor
    · rw [hX1]
      rw [show off + rwl + (List.map resourceRecordWireLength rest).sum =
        off + (rwl + (List.map resourceRecordWireLength rest).sum) from by omega]
      simp [List.append_assoc]
    · omega

end DnsIO

namespace DnsIO

theorem questionFlatten_length {qs : List Question} (hnr : ∀ q ∈ qs, noReserved q.qName) :
    ((qs.map questionBytes).flatten).length = (qs.map questionWireLength).sum := by
  induction qs with
  | nil => rfl
  | cons q rest ih =>
    simp only [List.map_cons, List.flatten_cons, List.sum_cons, List.length_append]
    rw [questionBytes_length (hnr q (by simp)), ih (fun x hx => hnr x (by simp [hx]))]

theorem recordFlatten_length {rs : List ResourceRecord}
    (hnr : ∀ r ∈ rs, noReserved r.rrName) :
    ((rs.map resourceRecordBytes).flatten).length =
      (rs.map resourceRecordWireLength).sum := by
  induction rs with
  | nil => rfl
  | cons r rest ih =>
    simp only [List.map_cons, List.flatten_cons, List.sum_cons, List.length_append]
    rw [resourceRecordBytes_length (hnr r (by simp)), ih (fun x hx => hnr x (by simp [hx]))]

theorem encodeQuestion_writes {qs : List Question} {buf : Bytes}
    (hnr : ∀ q ∈ qs, noReserved q.qName)
    (hfit : (qs.map questionWireLength).sum ≤ buf.length) :
    encodeQuestion qs buf =
      .ok ((qs.map questionBytes).flatten ++ buf.drop ((qs.map questionWireLength).sum),
        (qs.map questionWireLength).sum) := by
  unfold encodeQuestion
  by_cases hq : qs.isEmpty
  · rw [if_pos hq]
    rw [List.isEmpty_iff] at hq
    subst hq
    simp
  · rw [if_neg hq]
    have := encodeQuestionLoop_writes qs buf 0 hnr (by omega) (by omega)
    rw [this]
    simp

theorem encodeResourceRecords_writes {rs : List ResourceRecord} {buf : Bytes}
    (hnr : ∀ r ∈ rs, noReserved r.rrName)
    (hfit : (rs.map resourceRecordWireLength).sum ≤ buf.length) :
    encodeResourceRecords rs buf =
      .ok ((rs.map resourceRecordBytes).flatten ++
        buf.drop ((rs.map resourceRecordWireLength).sum),
        (rs.map resourceRecordWireLength).sum) := by
  unfold encodeResourceRecords
  by_cases hq : rs.isEmpty
  · rw [if_pos hq]
    rw [List.isEmpty_iff] at hq
    subst hq
    simp
  · rw [if_neg hq]
    have := encodeResourceRecordsLoop_writes rs buf 0 hnr (by omega) (by omega)
    rw [this]
    simp

theorem messageNoReserved_question {m : Message} (hnr : messageNoReserved m) :
    ∀ q ∈ m.question, noReserved q.qName := fun q hq =>
  hnr q.qName (by unfold messageNames; simp; exact .inl ⟨q, hq, rfl⟩)

theorem messageNoReserved_answer {m : Message} (hnr : messageNoReserved m) :
    ∀ r ∈ m.answer, noReserved r.rrName := fun r hr =>
  hnr r.rrName (by unfold messageNames; simp; exact .inr (.inl ⟨r, hr, rfl⟩))

theorem messageNoReserved_authority {m : Message} (hnr : messageNoReserved m) :
    ∀ r ∈ m.authority, noReserved r.rrName := fun r hr =>
  hnr r.rrName (by unfold messageNames; simp; exact .inr (.inr (.inl ⟨r, hr, rfl⟩)))

theorem messageNoReserved_additional {m : Message} (hnr : messageNoReserved m) :
    ∀ r ∈ m.additional, noReserved r.rrName := fun r hr =>
  hnr r.rrName (by unfold messageNames; simp; exact .inr (.inr (.inr ⟨r, hr, rfl⟩)))

theorem headerBytes_length (h : Header) : (headerBytes h).length = 12 := rfl

end DnsIO

namespace DnsIO

theorem encodeHeader_writes {h : Header} {buf : Bytes} (hfit : 12 ≤ buf.length) :
    encodeHeader h buf = .ok (headerBytes h ++ buf.drop 12, 12) := by
  unfold encodeHeader
  rw [if_neg (by omega)]
  unfold setRange
  simp [headerBytes]

/-- With no Reserved elements, `encode_message` produces exactly the
canonical byte image of the message. -/
theorem encodeMessage_writes (m : Message) (hnr : messageNoReserved m) :
    encodeMessage m = .ok (messageBytes m) := by
  have hq := messageNoReserved_question hnr
  have ha := messageNoReserved_answer hnr
  have hn := messageNoReserved_authority hnr
  have hd := messageNoReserved_additional hnr
  set qsum := (m.question.map questionWireLength).sum with hqsum
  set asum := (m.answer.map resourceRecordWireLength).sum with hasum
  set nsum := (m.authority.map resourceRecordWireLength).sum with hnsum
  set dsum := (m.additional.map resourceRecordWireLength).sum with hdsum
  have hL : messageWireLength m = 12 + qsum + asum + nsum + dsum := rfl
  set L := messageWireLength m with hLdef
  set buf0 : Bytes := List.replicate L 0 with hbuf0
  have hbl : buf0.length = L := by simp [hbuf0]
  unfold encodeMessage
  dsimp only
  rw [← hbuf0]
  rw [encodeHeader_writes (by rw [hbl, hL]; omega)]
  dsimp only
  have hhl : (headerBytes m.header).length = 12 := headerBytes_length m.header
  rw [append_drop_ext hhl (le_refl 12)]
  rw [encodeQuestion_writes hq (by simp [hbl]; omega)]
  dsimp only
  rw [append_take_ext hhl, List.drop_drop, ← List.append_assoc]
  set X2 := headerBytes m.header ++ (m.question.map questionBytes).flatten with hX2
  have hX2l : X2.length = 12 + qsum := by
    rw [hX2]
    simp [hhl, questionFlatten_length hq]
  rw [append_drop_ext hX2l (le_refl _)]
  rw [encodeResourceRecords_writes ha (by simp [hbl]; omega)]
  dsimp only
  rw [append_take_ext hX2l, List.drop_drop, ← List.append_assoc]
  set X3 := X2 ++ (m.answer.map resourceRecordBytes).flatten with hX3
  have hX3l : X3.length = 12 + qsum + asum := by
    rw [hX3]
    simp [hX2l, recordFlatten_length ha]
  rw [append_drop_ext hX3l (le_refl _)]
  rw [encodeResourceRecords_writes hn (by simp [hbl]; omega)]
  dsimp only
  rw [append_take_ext hX3l, List.drop_drop, ← List.append_assoc]
  set X4 := X3 ++ (m.authority.map resourceRecordBytes).flatten with hX4
  have hX4l : X4.length = 12 + qsum + asum + nsum := by
    rw [hX4]
    simp [hX3l, recordFlatten_length hn]
  rw [append_drop_ext hX4l (le_refl _)]
  rw [encodeResourceRecords_writes hd (by simp [hbl]; omega)]
  dsimp only
  rw [append_take_ext hX4l, List.drop_drop, ← List.append_assoc]
  set X5 := X4 ++ (m.additional.map resourceRecordBytes).flatten with hX5
  have hX5l : X5.length = 12 + qsum + asum + nsum + dsum := by
    rw [hX5]
    simp [hX4l, recordFlatten_length hd]
  rw [append_take_ext hX5l]
  rw [hX5, hX4, hX3, hX2]
  simp only [Except.ok.injEq, messageBytes, List.append_assoc]

end DnsIO

namespace DnsIO

/-! ## Decode-side byte reconstruction -/

theorem pointer_bytes_restore {b0 b1 : Nat} (h192 : 192 ≤ b0) (hb0 : b0 < 256)
    (hb1 : b1 < 256) :
    NameElement.bytes (.pointer (((b0 &&& 63) <<< 8) ||| b1)) = [b0, b1] := by
  have hand : b0 &&& 63 = b0 % 64 := by
    have h := Nat.and_pow_two_sub_one_eq_mod b0 6
    norm_num at h
    exact h
  have hv : ((b0 &&& 63) <<< 8) ||| b1 = 256 * (b0 % 64) + b1 := by
    rw [hand]; exact shiftLeft8_or_eq_add _ _ hb1
  simp only [NameElement.bytes, hv]
  have hs1 : ((256 * (b0 % 64) + b1) >>> 8) % 256 = b0 % 64 := by
    rw [Nat.shiftRight_eq_div_pow]
    norm_num
    omega
  have hs2 : (192 : Nat) ||| (b0 % 64) = 192 + b0 % 64 :=
    @or_eq_add_of_mod_eq_zero _ _ 6 (by norm_num) (by norm_num; omega)
  rw [hs1, hs2]
  have e1 : 192 + b0 % 64 = b0 := by omega
  have e2 : (256 * (b0 % 64) + b1) % 256 = b1 := by omega
  rw [e1, e2]

theorem decodeNameLoop_bytes (data : Bytes) (mo : Nat) (hwf : bytesWf data) :
    ∀ f off acc elems c, decodeNameLoop data mo f off acc = .ok (elems, c) →
      ∃ new, elems = acc ++ new ∧ off ≤ c ∧ mo + c ≤ data.length ∧
        nameWireLength new = c - off ∧
        (noReserved new → nameBytes new = (data.drop (mo + off)).take (c - off)) := by
  intro f
  induction f with
  | zero =>
    intro off acc elems c hrun
    exact absurd hrun (by simp [decodeNameLoop])
  | succ f ih =>
    intro off acc elems c hrun
    by_cases hoob : data.length ≤ mo + off
    · rw [decodeNameLoop_oob hoob] at hrun; exact absurd hrun (by simp)
    · have h : mo + off < data.length := by omega
      rcases Nat.lt_or_ge (data.getD (mo + off) 0) 1 with hb | hb
      · rw [decodeNameLoop_root h (by omega) f] at hrun
        simp only [Except.ok.injEq, Prod.mk.injEq] at hrun
        obtain ⟨helems, hc⟩ := hrun
        refine ⟨[.root], helems.symm, by omega, by omega, by
          rw [nameWireLength_cons, nameWireLength_nil]; simp [NameElement.wireLength]; omega, ?_⟩
        intro _
        rw [nameBytes_cons, nameBytes_nil]
        rw [show c - off = 0 + 1 from by omega, take_split_head h 0]
        have hb0 : data.getD (mo + off) 0 = 0 := by omega
        rw [hb0]
        simp [NameElement.bytes]
      · rcases Nat.lt_or_ge (data.getD (mo + off) 0) 64 with hb2 | hb2
        · rcases Nat.lt_or_ge data.length (mo + off + 1 + data.getD (mo + off) 0) with hfit | hfit
          · rw [decodeNameLoop_label_oob h hb (by omega) hfit f] at hrun
            exact absurd hrun (by simp)
          · rw [decodeNameLoop_label_step h hb (by omega) hfit f] at hrun
            obtain ⟨new', hnew', hle', hbound', hwl', hbytes'⟩ := ih _ _ _ _ hrun
            set b := data.getD (mo + off) 0 with hbdef
            set payload := (data.drop (mo + off + 1)).take b with hpay
            refine ⟨.label ⟨b, payload⟩ :: new', by simpa using hnew', by omega, by omega, ?_, ?_⟩
            · rw [nameWireLength_cons, hwl']
              have hplen : payload.length = b := by
                rw [hpay]
                simp
                omega
              simp [NameElement.wireLength, hplen]
              omega
            · intro hnr
              have hnr' : noReserved new' := fun x hx => hnr x (by simp [hx])
              rw [nameBytes_cons, hbytes' hnr']
              have hsplit : (data.drop (mo + off)).take (c - off) =
                  b :: ((data.drop (mo + off + 1)).take (b + (c - (off + 1 + b)))) := by
                rw [show c - off = (b + (c - (off + 1 + b))) + 1 from by omega,
                  take_split_head h]
              rw [hsplit, List.take_add, List.drop_drop]
              simp only [NameElement.bytes]
              rw [show mo + off + 1 + b = mo + (off + 1 + b) from by omega]
              simp [hpay]
        · rcases Nat.lt_or_ge (data.getD (mo + off) 0) 192 with hb3 | hb3
          · rw [decodeNameLoop_reserved_step h hb2 hb3 f] at hrun
            obtain ⟨new', hnew', hle', hbound', hwl', -⟩ := ih _ _ _ _ hrun
            refine ⟨.reserved :: new', by simpa using hnew', by omega, by omega, ?_, ?_⟩
            · rw [nameWireLength_cons, hwl']
              simp [NameElement.wireLength]
              omega
            · intro hnr
              exact absurd (hnr .reserved (by simp)) (by simp [NameElement.isReservedElem])
          · rcases Nat.lt_or_ge (mo + off + 1) data.length with h2 | h2
            · rw [decodeNameLoop_pointer h h2 hb3 f] at hrun
              simp only [Except.ok.injEq, Prod.mk.injEq] at hrun
              obtain ⟨helems, hc⟩ := hrun
              refine ⟨[.pointer (((data.getD (mo + off) 0 &&& 63) <<< 8) |||
                data.getD (mo + off + 1) 0)], helems.symm, by omega, by omega, by
                  rw [nameWireLength_cons, nameWireLength_nil]
                  simp [NameElement.wireLength]
                  omega, ?_⟩
              intro _
              rw [nameBytes_cons, nameBytes_nil]
              rw [pointer_bytes_restore hb3 (bytesWf_getD hwf h) (bytesWf_getD hwf h2)]
              rw [show c - off = 1 + 1 from by omega, take_split_head h 1,
                take_split_head h2 0]
              simp
            · rw [decodeNameLoop_pointer_oob h hb3 h2 f] at hrun
              exact absurd hrun (by simp)

end DnsIO

namespace DnsIO

theorem take_four {data : Bytes} {pos : Nat} (h : pos + 4 ≤ data.length) :
    (data.drop pos).take 4 = [data.getD pos 0, data.getD (pos + 1) 0,
      data.getD (pos + 2) 0, data.getD (pos + 3) 0] := by
  rw [take_split_head (by omega) 3, take_split_head (by omega) 2,
    take_split_head (by omega) 1, take_split_head (by omega) 0]
  simp

theorem take_ten {data : Bytes} {pos : Nat} (h : pos + 10 ≤ data.length) :
    (data.drop pos).take 10 = [data.getD pos 0, data.getD (pos + 1) 0,
      data.getD (pos + 2) 0, data.getD (pos + 3) 0, data.getD (pos + 4) 0,
      data.getD (pos + 5) 0, data.getD (pos + 6) 0, data.getD (pos + 7) 0,
      data.getD (pos + 8) 0, data.getD (pos + 9) 0] := by
  rw [take_split_head (by omega) 9, take_split_head (by omega) 8,
    take_split_head (by omega) 7, take_split_head (by omega) 6,
    take_split_head (by omega) 5, take_split_head (by omega) 4,
    take_split_head (by omega) 3, take_split_head (by omega) 2,
    take_split_head (by omega) 1, take_split_head (by omega) 0]
  simp

theorem qtype_bytes_restore {a b : Nat} (ha : a < 256) (hb : b < 256) :
    (QType.fromQuestionBytes a b).toQuestionBytes = (a, b) := by
  unfold QType.fromQuestionBytes QType.toQuestionBytes
  rw [be16_shiftRight a b ha hb, be16_mod a b hb]

theorem qclass_bytes_restore {a b : Nat} (ha : a < 256) (hb : b < 256) :
    (QClass.fromQuestionBytes a b).toQuestionBytes = (a, b) := by
  unfold QClass.fromQuestionBytes QClass.toQuestionBytes
  rw [be16_shiftRight a b ha hb, be16_mod a b hb]

theorem rrtype_bytes_restore {a b : Nat} (ha : a < 256) (hb : b < 256) :
    (RRType.fromRRBytes a b).toRRBytes = (a, b) := by
  unfold RRType.fromRRBytes RRType.toRRBytes
  rw [be16_shiftRight a b ha hb, be16_mod a b hb]

theorem rrclass_bytes_restore {a b : Nat} (ha : a < 256) (hb : b < 256) :
    (RRClass.fromRRBytes a b).toRRBytes = (a, b) := by
  unfold RRClass.fromRRBytes RRClass.toRRBytes
  rw [be16_shiftRight a b ha hb, be16_mod a b hb]

theorem ttl_bytes_restore {b4 b5 b6 b7 : Nat} (h4 : b4 < 256) (h5 : b5 < 256)
    (h6 : b6 < 256) (h7 : b7 < 256) :
    ((((b4 <<< 24) ||| (b5 <<< 16) ||| (b6 <<< 8) ||| b7) >>> 24) % 256 = b4) ∧
    ((((b4 <<< 24) ||| (b5 <<< 16) ||| (b6 <<< 8) ||| b7) >>> 16) % 256 = b5) ∧
    ((((b4 <<< 24) ||| (b5 <<< 16) ||| (b6 <<< 8) ||| b7) >>> 8) % 256 = b6) ∧
    (((b4 <<< 24) ||| (b5 <<< 16) ||| (b6 <<< 8) ||| b7) % 256 = b7) := by
  rw [be32_eq_add b4 b5 b6 b7 h5 h6 h7]
  simp only [Nat.shiftRight_eq_div_pow]
  norm_num
  omega

theorem decodeName_bytes {data : Bytes} {mo : Nat} {elems : List NameElement} {c : Nat}
    (hwf : bytesWf data) (hrun : decodeName data mo = .ok (elems, c)) :
    mo + c ≤ data.length ∧ nameWireLength elems = c ∧
      (noReserved elems → nameBytes elems = (data.drop mo).take c) := by
  obtain ⟨new, hnew, -, hbound, hwl, hbytes⟩ :=
    decodeNameLoop_bytes data mo hwf data.length 0 [] elems c hrun
  simp only [List.nil_append] at hnew
  subst hnew
  refine ⟨by omega, by rw [hwl]; omega, ?_⟩
  intro hnr
  have := hbytes hnr
  simpa using this

end DnsIO


namespace DnsIO

theorem decodeQuestionLoop_bytes (data : Bytes) (mo : Nat) (hwf : bytesWf data)
    (hmo : mo ≤ data.length) :
    ∀ n off acc qs c, decodeQuestionLoop (data.drop mo) data mo n off acc = .ok (qs, c) →
      ∃ new, qs = acc ++ new ∧ off ≤ c ∧
        (new.map questionWireLength).sum = c - off ∧
        ((∀ q ∈ new, noReserved q.qName) →
          (new.map questionBytes).flatten = (data.drop (mo + off)).take (c - off)) := by
  intro n
  induction n with
  | zero =>
    intro off acc qs c hrun
    simp only [decodeQuestionLoop, Except.ok.injEq, Prod.mk.injEq] at hrun
    obtain ⟨hqs, hc⟩ := hrun
    exact ⟨[], by simp [hqs.symm], by omega, by simp; omega, by intro _; simp; omega⟩
  | succ n ih =>
    intro off acc qs c hrun
    simp only [decodeQuestionLoop] at hrun
    cases hname : decodeName data (mo + off) with
    | error e => rw [hname] at hrun; exact absurd hrun (by simp)
    | ok p =>
      obtain ⟨qName, qNameEnd⟩ := p
      rw [hname] at hrun
      dsimp only at hrun
      by_cases hguard : off + qNameEnd + 4 > (data.drop mo).length
      · rw [if_pos hguard] at hrun; exact absurd hrun (by simp)
      · rw [if_neg hguard] at hrun
        obtain ⟨new', hnew', hle', hsum', hbytes'⟩ := ih _ _ _ _ hrun
        obtain ⟨hnb, hnwl, hnbytes⟩ := decodeName_bytes hwf hname
        simp only [List.length_drop] at hguard
        set q : Question := ⟨qName,
          QType.fromQuestionBytes ((data.drop mo).getD (off + qNameEnd) 0)
            ((data.drop mo).getD (off + qNameEnd + 1) 0),
          QClass.fromQuestionBytes ((data.drop mo).getD (off + qNameEnd + 2) 0)
            ((data.drop mo).getD (off + qNameEnd + 3) 0)⟩ with hqdef
        refine ⟨q :: new', by simpa using hnew', by omega, ?_, ?_⟩
        · simp only [List.map_cons, List.sum_cons, hsum']
          have : questionWireLength q = qNameEnd + 4 := by
            rw [hqdef]
            unfold questionWireLength
            simp [hnwl]
          rw [this]
          omega
        · intro hnr
          have hnrq : noReserved q.qName := hnr q (by simp)
          have hnr' : ∀ x ∈ new', noReserved x.qName := fun x hx => hnr x (by simp [hx])
          simp only [List.map_cons, List.flatten_cons]
          rw [hbytes' hnr']
          have hg0 : (data.drop mo).getD (off + qNameEnd) 0 =
              data.getD (mo + off + qNameEnd) 0 := by
            rw [getD_drop]; congr 1; omega
          have hg1 : (data.drop mo).getD (off + qNameEnd + 1) 0 =
              data.getD (mo + off + qNameEnd + 1) 0 := by
            rw [getD_drop]; congr 1; omega
          have hg2 : (data.drop mo).getD (off + qNameEnd + 2) 0 =
              data.getD (mo + off + qNameEnd + 2) 0 := by
            rw [getD_drop]; congr 1; omega
          have hg3 : (data.drop mo).getD (off + qNameEnd + 3) 0 =
              data.getD (mo + off + qNameEnd + 3) 0 := by
            rw [getD_drop]; congr 1; omega
          have hqb : questionBytes q = nameBytes qName ++
              [data.getD (mo + off + qNameEnd) 0, data.getD (mo + off + qNameEnd + 1) 0,
               data.getD (mo + off + qNameEnd + 2) 0, data.getD (mo + off + qNameEnd + 3) 0] := by
            rw [hqdef]
            unfold questionBytes
            dsimp only
            rw [hg0, hg1, hg2, hg3]
            rw [qtype_bytes_restore (bytesWf_getD hwf (by omega)) (bytesWf_getD hwf (by omega)),
              qclass_bytes_restore (bytesWf_getD hwf (by omega)) (bytesWf_getD hwf (by omega))]
          rw [hqb]
          have hsplit : (data.drop (mo + off)).take (c - off) =
              (data.drop (mo + off)).take qNameEnd ++
                (data.drop (mo + off + qNameEnd)).take 4 ++
                (data.drop (mo + off + qNameEnd + 4)).take (c - (off + qNameEnd + 4)) := by
            rw [show c - off = qNameEnd + (4 + (c - (off + qNameEnd + 4))) from by omega,
              List.take_add]
            rw [List.append_assoc]
            congr 1
            rw [List.take_add]
            congr 1
            · congr 1
              rw [List.drop_drop]
            · rw [List.drop_drop, List.drop_drop]
              congr 2
          rw [hsplit, hnbytes hnrq, take_four (by omega)]
          have hT : (data.drop (mo + (off + qNameEnd + 4))).take (c - (off + qNameEnd + 4)) =
              (data.drop (mo + off + qNameEnd + 4)).take (c - (off + qNameEnd + 4)) := by
            congr 2
            omega
          rw [hT]

end DnsIO

namespace DnsIO

theorem decodeResourceRecord_bytes {data : Bytes} {mo : Nat} {r : ResourceRecord} {c : Nat}
    (hwf : bytesWf data) (hmo : mo ≤ data.length)
    (hrun : decodeResourceRecord (data.drop mo) data mo = .ok (r, c)) :
    mo + c ≤ data.length ∧ resourceRecordWireLength r = c ∧
      (noReserved r.rrName → resourceRecordBytes r = (data.drop mo).take c) := by
  simp only [decodeResourceRecord] at hrun
  cases hname : decodeName data mo with
  | error e => rw [hname] at hrun; exact absurd hrun (by simp)
  | ok p =>
    obtain ⟨name, nameEnd⟩ := p
    rw [hname] at hrun
    dsimp only at hrun
    by_cases hg1 : nameEnd + 10 > (data.drop mo).length
    · rw [if_pos hg1] at hrun; exact absurd hrun (by simp)
    · rw [if_neg hg1] at hrun
      by_cases hg2 : nameEnd + 10 +
          (((data.drop mo).getD (nameEnd + 8) 0 <<< 8) ||| (data.drop mo).getD (nameEnd + 9) 0) >
          (data.drop mo).length
      · rw [if_pos hg2] at hrun; exact absurd hrun (by simp)
      · rw [if_neg hg2] at hrun
        simp only [Except.ok.injEq, Prod.mk.injEq] at hrun
        obtain ⟨hr, hc⟩ := hrun
        obtain ⟨hnb, hnwl, hnbytes⟩ := decodeName_bytes hwf hname
        simp only [List.length_drop] at hg1 hg2
        subst hc
        subst hr
        have e1 : mo + (nameEnd + 1) = mo + nameEnd + 1 := by omega
        have e2 : mo + (nameEnd + 2) = mo + nameEnd + 2 := by omega
        have e3 : mo + (nameEnd + 3) = mo + nameEnd + 3 := by omega
        have e4 : mo + (nameEnd + 4) = mo + nameEnd + 4 := by omega
        have e5 : mo + (nameEnd + 5) = mo + nameEnd + 5 := by omega
        have e6 : mo + (nameEnd + 6) = mo + nameEnd + 6 := by omega
        have e7 : mo + (nameEnd + 7) = mo + nameEnd + 7 := by omega
        have e8 : mo + (nameEnd + 8) = mo + nameEnd + 8 := by omega
        have e9 : mo + (nameEnd + 9) = mo + nameEnd + 9 := by omega
        have e10 : mo + (nameEnd + 10) = mo + nameEnd + 10 := by omega
        simp only [getD_drop, e1, e2, e3, e4, e5, e6, e7, e8, e9, e10] at hg2 ⊢
        have hb : ∀ k, k < 10 → data.getD (mo + nameEnd + k) 0 < 256 := by
          intro k hk
          exact bytesWf_getD hwf (by omega)
        refine ⟨by omega, ?_, ?_⟩
        · unfold resourceRecordWireLength
          dsimp only
          rw [hnwl]
          simp only [List.length_take, List.length_drop, List.drop_drop]
          omega
        · intro hnr
          unfold resourceRecordBytes
          dsimp only
          have hb0 : data.getD (mo + nameEnd) 0 < 256 := bytesWf_getD hwf (by omega)
          rw [rrtype_bytes_restore hb0 (hb 1 (by omega)),
            rrclass_bytes_restore (hb 2 (by omega)) (hb 3 (by omega))]
          obtain ⟨ht0, ht1, ht2, ht3⟩ := ttl_bytes_restore (hb 4 (by omega)) (hb 5 (by omega))
            (hb 6 (by omega)) (hb 7 (by omega))
          rw [ht0, ht1, ht2, ht3,
            be16_shiftRight _ _ (hb 8 (by omega)) (hb 9 (by omega)),
            be16_mod _ _ (hb 9 (by omega))]
          rw [hnbytes hnr]
          have hsplit : (data.drop mo).take (nameEnd + 10 +
              ((data.getD (mo + nameEnd + 8) 0 <<< 8) ||| data.getD (mo + nameEnd + 9) 0)) =
              (data.drop mo).take nameEnd ++ (data.drop (mo + nameEnd)).take 10 ++
                (data.drop (mo + nameEnd + 10)).take
                  ((data.getD (mo + nameEnd + 8) 0 <<< 8) ||| data.getD (mo + nameEnd + 9) 0) := by
            rw [show nameEnd + 10 +
                ((data.getD (mo + nameEnd + 8) 0 <<< 8) ||| data.getD (mo + nameEnd + 9) 0) =
                nameEnd + (10 +
                  ((data.getD (mo + nameEnd + 8) 0 <<< 8) ||| data.getD (mo + nameEnd + 9) 0))
              from by omega, List.take_add]
            rw [List.append_assoc]
            congr 1
            rw [List.take_add]
            congr 1
            · congr 1
              rw [List.drop_drop]
            · rw [List.drop_drop, List.drop_drop]
              rw [e10]
          rw [hsplit, take_ten (by omega), List.drop_drop, e10]

end DnsIO

namespace DnsIO

theorem decodeResourceRecordsLoop_bytes (data : Bytes) (mo : Nat) (hwf : bytesWf data) :
    ∀ n off acc rs c, mo + off ≤ data.length →
      decodeResourceRecordsLoop (data.drop mo) data mo n off acc = .ok (rs, c) →
      ∃ new, rs = acc ++ new ∧ off ≤ c ∧
        (new.map resourceRecordWireLength).sum = c - off ∧
        ((∀ r ∈ new, noReserved r.rrName) →
          (new.map resourceRecordBytes).flatten = (data.drop (mo + off)).take (c - off)) := by
  intro n
  induction n with
  | zero =>
    intro off acc rs c hoff hrun
    simp only [decodeResourceRecordsLoop, Except.ok.injEq, Prod.mk.injEq] at hrun
    obtain ⟨hrs, hc⟩ := hrun
    exact ⟨[], by simp [hrs.symm], by omega, by simp; omega, by intro _; simp; omega⟩
  | succ n ih =>
    intro off acc rs c hoff hrun
    simp only [decodeResourceRecordsLoop] at hrun
    cases hrec : decodeResourceRecord ((data.drop mo).drop off) data (mo + off) with
    | error e => rw [hrec] at hrun; exact absurd hrun (by simp)
    | ok p =>
      obtain ⟨record, bytesRead⟩ := p
      rw [hrec] at hrun
      dsimp only at hrun
      have hrec' : decodeResourceRecord (data.drop (mo + off)) data (mo + off) =
          .ok (record, bytesRead) := by
        rw [← List.drop_drop]
        exact hrec
      obtain ⟨hrb, hrwl, hrbytes⟩ :=
        decodeResourceRecord_bytes hwf (by omega) hrec'
      obtain ⟨new', hnew', hle', hsum', hbytes'⟩ := ih (off + bytesRead) _ _ _ (by omega) hrun
      refine ⟨record :: new', by simpa using hnew', by omega, ?_, ?_⟩
      · simp only [List.map_cons, List.sum_cons, hsum', hrwl]
        omega
      · intro hnr
        have hnrr : noReserved record.rrName := hnr record (by simp)
        have hnr' : ∀ x ∈ new', noReserved x.rrName := fun x hx => hnr x (by simp [hx])
        simp only [List.map_cons, List.flatten_cons]
        rw [hbytes' hnr', hrbytes hnrr]
        rw [show c - off = bytesRead + (c - (off + bytesRead)) from by omega, List.take_add]
        congr 1
        rw [List.drop_drop]
        congr 2
        omega

end DnsIO

namespace DnsIO

theorem take_twelve {data : Bytes} (h : 12 ≤ data.length) :
    data.take 12 = [data.getD 0 0, data.getD 1 0, data.getD 2 0, data.getD 3 0,
      data.getD 4 0, data.getD 5 0, data.getD 6 0, data.getD 7 0,
      data.getD 8 0, data.getD 9 0, data.getD 10 0, data.getD 11 0] := by
  have h0 : data.take 12 = (data.drop 0).take 12 := by simp
  rw [h0, take_split_head (by omega) 11, take_split_head (by omega) 10,
    take_split_head (by omega) 9, take_split_head (by omega) 8,
    take_split_head (by omega) 7, take_split_head (by omega) 6,
    take_split_head (by omega) 5, take_split_head (by omega) 4,
    take_split_head (by omega) 3, take_split_head (by omega) 2,
    take_split_head (by omega) 1, take_split_head (by omega) 0]
  simp

theorem decodeHeader_bytes {data : Bytes} {h : Header} {idx : Nat}
    (hwf : bytesWf data) (hrun : decodeHeader data = .ok (h, idx)) :
    idx = 12 ∧ 12 ≤ data.length ∧ headerBytes h = data.take 12 := by
  simp only [decodeHeader] at hrun
  by_cases hlen : data.length < 12
  · rw [if_pos hlen] at hrun; exact absurd hrun (by simp)
  · rw [if_neg hlen] at hrun
    simp only [Except.ok.injEq, Prod.mk.injEq] at hrun
    obtain ⟨hh, hidx⟩ := hrun
    refine ⟨hidx.symm, by omega, ?_⟩
    subst hh
    have hb : ∀ k, k < 12 → data.getD k 0 < 256 := fun k hk => bytesWf_getD hwf (by omega)
    unfold headerBytes
    dsimp only
    rw [be16_shiftRight _ _ (hb 0 (by omega)) (hb 1 (by omega)), be16_mod _ _ (hb 1 (by omega)),
      flags_fromBytes_toBytes _ _ (hb 2 (by omega)) (hb 3 (by omega)),
      be16_shiftRight _ _ (hb 4 (by omega)) (hb 5 (by omega)), be16_mod _ _ (hb 5 (by omega)),
      be16_shiftRight _ _ (hb 6 (by omega)) (hb 7 (by omega)), be16_mod _ _ (hb 7 (by omega)),
      be16_shiftRight _ _ (hb 8 (by omega)) (hb 9 (by omega)), be16_mod _ _ (hb 9 (by omega)),
      be16_shiftRight _ _ (hb 10 (by omega)) (hb 11 (by omega)), be16_mod _ _ (hb 11 (by omega)),
      take_twelve (by omega)]

end DnsIO

namespace DnsIO

theorem decodeQuestionLoop_bound (data : Bytes) (mo : Nat) (hwf : bytesWf data)
    (hmo : mo ≤ data.length) :
    ∀ n off acc qs c, decodeQuestionLoop (data.drop mo) data mo n off acc = .ok (qs, c) →
      mo + off ≤ data.length → mo + c ≤ data.length := by
  intro n
  induction n with
  | zero =>
    intro off acc qs c hrun hoff
    simp only [decodeQuestionLoop, Except.ok.injEq, Prod.mk.injEq] at hrun
    omega
  | succ n ih =>
    intro off acc qs c hrun hoff
    simp only [decodeQuestionLoop] at hrun
    cases hname : decodeName data (mo + off) with
    | error e => rw [hname] at hrun; exact absurd hrun (by simp)
    | ok p =>
      obtain ⟨qName, qNameEnd⟩ := p
      rw [hname] at hrun
      dsimp only at hrun
      by_cases hguard : off + qNameEnd + 4 > (data.drop mo).length
      · rw [if_pos hguard] at hrun; exact absurd hrun (by simp)
      · rw [if_neg hguard] at hrun
        simp only [List.length_drop] at hguard
        exact ih _ _ _ _ hrun (by omega)

theorem decodeResourceRecordsLoop_bound (data : Bytes) (mo : Nat) (hwf : bytesWf data) :
    ∀ n off acc rs c, decodeResourceRecordsLoop (data.drop mo) data mo n off acc = .ok (rs, c) →
      mo + off ≤ data.length → mo + c ≤ data.length := by
  intro n
  induction n with
  | zero =>
    intro off acc rs c hrun hoff
    simp only [decodeResourceRecordsLoop, Except.ok.injEq, Prod.mk.injEq] at hrun
    omega
  | succ n ih =>
    intro off acc rs c hrun hoff
    simp only [decodeResourceRecordsLoop] at hrun
    cases hrec : decodeResourceRecord ((data.drop mo).drop off) data (mo + off) with
    | error e => rw [hrec] at hrun; exact absurd hrun (by simp)
    | ok p =>
      obtain ⟨record, bytesRead⟩ := p
      rw [hrec] at hrun
      dsimp only at hrun
      have hrec' : decodeResourceRecord (data.drop (mo + off)) data (mo + off) =
          .ok (record, bytesRead) := by
        rw [← List.drop_drop]
        exact hrec
      obtain ⟨hrb, -, -⟩ := decodeResourceRecord_bytes hwf (by omega) hrec'
      exact ih _ _ _ _ hrun (by omega)

theorem decodeQuestion_bytes {data : Bytes} {mo n : Nat} {qs : List Question} {c : Nat}
    (hwf : bytesWf data) (hmo : mo ≤ data.length)
    (hrun : decodeQuestion (data.drop mo) data mo n = .ok (qs, c)) :
    mo + c ≤ data.length ∧ (qs.map questionWireLength).sum = c ∧
      ((∀ q ∈ qs, noReserved q.qName) →
        (qs.map questionBytes).flatten = (data.drop mo).take c) := by
  unfold decodeQuestion at hrun
  by_cases hn : n = 0
  · rw [if_pos hn] at hrun
    simp only [Except.ok.injEq, Prod.mk.injEq] at hrun
    obtain ⟨hqs, hc⟩ := hrun
    subst hqs
    subst hc
    exact ⟨by omega, by simp, by intro _; simp⟩
  · rw [if_neg hn] at hrun
    obtain ⟨new, hnew, -, hsum, hbytes⟩ := decodeQuestionLoop_bytes data mo hwf hmo n 0 [] qs c hrun
    simp only [List.nil_append] at hnew
    subst hnew
    have hbound := decodeQuestionLoop_bound data mo hwf hmo n 0 [] qs c hrun (by omega)
    refine ⟨hbound, by rw [hsum]; omega, ?_⟩
    intro hnr
    have := hbytes hnr
    simpa using this

theorem decodeResourceRecords_bytes {data : Bytes} {mo n : Nat} {rs : List ResourceRecord}
    {c : Nat} (hwf : bytesWf data) (hmo : mo ≤ data.length)
    (hrun : decodeResourceRecords (data.drop mo) data mo n = .ok (rs, c)) :
    mo + c ≤ data.length ∧ (rs.map resourceRecordWireLength).sum = c ∧
      ((∀ r ∈ rs, noReserved r.rrName) →
        (rs.map resourceRecordBytes).flatten = (data.drop mo).take c) := by
  unfold decodeResourceRecords at hrun
  by_cases hn : n = 0
  · rw [if_pos hn] at hrun
    simp only [Except.ok.injEq, Prod.mk.injEq] at hrun
    obtain ⟨hrs, hc⟩ := hrun
    subst hrs
    subst hc
    exact ⟨by omega, by simp, by intro _; simp⟩
  · rw [if_neg hn] at hrun
    obtain ⟨new, hnew, -, hsum, hbytes⟩ :=
      decodeResourceRecordsLoop_bytes data mo hwf n 0 [] rs c (by omega) hrun
    simp only [List.nil_append] at hnew
    subst hnew
    have hbound := decodeResourceRecordsLoop_bound data mo hwf n 0 [] rs c hrun (by omega)
    refine ⟨hbound, by rw [hsum]; omega, ?_⟩
    intro hnr
    have := hbytes hnr
    simpa using this

end DnsIO

namespace DnsIO

theorem decodeMessage_bytes {data : Bytes} {m : Message}
    (hwf : bytesWf data) (hrun : decodeMessage data = .ok m) (hnr : messageNoReserved m) :
    messageWireLength m ≤ data.length ∧ messageBytes m = data.take (messageWireLength m) := by
  unfold decodeMessage at hrun
  cases hh : decodeHeader data with
  | error e => rw [hh] at hrun; exact absurd hrun (by simp)
  | ok p =>
    obtain ⟨header, headerIndex⟩ := p
    rw [hh] at hrun
    dsimp only at hrun
    obtain ⟨hidx, hlen12, hhb⟩ := decodeHeader_bytes hwf hh
    subst hidx
    cases hq : decodeQuestion (data.drop 12) data 12 header.qdCount with
    | error e => rw [hq] at hrun; exact absurd hrun (by simp)
    | ok pq =>
      obtain ⟨questions, questionsLen⟩ := pq
      rw [hq] at hrun
      dsimp only at hrun
      obtain ⟨hqb, hqsum, hqbytes⟩ := decodeQuestion_bytes hwf (by omega) hq
      cases ha : decodeResourceRecords (data.drop (12 + questionsLen)) data
          (12 + questionsLen) header.anCount with
      | error e => rw [ha] at hrun; exact absurd hrun (by simp)
      | ok pa =>
        obtain ⟨answers, answersLen⟩ := pa
        rw [ha] at hrun
        dsimp only at hrun
        obtain ⟨hab, hasum, habytes⟩ := decodeResourceRecords_bytes hwf (by omega) ha
        cases hns : decodeResourceRecords (data.drop (12 + questionsLen + answersLen)) data
            (12 + questionsLen + answersLen) header.nsCount with
        | error e => rw [hns] at hrun; exact absurd hrun (by simp)
        | ok pns =>
          obtain ⟨authority, authorityLen⟩ := pns
          rw [hns] at hrun
          dsimp only at hrun
          obtain ⟨hnsb, hnssum, hnsbytes⟩ := decodeResourceRecords_bytes hwf (by omega) hns
          cases har : decodeResourceRecords
              (data.drop (12 + questionsLen + answersLen + authorityLen)) data
              (12 + questionsLen + answersLen + authorityLen) header.arCount with
          | error e => rw [har] at hrun; exact absurd hrun (by simp)
          | ok par =>
            obtain ⟨additional, additionalLen⟩ := par
            rw [har] at hrun
            dsimp only at hrun
            obtain ⟨harb, harsum, harbytes⟩ := decodeResourceRecords_bytes hwf (by omega) har
            simp only [Except.ok.injEq] at hrun
            subst hrun
            have hq' := messageNoReserved_question hnr
            have ha' := messageNoReserved_answer hnr
            have hns' := messageNoReserved_authority hnr
            have har' := messageNoReserved_additional hnr
            dsimp only at hq' ha' hns' har'
            have hwl : messageWireLength ⟨header, questions, answers, authority, additional⟩ =
                12 + questionsLen + answersLen + authorityLen + additionalLen := by
              unfold messageWireLength
              dsimp only
              rw [hqsum, hasum, hnssum, harsum]
            refine ⟨by rw [hwl]; omega, ?_⟩
            rw [hwl]
            unfold messageBytes
            dsimp only
            rw [hhb, hqbytes hq', habytes ha', hnsbytes hns', harbytes har']
            rw [List.take_add, List.take_add, List.take_add, List.take_add]

end DnsIO

namespace DnsIO

/-- C3 (amended): for a well-formed buffer (all bytes `u8`) on which
`decode_message` succeeds, whose decoded names contain no compression
Pointer and no Reserved element, and whose four sections exactly cover the
buffer (no trailing bytes), `encode_message` applied to the decoded message
returns exactly the original byte sequence.  The original claim — without
the no-Reserved and no-trailing-bytes conditions — is refuted by
`c3_counterexample`: a 13th trailing zero byte survives decoding but is not
re-encoded. -/
theorem c3_encode_decode_roundtrip (data : Bytes) (m : Message)
    (hwf : bytesWf data) (hdec : decodeMessage data = .ok m)
    (hnp : messageNoPointer m) (hnr : messageNoReserved m)
    (hlen : messageWireLength m = data.length) :
    encodeMessage m = .ok data := by
  obtain ⟨-, hbytes⟩ := decodeMessage_bytes hwf hdec hnr
  rw [encodeMessage_writes m hnr, hbytes, hlen, List.take_length]

/-- C3, counterexample to the unamended claim: the 13-byte all-zero buffer
decodes successfully (empty header, all counts zero, a trailing 13th byte
ignored) to a message without compression pointers, yet `encode_message`
of that message returns the 12 header bytes, not the original 13 bytes. -/
theorem c3_counterexample :
    ∃ m, decodeMessage (List.replicate 13 0) = .ok m ∧ messageNoPointer m ∧
      encodeMessage m ≠ .ok (List.replicate 13 0) :=
  ⟨{ header := { id := 0
                 flags := flagsFromU16 0
                 qdCount := 0, anCount := 0, nsCount := 0, arCount := 0 }
     question := [], answer := [], authority := [], additional := [] },
   by decide, by decide, by decide⟩

/-- Closed instance of the amended C3 round trip on the 29-byte sample
query buffer. -/
theorem c3_witness : encodeMessage sampleQueryMessage = .ok sampleQueryBytes :=
  c3_encode_decode_roundtrip sampleQueryBytes sampleQueryMessage (by decide) (by decide)
    (by decide) (by decide) (by decide)

end DnsIO

namespace DnsIO

theorem nwlal_to_decodeNameLoop (buf : Bytes) (mo : Nat) :
    ∀ fuel off acc p, nameWireLengthAtLoop buf fuel (mo + off) = .ok p →
      mo ≤ p ∧ ∃ new, decodeNameLoop buf mo fuel off acc = .ok (acc ++ new, p - mo) := by
  intro fuel
  induction fuel with
  | zero =>
    intro off acc p hrun
    exact absurd hrun (by simp [nameWireLengthAtLoop])
  | succ fuel ih =>
    intro off acc p hrun
    simp only [nameWireLengthAtLoop] at hrun
    simp only [decodeNameLoop]
    by_cases hoob : mo + off ≥ buf.length
    · rw [if_pos hoob] at hrun; exact absurd hrun (by simp)
    · rw [if_neg hoob] at hrun
      rw [if_neg hoob]
      by_cases hz : buf.getD (mo + off) 0 = 0
      · rw [if_pos hz] at hrun
        rw [if_pos hz]
        simp only [Except.ok.injEq] at hrun
        exact ⟨by omega, ⟨[.root], by simp; omega⟩⟩
      · rw [if_neg hz] at hrun
        rw [if_neg hz]
        by_cases hp : buf.getD (mo + off) 0 ≥ 192
        · rw [if_pos hp] at hrun
          rw [if_pos hp]
          by_cases hoob2 : mo + off + 1 ≥ buf.length
          · rw [if_pos hoob2] at hrun; exact absurd hrun (by simp)
          · rw [if_neg hoob2] at hrun
            rw [if_neg hoob2]
            simp only [Except.ok.injEq] at hrun
            refine ⟨by omega, ⟨[.pointer (((buf.getD (mo + off) 0 &&& 63) <<< 8) |||
              buf.getD (mo + off + 1) 0)], ?_⟩⟩
            simp
            omega
        · rw [if_neg hp] at hrun
          rw [if_neg hp]
          by_cases hr : buf.getD (mo + off) 0 ≥ 64
          · rw [if_pos hr] at hrun
            rw [if_pos hr]
            have := ih (off + 1) (acc ++ [.reserved]) p
            rw [show mo + (off + 1) = mo + off + 1 from by omega] at this
            obtain ⟨hmp, new, hnew⟩ := this hrun
            exact ⟨hmp, ⟨[.reserved] ++ new, by rw [← List.append_assoc]; exact hnew⟩⟩
          · rw [if_neg hr] at hrun
            rw [if_neg hr]
            have h63 : ¬buf.getD (mo + off) 0 > 63 := by omega
            rw [if_neg h63] at hrun
            rw [if_neg h63]
            by_cases hlb : mo + off + 1 + buf.getD (mo + off) 0 > buf.length
            · rw [if_pos hlb] at hrun; exact absurd hrun (by simp)
            · rw [if_neg hlb] at hrun
              rw [if_neg hlb]
              have := ih (off + 1 + buf.getD (mo + off) 0)
                (acc ++ [.label ⟨buf.getD (mo + off) 0,
                  (buf.drop (mo + off + 1)).take (buf.getD (mo + off) 0)⟩]) p
              rw [show mo + (off + 1 + buf.getD (mo + off) 0) =
                mo + off + 1 + buf.getD (mo + off) 0 from by omega] at this
              obtain ⟨hmp, new, hnew⟩ := this hrun
              refine ⟨hmp, ⟨[.label ⟨buf.getD (mo + off) 0,
                (buf.drop (mo + off + 1)).take (buf.getD (mo + off) 0)⟩] ++ new, ?_⟩⟩
              rw [← List.append_assoc]
              exact hnew

theorem nameWireLengthAt_decodeName {buf : Bytes} {off c : Nat}
    (hrun : nameWireLengthAt buf off = .ok c) :
    ∃ elems, decodeName buf off = .ok (elems, c) := by
  unfold nameWireLengthAt at hrun
  cases hl : nameWireLengthAtLoop buf buf.length off with
  | error e => rw [hl] at hrun; exact absurd hrun (by simp)
  | ok p =>
    rw [hl] at hrun
    simp only [Except.ok.injEq] at hrun
    have hl' : nameWireLengthAtLoop buf buf.length (off + 0) = .ok p := by
      rw [show off + 0 = off from by omega]
      exact hl
    obtain ⟨hop, new, hnew⟩ := nwlal_to_decodeNameLoop buf off buf.length 0 [] p hl'
    refine ⟨new, ?_⟩
    unfold decodeName
    rw [hnew]
    simp
    omega

end DnsIO

namespace DnsIO

theorem questionWLA_direct {data : Bytes} {off len : Nat}
    (hrun : questionWireLengthAt data off = .ok len) :
    ∃ name nameEnd, decodeName data off = .ok (name, nameEnd) ∧ len = nameEnd + 4 ∧
      off + nameEnd + 4 ≤ data.length := by
  unfold questionWireLengthAt at hrun
  cases hn : nameWireLengthAt data off with
  | error e => rw [hn] at hrun; exact absurd hrun (by simp)
  | ok nameLen =>
    rw [hn] at hrun
    dsimp only at hrun
    by_cases hg : off + nameLen + 4 > data.length
    · rw [if_pos hg] at hrun; exact absurd hrun (by simp)
    · rw [if_neg hg] at hrun
      simp only [Except.ok.injEq] at hrun
      obtain ⟨name, hname⟩ := nameWireLengthAt_decodeName hn
      exact ⟨name, nameLen, hname, hrun.symm, by omega⟩

/-- The question value decoded at absolute offset `off`. -/
def questionAt (data : Bytes) (off : Nat) (name : List NameElement) (nameEnd : Nat) :
    Question :=
  ⟨name, QType.fromQuestionBytes (data.getD (off + nameEnd) 0) (data.getD (off + nameEnd + 1) 0),
    QClass.fromQuestionBytes (data.getD (off + nameEnd + 2) 0)
      (data.getD (off + nameEnd + 3) 0)⟩

theorem questionRef_decode_ok {data : Bytes} {off nameEnd len : Nat}
    {name : List NameElement}
    (hname : decodeName data off = .ok (name, nameEnd)) (hlen : len = nameEnd + 4)
    (hbound : off + nameEnd + 4 ≤ data.length) :
    QuestionRef.decodeQuestion ⟨off, len⟩ data = .ok (questionAt data off name nameEnd) := by
  unfold QuestionRef.decodeQuestion
  dsimp only
  unfold decodeQuestion
  rw [if_neg (by omega)]
  simp only [decodeQuestionLoop]
  rw [show off + 0 = off from by omega, hname]
  dsimp only
  rw [if_neg (by simp only [List.length_drop]; omega)]
  have hg0 : (data.drop off).getD (0 + nameEnd) 0 = data.getD (off + nameEnd) 0 := by
    rw [getD_drop]; congr 1; omega
  have hg1 : (data.drop off).getD (0 + nameEnd + 1) 0 = data.getD (off + nameEnd + 1) 0 := by
    rw [getD_drop]; congr 1; omega
  have hg2 : (data.drop off).getD (0 + nameEnd + 2) 0 = data.getD (off + nameEnd + 2) 0 := by
    rw [getD_drop]; congr 1; omega
  have hg3 : (data.drop off).getD (0 + nameEnd + 3) 0 = data.getD (off + nameEnd + 3) 0 := by
    rw [getD_drop]; congr 1; omega
  rw [hg0, hg1, hg2, hg3]
  rfl

end DnsIO

namespace DnsIO

theorem questionRefsLoop_direct (data : Bytes) (hlen : data.length ≤ 65535) (mo : Nat) :
    ∀ n offD accR accD qrs endR,
      questionRefsLoop data n (mo + offD) accR = .ok (qrs, endR) →
      ∃ newR newD endD,
        qrs = accR ++ newR ∧ newR.length = n ∧ endR = mo + endD ∧
        decodeQuestionLoop (data.drop mo) data mo n offD accD = .ok (accD ++ newD, endD) ∧
        List.Forall₂ (fun qr q => QuestionRef.decodeQuestion qr data = .ok q) newR newD := by
  intro n
  induction n with
  | zero =>
    intro offD accR accD qrs endR hrun
    simp only [questionRefsLoop, Except.ok.injEq, Prod.mk.injEq] at hrun
    obtain ⟨hqrs, hend⟩ := hrun
    exact ⟨[], [], offD, by simp [hqrs.symm], rfl, hend.symm,
      by simp [decodeQuestionLoop], .nil⟩
  | succ n ih =>
    intro offD accR accD qrs endR hrun
    simp only [questionRefsLoop] at hrun
    cases hq : questionWireLengthAt data (mo + offD) with
    | error e => rw [hq] at hrun; exact absurd hrun (by simp)
    | ok len =>
      rw [hq] at hrun
      dsimp only at hrun
      obtain ⟨name, nameEnd, hname, hlen4, hbound⟩ := questionWLA_direct hq
      have hmod : len % 65536 = len := Nat.mod_eq_of_lt (by omega)
      rw [hmod] at hrun
      have hmin : min (mo + offD + len) 65535 = mo + offD + len := Nat.min_eq_left (by omega)
      rw [hmin, show mo + offD + len = mo + (offD + len) from by omega] at hrun
      obtain ⟨newR', newD', endD, hqrs, hlenR, hend, hdir, hfa⟩ :=
        ih (offD + len) (accR ++ [⟨mo + offD, len⟩])
          (accD ++ [questionAt data (mo + offD) name nameEnd]) qrs endR hrun
      refine ⟨⟨mo + offD, len⟩ :: newR', questionAt data (mo + offD) name nameEnd :: newD',
        endD, by simpa using hqrs, by simp [hlenR], hend, ?_, ?_⟩
      · simp only [decodeQuestionLoop]
        rw [hname]
        dsimp only
        rw [if_neg (by simp only [List.length_drop]; omega)]
        have hg0 : (data.drop mo).getD (offD + nameEnd) 0 =
            data.getD (mo + offD + nameEnd) 0 := by
          rw [getD_drop]; congr 1; omega
        have hg1 : (data.drop mo).getD (offD + nameEnd + 1) 0 =
            data.getD (mo + offD + nameEnd + 1) 0 := by
          rw [getD_drop]; congr 1; omega
        have hg2 : (data.drop mo).getD (offD + nameEnd + 2) 0 =
            data.getD (mo + offD + nameEnd + 2) 0 := by
          rw [getD_drop]; congr 1; omega
        have hg3 : (data.drop mo).getD (offD + nameEnd + 3) 0 =
            data.getD (mo + offD + nameEnd + 3) 0 := by
          rw [getD_drop]; congr 1; omega
        rw [hg0, hg1, hg2, hg3, show offD + nameEnd + 4 = offD + len from by omega]
        have hdir' := hdir
        rw [List.append_assoc] at hdir'
        simp only [List.singleton_append] at hdir'
        exact hdir'
      · exact .cons (questionRef_decode_ok hname hlen4 hbound) hfa

end DnsIO

namespace DnsIO

theorem rrWLA_direct {data : Bytes} {off len : Nat}
    (hrun : resourceRecordWireLengthAt data off = .ok len) :
    (∃ record, decodeResourceRecord (data.drop off) data off = .ok (record, len)) ∧
      off + len ≤ data.length ∧ off < data.length := by
  unfold resourceRecordWireLengthAt at hrun
  cases hn : nameWireLengthAt data off with
  | error e => rw [hn] at hrun; exact absurd hrun (by simp)
  | ok nameLen =>
    rw [hn] at hrun
    dsimp only at hrun
    by_cases hg1 : off + nameLen + 10 > data.length
    · rw [if_pos hg1] at hrun; exact absurd hrun (by simp)
    · rw [if_neg hg1] at hrun
      by_cases hg2 : off + nameLen + 10 +
          ((data.getD (off + nameLen + 8) 0 <<< 8) ||| data.getD (off + nameLen + 9) 0) >
          data.length
      · rw [if_pos hg2] at hrun; exact absurd hrun (by simp)
      · rw [if_neg hg2] at hrun
        simp only [Except.ok.injEq] at hrun
        obtain ⟨name, hname⟩ := nameWireLengthAt_decodeName hn
        subst hrun
        refine ⟨?_, by omega, by omega⟩
        unfold decodeResourceRecord
        rw [hname]
        dsimp only
        rw [if_neg (by simp only [List.length_drop]; omega)]
        have hgd8 : (data.drop off).getD (nameLen + 8) 0 =
            data.getD (off + nameLen + 8) 0 := by
          rw [getD_drop]; congr 1
        have hgd9 : (data.drop off).getD (nameLen + 9) 0 =
            data.getD (off + nameLen + 9) 0 := by
          rw [getD_drop]; congr 1
        rw [hgd8, hgd9]
        rw [if_neg (by simp only [List.length_drop]; omega)]
        exact ⟨_, rfl⟩

theorem fillRRLoop_direct (data : Bytes) (hlen : data.length ≤ 65535) (mo : Nat) :
    ∀ n offD accR accD rrs endR,
      fillResourceRecordLoop data n (mo + offD) accR = .ok (rrs, endR) →
      ∃ newR newD endD,
        rrs = accR ++ newR ∧ newR.length = n ∧ endR = mo + endD ∧
        decodeResourceRecordsLoop (data.drop mo) data mo n offD accD = .ok (accD ++ newD, endD) ∧
        List.Forall₂ (fun rr r => ResourceRecordRef.decodeResourceRecord rr data = .ok r)
          newR newD := by
  intro n
  induction n with
  | zero =>
    intro offD accR accD rrs endR hrun
    simp only [fillResourceRecordLoop, Except.ok.injEq, Prod.mk.injEq] at hrun
    obtain ⟨hrrs, hend⟩ := hrun
    exact ⟨[], [], offD, by simp [hrrs.symm], rfl, hend.symm,
      by simp [decodeResourceRecordsLoop], .nil⟩
  | succ n ih =>
    intro offD accR accD rrs endR hrun
    simp only [fillResourceRecordLoop] at hrun
    cases hw : resourceRecordWireLengthAt data (mo + offD) with
    | error e => rw [hw] at hrun; exact absurd hrun (by simp)
    | ok len =>
      rw [hw] at hrun
      dsimp only at hrun
      obtain ⟨⟨record, hrec⟩, hbound, hoffb⟩ := rrWLA_direct hw
      cases hf : NameRef.fromBuf data (mo + offD) with
      | error e => rw [hf] at hrun; exact absurd hrun (by simp)
      | ok nref =>
        rw [hf] at hrun
        dsimp only at hrun
        have hmod : len % 65536 = len := Nat.mod_eq_of_lt (by omega)
        rw [hmod] at hrun
        have hmin : min (mo + offD + len) 65535 = mo + offD + len := Nat.min_eq_left (by omega)
        rw [hmin, show mo + offD + len = mo + (offD + len) from by omega] at hrun
        obtain ⟨newR', newD', endD, hrrs, hlenR, hend, hdir, hfa⟩ :=
          ih (offD + len) (accR ++ [⟨nref, len⟩]) (accD ++ [record]) rrs endR hrun
        obtain ⟨-, -, hofs⟩ := fromBuf_ok_inv hf
        have hofs' : NameRef.offset nref = mo + offD := by
          rw [hofs]; exact Nat.mod_eq_of_lt (by omega)
        refine ⟨⟨nref, len⟩ :: newR', record :: newD', endD, by simpa using hrrs,
          by simp [hlenR], hend, ?_, ?_⟩
        · simp only [decodeResourceRecordsLoop]
          have hdd : (data.drop mo).drop offD = data.drop (mo + offD) := List.drop_drop ..
          rw [hdd, hrec]
          dsimp only
          have hdir' := hdir
          rw [List.append_assoc] at hdir'
          simp only [List.singleton_append] at hdir'
          exact hdir'
        · refine .cons ?_ hfa
          unfold ResourceRecordRef.decodeResourceRecord ResourceRecordRef.offset
          dsimp only
          rw [hofs', hrec]

end DnsIO

namespace DnsIO

theorem materializeQuestionList_forall₂ {data : Bytes} {refs : List QuestionRef}
    {qs : List Question}
    (h : List.Forall₂ (fun qr q => QuestionRef.decodeQuestion qr data = .ok q) refs qs) :
    materializeQuestionList data refs = .ok qs := by
  induction h with
  | nil => rfl
  | cons hh _ ih =>
    simp only [materializeQuestionList]
    rw [hh]
    dsimp only
    rw [ih]

theorem materializeRecordList_forall₂ {data : Bytes} {refs : List ResourceRecordRef}
    {rs : List ResourceRecord}
    (h : List.Forall₂ (fun rr r => ResourceRecordRef.decodeResourceRecord rr data = .ok r)
      refs rs) :
    materializeRecordList data refs = .ok rs := by
  induction h with
  | nil => rfl
  | cons hh _ ih =>
    simp only [materializeRecordList]
    rw [hh]
    dsimp only
    rw [ih]

theorem headerRef_decode_inv {data : Bytes} {header : Header}
    (h : HeaderRef.decodeHeader ⟨⟩ data = .ok header) :
    decodeHeader data = .ok (header, 12) := by
  unfold HeaderRef.decodeHeader at h
  unfold decodeHeader at h ⊢
  by_cases hl : data.length < 12
  · rw [if_pos hl] at h; exact absurd h (by simp)
  · rw [if_neg hl] at h ⊢
    dsimp only at h
    simp only [Except.ok.injEq] at h
    rw [h]

theorem decodeQuestion_of_loop {data : Bytes} {mo n : Nat} {newD : List Question} {endD : Nat}
    (h : decodeQuestionLoop (data.drop mo) data mo n 0 [] = .ok (newD, endD)) :
    decodeQuestion (data.drop mo) data mo n = .ok (newD, endD) := by
  unfold decodeQuestion
  by_cases hn : n = 0
  · subst hn
    simp only [decodeQuestionLoop, Except.ok.injEq, Prod.mk.injEq] at h
    obtain ⟨h1, h2⟩ := h
    rw [if_pos rfl, ← h1, ← h2]
  · rw [if_neg hn]
    exact h

theorem decodeResourceRecords_of_loop {data : Bytes} {mo n : Nat}
    {newD : List ResourceRecord} {endD : Nat}
    (h : decodeResourceRecordsLoop (data.drop mo) data mo n 0 [] = .ok (newD, endD)) :
    decodeResourceRecords (data.drop mo) data mo n = .ok (newD, endD) := by
  unfold decodeResourceRecords
  by_cases hn : n = 0
  · subst hn
    simp only [decodeResourceRecordsLoop, Except.ok.injEq, Prod.mk.injEq] at h
    obtain ⟨h1, h2⟩ := h
    rw [if_pos rfl, ← h1, ← h2]
  · rw [if_neg hn]
    exact h

theorem fillSection_ok {data : Bytes} {off count maxN : Nat}
    {sec : ResourceRecordSectionRef} {off' : Nat}
    (h : fillResourceRecordSection data off count maxN = .ok (sec, off')) :
    count ≤ maxN ∧ ∃ refs, fillResourceRecordLoop data count off [] = .ok (refs, off') ∧
      sec = ⟨refs ++ List.replicate (10 - refs.length) ResourceRecordRef.empty, off',
        count % 256⟩ := by
  unfold fillResourceRecordSection at h
  by_cases hcap : count > maxN
  · rw [if_pos hcap] at h; exact absurd h (by simp)
  · rw [if_neg hcap] at h
    cases hl : fillResourceRecordLoop data count off [] with
    | error e => rw [hl] at h; exact absurd h (by simp)
    | ok p =>
      obtain ⟨refs, endOffset⟩ := p
      rw [hl] at h
      dsimp only at h
      simp only [Except.ok.injEq, Prod.mk.injEq] at h
      obtain ⟨hsec, hoff⟩ := h
      exact ⟨by omega, refs, by rw [hoff], by rw [← hsec, hoff]⟩

end DnsIO

namespace DnsIO

/-- C1 (amended): for every buffer of at most 65535 bytes on which the
zero-copy `decode_message_ref` succeeds, the direct `decode_message`
succeeds as well, and materializing any entry of the resulting `MessageRef`
over the same buffer (the header via `HeaderRef::decode_header`, each
question via `QuestionRef::decode_question`, each record via
`ResourceRecordRef::decode_resource_record`, or the whole message via
`MessageRef::decode_message`) yields exactly the corresponding entry of the
direct decode.  The original claim — without the 65535-byte bound — is
refuted by `c1_counterexample`: the ref layer stores offsets and lengths as
`u16`, so on longer buffers a question's wire length wraps and a stale
offset is recorded. -/
theorem c1_ref_materialization (data : Bytes) (mref : MessageRef)
    (hlen : data.length ≤ 65535) (href : decodeMessageRef data = .ok mref) :
    ∃ m, decodeMessage data = .ok m ∧
      MessageRef.decodeMessage mref data = .ok m ∧
      HeaderRef.decodeHeader mref.header data = .ok m.header ∧
      List.Forall₂ (fun qr q => QuestionRef.decodeQuestion qr data = .ok q)
        mref.question.asSlice m.question ∧
      List.Forall₂ (fun rr r => ResourceRecordRef.decodeResourceRecord rr data = .ok r)
        mref.answer.asSlice m.answer ∧
      List.Forall₂ (fun rr r => ResourceRecordRef.decodeResourceRecord rr data = .ok r)
        mref.authority.asSlice m.authority ∧
      List.Forall₂ (fun rr r => ResourceRecordRef.decodeResourceRecord rr data = .ok r)
        mref.additional.asSlice m.additional := by
  unfold decodeMessageRef at href
  dsimp only at href
  cases hh : HeaderRef.decodeHeader ⟨⟩ data with
  | error e => rw [hh] at href; exact absurd href (by simp)
  | ok header =>
    rw [hh] at href
    dsimp only at href
    have hhdr := headerRef_decode_inv hh
    by_cases hq5 : header.qdCount > 5
    · rw [if_pos hq5] at href; exact absurd href (by simp)
    · rw [if_neg hq5] at href
      cases hql : questionRefsLoop data header.qdCount 12 [] with
      | error e => rw [hql] at href; exact absurd href (by simp)
      | ok pq =>
        obtain ⟨qs, qoff⟩ := pq
        rw [hql] at href
        dsimp only at href
        have hql' : questionRefsLoop data header.qdCount (12 + 0) [] = .ok (qs, qoff) := by
          rw [show (12 : Nat) + 0 = 12 from rfl]
          exact hql
        obtain ⟨newRq, newDq, qEndD, hqs_eq, hqs_len, hqoff, hqdir, hqfa⟩ :=
          questionRefsLoop_direct data hlen 12 header.qdCount 0 [] [] qs qoff hql'
        simp only [List.nil_append] at hqs_eq
        subst hqs_eq
        simp only [List.nil_append] at hqdir
        have hqdec := decodeQuestion_of_loop hqdir
        cases ha : fillResourceRecordSection data qoff header.anCount 10 with
        | error e => rw [ha] at href; exact absurd href (by simp)
        | ok pa =>
          obtain ⟨answerSec, aoff⟩ := pa
          rw [ha] at href
          dsimp only at href
          obtain ⟨han10, refsA, haloop, hasec⟩ := fillSection_ok ha
          have haloop' : fillResourceRecordLoop data header.anCount (12 + qEndD + 0) [] =
              .ok (refsA, aoff) := by
            rw [show 12 + qEndD + 0 = 12 + qEndD from rfl, ← hqoff]
            exact haloop
          obtain ⟨newRa, newDa, aEndD, hras, hras_len, haoff, hadir, hafa⟩ :=
            fillRRLoop_direct data hlen (12 + qEndD) header.anCount 0 [] [] refsA aoff haloop'
          simp only [List.nil_append] at hras
          subst hras
          simp only [List.nil_append] at hadir
          have hadec := decodeResourceRecords_of_loop hadir
          cases hn : fillResourceRecordSection data aoff header.nsCount 10 with
          | error e => rw [hn] at href; exact absurd href (by simp)
          | ok pn =>
            obtain ⟨authoritySec, nsoff⟩ := pn
            rw [hn] at href
            dsimp only at href
            obtain ⟨hns10, refsN, hnloop, hnsec⟩ := fillSection_ok hn
            have hnloop' : fillResourceRecordLoop data header.nsCount
                (12 + qEndD + aEndD + 0) [] = .ok (refsN, nsoff) := by
              rw [show 12 + qEndD + aEndD + 0 = 12 + qEndD + aEndD from rfl, ← haoff]
              exact hnloop
            obtain ⟨newRn, newDn, nEndD, hrns, hrns_len, hnoff, hndir, hnfa⟩ :=
              fillRRLoop_direct data hlen (12 + qEndD + aEndD) header.nsCount 0 [] []
                refsN nsoff hnloop'
            simp only [List.nil_append] at hrns
            subst hrns
            simp only [List.nil_append] at hndir
            have hndec := decodeResourceRecords_of_loop hndir
            cases hr : fillResourceRecordSection data nsoff header.arCount 10 with
            | error e => rw [hr] at href; exact absurd href (by simp)
            | ok pr =>
              obtain ⟨additionalSec, aroff⟩ := pr
              rw [hr] at href
              dsimp only at href
              obtain ⟨har10, refsR, hrloop, hrsec⟩ := fillSection_ok hr
              have hrloop' : fillResourceRecordLoop data header.arCount
                  (12 + qEndD + aEndD + nEndD + 0) [] = .ok (refsR, aroff) := by
                rw [show 12 + qEndD + aEndD + nEndD + 0 = 12 + qEndD + aEndD + nEndD
                  from rfl, ← hnoff]
                exact hrloop
              obtain ⟨newRr, newDr, rEndD, hrrs, hrrs_len, hroff, hrdir, hrfa⟩ :=
                fillRRLoop_direct data hlen (12 + qEndD + aEndD + nEndD) header.arCount 0
                  [] [] refsR aroff hrloop'
              simp only [List.nil_append] at hrrs
              subst hrrs
              simp only [List.nil_append] at hrdir
              have hrdec := decodeResourceRecords_of_loop hrdir
              simp only [Except.ok.injEq] at href
              subst href
              have hslq : QuestionSectionRef.asSlice
                  ⟨qs ++ List.replicate (5 - qs.length) ⟨0, 0⟩, qoff,
                    header.qdCount % 256⟩ = qs := by
                unfold QuestionSectionRef.asSlice
                dsimp only
                rw [Nat.mod_eq_of_lt (by omega), ← hqs_len]
                exact List.take_left ..
              have hsla : ResourceRecordSectionRef.asSlice answerSec = refsA := by
                rw [hasec]
                unfold ResourceRecordSectionRef.asSlice
                dsimp only
                rw [Nat.mod_eq_of_lt (by omega), ← hras_len]
                exact List.take_left ..
              have hsln : ResourceRecordSectionRef.asSlice authoritySec = refsN := by
                rw [hnsec]
                unfold ResourceRecordSectionRef.asSlice
                dsimp only
                rw [Nat.mod_eq_of_lt (by omega), ← hrns_len]
                exact List.take_left ..
              have hslr : ResourceRecordSectionRef.asSlice additionalSec = refsR := by
                rw [hrsec]
                unfold ResourceRecordSectionRef.asSlice
                dsimp only
                rw [Nat.mod_eq_of_lt (by omega), ← hrrs_len]
                exact List.take_left ..
              refine ⟨⟨header, newDq, newDa, newDn, newDr⟩, ?_, ?_, ?_, ?_, ?_, ?_, ?_⟩
              · unfold decodeMessage
                rw [hhdr]
                dsimp only
                rw [hqdec]
                dsimp only
                rw [hadec]
                dsimp only
                rw [hndec]
                dsimp only
                rw [hrdec]
              · unfold MessageRef.decodeMessage
                dsimp only
                rw [hh]
                dsimp only
                rw [hslq, materializeQuestionList_forall₂ hqfa]
                dsimp only
                rw [hsla, materializeRecordList_forall₂ hafa]
                dsimp only
                rw [hsln, materializeRecordList_forall₂ hnfa]
                dsimp only
                rw [hslr, materializeRecordList_forall₂ hrfa]
              · rfl
              · dsimp only
                rw [hslq]
                exact hqfa
              · dsimp only
                rw [hsla]
                exact hafa
              · dsimp only
                rw [hsln]
                exact hnfa
              · dsimp only
                rw [hslr]
                exact hrfa

end DnsIO

namespace DnsIO

/-- Closed instance of the amended C1 equivalence on the 29-byte sample
query buffer and its ref-layer decode. -/
theorem c1_witness :
    ∃ m, decodeMessage sampleQueryBytes = .ok m ∧
      MessageRef.decodeMessage sampleQueryMessageRef sampleQueryBytes = .ok m ∧
      HeaderRef.decodeHeader sampleQueryMessageRef.header sampleQueryBytes = .ok m.header ∧
      List.Forall₂ (fun qr q => QuestionRef.decodeQuestion qr sampleQueryBytes = .ok q)
        sampleQueryMessageRef.question.asSlice m.question ∧
      List.Forall₂
        (fun rr r => ResourceRecordRef.decodeResourceRecord rr sampleQueryBytes = .ok r)
        sampleQueryMessageRef.answer.asSlice m.answer ∧
      List.Forall₂
        (fun rr r => ResourceRecordRef.decodeResourceRecord rr sampleQueryBytes = .ok r)
        sampleQueryMessageRef.authority.asSlice m.authority ∧
      List.Forall₂
        (fun rr r => ResourceRecordRef.decodeResourceRecord rr sampleQueryBytes = .ok r)
        sampleQueryMessageRef.additional.asSlice m.additional :=
  c1_ref_materialization sampleQueryBytes sampleQueryMessageRef (by decide) (by decide)

end DnsIO


namespace DnsIO

/-! ## A buffer longer than 65535 bytes on which the ref layer's `u16`
offsets wrap: a header with two questions, a first question whose name is
65531 Reserved bytes plus a root (wire length 65536, `as u16` = 0), and a
second, different question. -/

/-- 65531 Reserved-band length bytes. -/
def c1Pad : Bytes := List.replicate 65531 64

/-- The 12 bytes that follow `c1Pad`: root, first question's type A class
IN, then the second question (name "d", type 2, class 2). -/
def c1Tail : Bytes := [0, 0, 1, 0, 1, 1, 100, 0, 0, 2, 0, 2]

/-- The 65555-byte counterexample buffer for C1. -/
def c1Data : Bytes :=
  [0, 1, 1, 0, 0, 2, 0, 0, 0, 0, 0, 0] ++ (c1Pad ++ c1Tail)

theorem c1Pad_length : c1Pad.length = 65531 := List.length_replicate ..

theorem c1Data_length : c1Data.length = 65555 := by
  unfold c1Data
  simp only [List.length_append, c1Pad_length]
  rfl

theorem c1Data_getD_hd (k : Nat) (h : k < 12) :
    c1Data.getD k 0 = [0, 1, 1, 0, 0, 2, 0, 0, 0, 0, 0, 0].getD k 0 := by
  unfold c1Data
  simp only [List.getD, List.get?_eq_getElem?]
  rw [List.getElem?_append_left (by simp only [List.length_cons, List.length_nil]; omega)]

theorem c1Data_getD_pad (i : Nat) (h1 : 12 ≤ i) (h2 : i < 65543) :
    c1Data.getD i 0 = 64 := by
  unfold c1Data
  simp only [List.getD, List.get?_eq_getElem?]
  rw [List.getElem?_append_right (by simp only [List.length_cons, List.length_nil]; omega)]
  rw [List.getElem?_append_left
    (by simp only [List.length_cons, List.length_nil, c1Pad_length]; omega)]
  unfold c1Pad
  rw [List.getElem?_replicate,
    if_pos (by simp only [List.length_cons, List.length_nil]; omega)]
  rfl

theorem c1Data_getD_tail (k : Nat) :
    c1Data.getD (65543 + k) 0 = c1Tail.getD k 0 := by
  unfold c1Data
  simp only [List.getD, List.get?_eq_getElem?]
  rw [List.getElem?_append_right (by simp only [List.length_cons, List.length_nil]; omega)]
  rw [List.getElem?_append_right
    (by simp only [List.length_cons, List.length_nil, c1Pad_length]; omega)]
  have he : 65543 + k - List.length [0, 1, 1, 0, 0, 2, 0, 0, 0, 0, 0, 0] - c1Pad.length = k := by
    simp only [List.length_cons, List.length_nil, c1Pad_length]
    omega
  rw [he]

end DnsIO

namespace DnsIO

theorem nwlal_walk_reserved (buf : Bytes) :
    ∀ k fuel pos, (∀ i, i < k → buf.getD (pos + i) 0 = 64) → pos + k ≤ buf.length →
      nameWireLengthAtLoop buf (k + fuel) pos = nameWireLengthAtLoop buf fuel (pos + k) := by
  intro k
  induction k with
  | zero => intro fuel pos _ _; simp
  | succ k ih =>
    intro fuel pos hb hlen
    have h0 : buf.getD pos 0 = 64 := by
      have := hb 0 (by omega)
      simpa using this
    rw [show k + 1 + fuel = (k + fuel) + 1 from by omega]
    simp only [nameWireLengthAtLoop]
    rw [if_neg (by omega), h0]
    rw [if_neg (by decide), if_neg (by decide), if_pos (by decide)]
    rw [ih fuel (pos + 1)
      (fun i hi => by
        rw [show pos + 1 + i = pos + (i + 1) from by omega]
        exact hb (i + 1) (by omega))
      (by omega)]
    congr 1
    omega

theorem dnl_walk_reserved (buf : Bytes) (mo : Nat) :
    ∀ k fuel off acc,
      (∀ i, i < k → buf.getD (mo + off + i) 0 = 64) → mo + off + k ≤ buf.length →
      decodeNameLoop buf mo (k + fuel) off acc =
        decodeNameLoop buf mo fuel (off + k) (acc ++ List.replicate k .reserved) := by
  intro k
  induction k with
  | zero => intro fuel off acc _ _; simp
  | succ k ih =>
    intro fuel off acc hb hlen
    have h0 : buf.getD (mo + off) 0 = 64 := by
      have := hb 0 (by omega)
      simpa using this
    rw [show k + 1 + fuel = (k + fuel) + 1 from by omega]
    simp only [decodeNameLoop]
    rw [if_neg (by omega), h0]
    rw [if_neg (by decide), if_neg (by decide), if_pos (by decide)]
    rw [ih fuel (off + 1) (acc ++ [NameElement.reserved])
      (fun i hi => by
        rw [show mo + (off + 1) + i = mo + off + (i + 1) from by omega]
        exact hb (i + 1) (by omega))
      (by omega)]
    have e1 : off + 1 + k = off + (k + 1) := by omega
    have e2 : (acc ++ [NameElement.reserved]) ++ List.replicate k NameElement.reserved =
        acc ++ List.replicate (k + 1) NameElement.reserved := by
      rw [List.append_assoc, List.singleton_append, ← List.replicate_succ]
    rw [e1, e2]

end DnsIO


namespace DnsIO

theorem take_one (l : Bytes) (pos : Nat) (h : pos < l.length) :
    (l.drop pos).take 1 = [l.getD pos 0] := by
  have := take_split_head h 0
  simpa using this

theorem nwlal_root {buf : Bytes} {pos : Nat} (h : pos < buf.length)
    (hb : buf.getD pos 0 = 0) (f : Nat) :
    nameWireLengthAtLoop buf (f + 1) pos = .ok (pos + 1) := by
  simp only [nameWireLengthAtLoop]
  rw [if_neg (by omega), if_pos hb]

/-- The first question's decoded name: 65531 Reserved elements and a Root. -/
def c1Name1 : List NameElement := List.replicate 65531 .reserved ++ [.root]

theorem c1_name1 : decodeName c1Data 12 = .ok (c1Name1, 65532) := by
  unfold decodeName
  rw [c1Data_length, show (65555 : Nat) = 65531 + 24 from by norm_num]
  rw [dnl_walk_reserved c1Data 12 65531 24 0 []
    (fun i hi => by
      rw [show 12 + 0 + i = 12 + i from by omega]
      exact c1Data_getD_pad (12 + i) (by omega) (by omega))
    (by rw [c1Data_length]; omega)]
  rw [Nat.zero_add, List.nil_append]
  rw [show (24 : Nat) = 23 + 1 from rfl]
  rw [decodeNameLoop_root (by rw [c1Data_length]; omega)
    (by rw [show (12 : Nat) + 65531 = 65543 + 0 from by norm_num, c1Data_getD_tail 0]; rfl) 23]
  rfl

theorem c1_name2 : decodeName c1Data 65548 = .ok ([.label ⟨1, [100]⟩, .root], 3) := by
  unfold decodeName
  rw [c1Data_length, show (65555 : Nat) = 65554 + 1 from rfl]
  have hb1 : c1Data.getD (65548 + 0) 0 = 1 := by
    rw [show (65548 : Nat) + 0 = 65543 + 5 from by norm_num, c1Data_getD_tail 5]
    rfl
  rw [decodeNameLoop_label_step (by rw [c1Data_length]; omega)
    (by rw [hb1]) (by rw [hb1]; omega)
    (by rw [hb1, c1Data_length]; omega) 65554]
  rw [hb1]
  rw [take_one c1Data (65548 + 0 + 1) (by rw [c1Data_length]; omega)]
  have hb2 : c1Data.getD (65548 + 0 + 1) 0 = 100 := by
    rw [show (65548 : Nat) + 0 + 1 = 65543 + 6 from by norm_num, c1Data_getD_tail 6]
    rfl
  rw [hb2]
  rw [show (65554 : Nat) = 65553 + 1 from rfl]
  rw [decodeNameLoop_root (by rw [c1Data_length]; omega)
    (by rw [show (65548 : Nat) + (0 + 1 + 1) = 65543 + 7 from by norm_num,
      c1Data_getD_tail 7]; rfl) 65553]
  rfl

end DnsIO


namespace DnsIO

theorem c1_nwlal : nameWireLengthAtLoop c1Data c1Data.length 12 = .ok 65544 := by
  rw [c1Data_length, show (65555 : Nat) = 65531 + 24 from by norm_num]
  rw [nwlal_walk_reserved c1Data 65531 24 12
    (fun i hi => c1Data_getD_pad (12 + i) (by omega) (by omega))
    (by rw [c1Data_length]; omega)]
  rw [show (24 : Nat) = 23 + 1 from rfl]
  rw [nwlal_root (by rw [c1Data_length]; omega)
    (by rw [show (12 : Nat) + 65531 = 65543 + 0 from by norm_num, c1Data_getD_tail 0]; rfl) 23]

theorem nwla_of_loop {buf : Bytes} {off p : Nat}
    (h : nameWireLengthAtLoop buf buf.length off = .ok p) :
    nameWireLengthAt buf off = .ok (p - off) := by
  unfold nameWireLengthAt
  rw [h]

theorem c1_nwla : nameWireLengthAt c1Data 12 = .ok 65532 := by
  rw [nwla_of_loop c1_nwlal]

theorem qwla_of {buf : Bytes} {off nameLen : Nat}
    (h : nameWireLengthAt buf off = .ok nameLen)
    (hfit : ¬ off + nameLen + 4 > buf.length) :
    questionWireLengthAt buf off = .ok (nameLen + 4) := by
  unfold questionWireLengthAt
  rw [h]
  dsimp only
  rw [if_neg hfit]

theorem c1_qwla : questionWireLengthAt c1Data 12 = .ok 65536 := by
  rw [qwla_of c1_nwla (by rw [c1Data_length]; omega)]

theorem questionRefsLoop_step (buf : Bytes) (n off : Nat) (acc : List QuestionRef)
    (len : Nat) (h : questionWireLengthAt buf off = .ok len) :
    questionRefsLoop buf (n + 1) off acc =
      questionRefsLoop buf n (min (off + len % 65536) 65535) (acc ++ [⟨off, len % 65536⟩]) := by
  simp only [questionRefsLoop]
  rw [h]

theorem c1_qstep (n : Nat) (acc : List QuestionRef) :
    questionRefsLoop c1Data (n + 1) 12 acc =
      questionRefsLoop c1Data n 12 (acc ++ [⟨12, 0⟩]) := by
  rw [questionRefsLoop_step c1Data n 12 acc 65536 c1_qwla]
  rfl

theorem c1_qloop : questionRefsLoop c1Data 2 12 [] = .ok ([⟨12, 0⟩, ⟨12, 0⟩], 12) := by
  rw [show (2 : Nat) = 1 + 1 from rfl, c1_qstep 1 []]
  rw [show (1 : Nat) = 0 + 1 from rfl, c1_qstep 0 ([] ++ [(⟨12, 0⟩ : QuestionRef)])]
  rfl

/-- The first decoded question of `c1Data`. -/
def c1Q1 : Question := ⟨c1Name1, QType.fromQuestionBytes 0 1, QClass.fromQuestionBytes 0 1⟩

/-- The second decoded question of `c1Data`. -/
def c1Q2 : Question :=
  ⟨[.label ⟨1, [100]⟩, .root], QType.fromQuestionBytes 0 2, QClass.fromQuestionBytes 0 2⟩

theorem decodeQuestionLoop_zero (data messageData : Bytes) (mo off : Nat)
    (acc : List Question) :
    decodeQuestionLoop data messageData mo 0 off acc = .ok (acc, off) := rfl

theorem decodeQuestionLoop_step (data messageData : Bytes) (mo n off : Nat)
    (acc : List Question) (name : List NameElement) (nameEnd : Nat) (q : Question)
    (hname : decodeName messageData (mo + off) = .ok (name, nameEnd))
    (hfit : ¬ off + nameEnd + 4 > data.length)
    (hq : q = ⟨name,
      QType.fromQuestionBytes (data.getD (off + nameEnd) 0) (data.getD (off + nameEnd + 1) 0),
      QClass.fromQuestionBytes (data.getD (off + nameEnd + 2) 0)
        (data.getD (off + nameEnd + 3) 0)⟩) :
    decodeQuestionLoop data messageData mo (n + 1) off acc =
      decodeQuestionLoop data messageData mo n (off + nameEnd + 4) (acc ++ [q]) := by
  simp only [decodeQuestionLoop]
  rw [hname]
  dsimp only
  rw [if_neg hfit, hq]

theorem c1_q1val : c1Q1 = (⟨c1Name1,
    QType.fromQuestionBytes ((c1Data.drop 12).getD (0 + 65532) 0)
      ((c1Data.drop 12).getD (0 + 65532 + 1) 0),
    QClass.fromQuestionBytes ((c1Data.drop 12).getD (0 + 65532 + 2) 0)
      ((c1Data.drop 12).getD (0 + 65532 + 3) 0)⟩ : Question) := by
  have e0 : (c1Data.drop 12).getD (0 + 65532) 0 = 0 := by
    rw [getD_drop, show (12 : Nat) + (0 + 65532) = 65543 + 1 from by norm_num,
      c1Data_getD_tail 1]
    rfl
  have e1 : (c1Data.drop 12).getD (0 + 65532 + 1) 0 = 1 := by
    rw [getD_drop, show (12 : Nat) + (0 + 65532 + 1) = 65543 + 2 from by norm_num,
      c1Data_getD_tail 2]
    rfl
  have e2 : (c1Data.drop 12).getD (0 + 65532 + 2) 0 = 0 := by
    rw [getD_drop, show (12 : Nat) + (0 + 65532 + 2) = 65543 + 3 from by norm_num,
      c1Data_getD_tail 3]
    rfl
  have e3 : (c1Data.drop 12).getD (0 + 65532 + 3) 0 = 1 := by
    rw [getD_drop, show (12 : Nat) + (0 + 65532 + 3) = 65543 + 4 from by norm_num,
      c1Data_getD_tail 4]
    rfl
  rw [e0, e1, e2, e3]
  rfl

theorem c1_q2val : c1Q2 = (⟨[.label ⟨1, [100]⟩, .root],
    QType.fromQuestionBytes ((c1Data.drop 12).getD (0 + 65532 + 4 + 3) 0)
      ((c1Data.drop 12).getD (0 + 65532 + 4 + 3 + 1) 0),
    QClass.fromQuestionBytes ((c1Data.drop 12).getD (0 + 65532 + 4 + 3 + 2) 0)
      ((c1Data.drop 12).getD (0 + 65532 + 4 + 3 + 3) 0)⟩ : Question) := by
  have e0 : (c1Data.drop 12).getD (0 + 65532 + 4 + 3) 0 = 0 := by
    rw [getD_drop, show (12 : Nat) + (0 + 65532 + 4 + 3) = 65543 + 8 from by norm_num,
      c1Data_getD_tail 8]
    rfl
  have e1 : (c1Data.drop 12).getD (0 + 65532 + 4 + 3 + 1) 0 = 2 := by
    rw [getD_drop, show (12 : Nat) + (0 + 65532 + 4 + 3 + 1) = 65543 + 9 from by norm_num,
      c1Data_getD_tail 9]
    rfl
  have e2 : (c1Data.drop 12).getD (0 + 65532 + 4 + 3 + 2) 0 = 0 := by
    rw [getD_drop, show (12 : Nat) + (0 + 65532 + 4 + 3 + 2) = 65543 + 10 from by norm_num,
      c1Data_getD_tail 10]
    rfl
  have e3 : (c1Data.drop 12).getD (0 + 65532 + 4 + 3 + 3) 0 = 2 := by
    rw [getD_drop, show (12 : Nat) + (0 + 65532 + 4 + 3 + 3) = 65543 + 11 from by norm_num,
      c1Data_getD_tail 11]
    rfl
  rw [e0, e1, e2, e3]
  rfl

theorem c1_qloop2 :
    decodeQuestionLoop (c1Data.drop 12) c1Data 12 2 0 [] = .ok ([c1Q1, c1Q2], 65543) := by
  rw [show (2 : Nat) = 1 + 1 from rfl]
  rw [decodeQuestionLoop_step (c1Data.drop 12) c1Data 12 1 0 [] c1Name1 65532 c1Q1
    c1_name1
    (by simp only [List.length_drop]; rw [c1Data_length]; omega)
    c1_q1val]
  rw [decodeQuestionLoop_step (c1Data.drop 12) c1Data 12 0 (0 + 65532 + 4) ([] ++ [c1Q1])
    [.label ⟨1, [100]⟩, .root] 3 c1Q2
    c1_name2
    (by simp only [List.length_drop]; rw [c1Data_length]; omega)
    c1_q2val]
  rw [decodeQuestionLoop_zero]
  rfl

theorem c1_qloop1 :
    decodeQuestionLoop (c1Data.drop 12) c1Data 12 1 0 [] = .ok ([c1Q1], 65536) := by
  rw [show (1 : Nat) = 0 + 1 from rfl]
  rw [decodeQuestionLoop_step (c1Data.drop 12) c1Data 12 0 0 [] c1Name1 65532 c1Q1
    c1_name1
    (by simp only [List.length_drop]; rw [c1Data_length]; omega)
    c1_q1val]
  rw [decodeQuestionLoop_zero]
  rfl

theorem decodeQuestion_of_ne (data messageData : Bytes) (mo n : Nat) (hn : ¬ n = 0) :
    decodeQuestion data messageData mo n = decodeQuestionLoop data messageData mo n 0 [] := by
  unfold decodeQuestion
  rw [if_neg hn]

theorem c1_q2 : decodeQuestion (c1Data.drop 12) c1Data 12 2 = .ok ([c1Q1, c1Q2], 65543) := by
  rw [decodeQuestion_of_ne _ _ _ _ (by decide), c1_qloop2]

theorem c1_q1 : decodeQuestion (c1Data.drop 12) c1Data 12 1 = .ok ([c1Q1], 65536) := by
  rw [decodeQuestion_of_ne _ _ _ _ (by decide), c1_qloop1]

theorem questionRefDecode_of (data : Bytes) (off len : Nat) (q : Question) (qlen : Nat)
    (h : decodeQuestion (data.drop off) data off 1 = .ok ([q], qlen)) :
    QuestionRef.decodeQuestion ⟨off, len⟩ data = .ok q := by
  unfold QuestionRef.decodeQuestion
  dsimp only
  rw [h]

theorem c1_qref : QuestionRef.decodeQuestion ⟨12, 0⟩ c1Data = .ok c1Q1 :=
  questionRefDecode_of c1Data 12 0 c1Q1 65536 c1_q1

end DnsIO

namespace DnsIO

theorem decodeHeader_of_length (data : Bytes) (h : ¬ data.length < 12) :
    decodeHeader data =
      .ok ({ id := (data.getD 0 0 <<< 8) ||| data.getD 1 0
             flags := Flags.fromFlagsBytes (data.getD 2 0) (data.getD 3 0)
             qdCount := (data.getD 4 0 <<< 8) ||| data.getD 5 0
             anCount := (data.getD 6 0 <<< 8) ||| data.getD 7 0
             nsCount := (data.getD 8 0 <<< 8) ||| data.getD 9 0
             arCount := (data.getD 10 0 <<< 8) ||| data.getD 11 0 }, 12) := by
  unfold decodeHeader
  rw [if_neg h]

theorem c1_header_eq :
    decodeHeader c1Data = .ok (⟨1, Flags.fromFlagsBytes 1 0, 2, 0, 0, 0⟩, 12) := by
  rw [decodeHeader_of_length c1Data (by rw [c1Data_length]; omega)]
  rw [c1Data_getD_hd 0 (by omega), c1Data_getD_hd 1 (by omega), c1Data_getD_hd 2 (by omega),
    c1Data_getD_hd 3 (by omega), c1Data_getD_hd 4 (by omega), c1Data_getD_hd 5 (by omega),
    c1Data_getD_hd 6 (by omega), c1Data_getD_hd 7 (by omega), c1Data_getD_hd 8 (by omega),
    c1Data_getD_hd 9 (by omega), c1Data_getD_hd 10 (by omega), c1Data_getD_hd 11 (by omega)]
  rfl

theorem c1_headerRef :
    HeaderRef.decodeHeader ⟨⟩ c1Data = .ok ⟨1, Flags.fromFlagsBytes 1 0, 2, 0, 0, 0⟩ :=
  headerRef_decode_ok c1_header_eq

/-- An empty record-section ref at end offset 12. -/
def c1EmptySec : ResourceRecordSectionRef :=
  ⟨List.replicate 10 ResourceRecordRef.empty, 12, 0⟩

theorem c1_fill : fillResourceRecordSection c1Data 12 0 10 = .ok (c1EmptySec, 12) := rfl

/-- The ref-layer decode of `c1Data`: both question refs record offset 12,
because the first question's 65536-byte wire length wraps to 0 as `u16`. -/
def c1Mref : MessageRef :=
  ⟨⟨⟩, ⟨[⟨12, 0⟩, ⟨12, 0⟩] ++ List.replicate 3 ⟨0, 0⟩, 12, 2⟩,
    c1EmptySec, c1EmptySec, c1EmptySec⟩

theorem decodeMessageRef_eq (data : Bytes) (header : Header) (qs : List QuestionRef)
    (qoff : Nat) (ans : ResourceRecordSectionRef) (aoff : Nat)
    (aut : ResourceRecordSectionRef) (noff : Nat)
    (add : ResourceRecordSectionRef) (roff : Nat)
    (hh : HeaderRef.decodeHeader ⟨⟩ data = .ok header)
    (hq5 : ¬ header.qdCount > 5)
    (hql : questionRefsLoop data header.qdCount 12 [] = .ok (qs, qoff))
    (ha : fillResourceRecordSection data qoff header.anCount 10 = .ok (ans, aoff))
    (hn : fillResourceRecordSection data aoff header.nsCount 10 = .ok (aut, noff))
    (hr : fillResourceRecordSection data noff header.arCount 10 = .ok (add, roff)) :
    decodeMessageRef data = .ok ⟨⟨⟩,
      ⟨qs ++ List.replicate (5 - qs.length) ⟨0, 0⟩, qoff, header.qdCount % 256⟩,
      ans, aut, add⟩ := by
  unfold decodeMessageRef
  dsimp only
  rw [hh]
  dsimp only
  rw [if_neg hq5, hql]
  dsimp only
  rw [ha]
  dsimp only
  rw [hn]
  dsimp only
  rw [hr]

theorem c1_ref : decodeMessageRef c1Data = .ok c1Mref := by
  rw [decodeMessageRef_eq c1Data ⟨1, Flags.fromFlagsBytes 1 0, 2, 0, 0, 0⟩
    [⟨12, 0⟩, ⟨12, 0⟩] 12 c1EmptySec 12 c1EmptySec 12 c1EmptySec 12
    c1_headerRef (by decide) c1_qloop c1_fill c1_fill c1_fill]
  rfl

theorem decodeResourceRecords_zero (data messageData : Bytes) (mo : Nat) :
    decodeResourceRecords data messageData mo 0 = .ok ([], 0) := by
  unfold decodeResourceRecords
  rw [if_pos rfl]

theorem decodeMessage_eq (data : Bytes) (header : Header) (qs : List Question) (qlen : Nat)
    (ans : List ResourceRecord) (alen : Nat) (aut : List ResourceRecord) (nlen : Nat)
    (add : List ResourceRecord) (rlen : Nat)
    (hh : decodeHeader data = .ok (header, 12))
    (hq : decodeQuestion (data.drop 12) data 12 header.qdCount = .ok (qs, qlen))
    (ha : decodeResourceRecords (data.drop (12 + qlen)) data (12 + qlen) header.anCount =
      .ok (ans, alen))
    (hn : decodeResourceRecords (data.drop (12 + qlen + alen)) data (12 + qlen + alen)
      header.nsCount = .ok (aut, nlen))
    (hr : decodeResourceRecords (data.drop (12 + qlen + alen + nlen)) data
      (12 + qlen + alen + nlen) header.arCount = .ok (add, rlen)) :
    decodeMessage data = .ok ⟨header, qs, ans, aut, add⟩ := by
  unfold decodeMessage
  rw [hh]
  dsimp only
  rw [hq]
  dsimp only
  rw [ha]
  dsimp only
  rw [hn]
  dsimp only
  rw [hr]

/-- The direct decode of `c1Data`: two distinct questions. -/
def c1Msg : Message := ⟨⟨1, Flags.fromFlagsBytes 1 0, 2, 0, 0, 0⟩, [c1Q1, c1Q2], [], [], []⟩

theorem c1_direct : decodeMessage c1Data = .ok c1Msg := by
  rw [decodeMessage_eq c1Data ⟨1, Flags.fromFlagsBytes 1 0, 2, 0, 0, 0⟩ [c1Q1, c1Q2] 65543
    [] 0 [] 0 [] 0 c1_header_eq c1_q2
    (decodeResourceRecords_zero (c1Data.drop (12 + 65543)) c1Data (12 + 65543))
    (decodeResourceRecords_zero (c1Data.drop (12 + 65543 + 0)) c1Data (12 + 65543 + 0))
    (decodeResourceRecords_zero (c1Data.drop (12 + 65543 + 0 + 0)) c1Data (12 + 65543 + 0 + 0))]
  rfl

theorem messageRefDecode_eq (mref : MessageRef) (data : Bytes) (header : Header)
    (qs : List Question) (ans aut add : List ResourceRecord)
    (hh : HeaderRef.decodeHeader mref.header data = .ok header)
    (hq : materializeQuestionList data mref.question.asSlice = .ok qs)
    (ha : materializeRecordList data mref.answer.asSlice = .ok ans)
    (hn : materializeRecordList data mref.authority.asSlice = .ok aut)
    (hr : materializeRecordList data mref.additional.asSlice = .ok add) :
    MessageRef.decodeMessage mref data = .ok ⟨header, qs, ans, aut, add⟩ := by
  unfold MessageRef.decodeMessage
  rw [hh]
  dsimp only
  rw [hq]
  dsimp only
  rw [ha]
  dsimp only
  rw [hn]
  dsimp only
  rw [hr]

theorem c1_mat : MessageRef.decodeMessage c1Mref c1Data =
    .ok ⟨⟨1, Flags.fromFlagsBytes 1 0, 2, 0, 0, 0⟩, [c1Q1, c1Q1], [], [], []⟩ := by
  refine messageRefDecode_eq c1Mref c1Data _ _ _ _ _ c1_headerRef ?_ ?_ ?_ ?_
  · exact materializeQuestionList_forall₂ (.cons c1_qref (.cons c1_qref .nil))
  · exact materializeRecordList_forall₂ .nil
  · exact materializeRecordList_forall₂ .nil
  · exact materializeRecordList_forall₂ .nil

/-- C1, counterexample to the unamended claim: on the 65555-byte buffer
`c1Data` both decoders succeed, but the ref layer records the first
question's wire length 65536 as the `u16` 0, so its second `QuestionRef`
points back at offset 12 and the materialized message repeats the first
question instead of yielding the second one. -/
theorem c1_counterexample :
    ∃ mref m, decodeMessageRef c1Data = .ok mref ∧ decodeMessage c1Data = .ok m ∧
      MessageRef.decodeMessage mref c1Data ≠ .ok m := by
  refine ⟨c1Mref, c1Msg, c1_ref, c1_direct, ?_⟩
  rw [c1_mat]
  intro h
  simp only [Except.ok.injEq] at h
  have hq := congrArg Message.question h
  simp only [c1Msg] at hq
  simp only [List.cons.injEq] at hq
  obtain ⟨-, h2, -⟩ := hq
  have ht := congrArg Question.qType h2
  simp only [c1Q1, c1Q2] at ht
  exact absurd ht (by decide)

end DnsIO

namespace DnsIO

/-- The name elements that a builder text name denotes: the non-empty
dot-split labels followed by a Root. -/
def textNameElements (name : Bytes) : List NameElement :=
  ((splitOnDot name).filter (fun lab => !lab.isEmpty)).map
    (fun lab => NameElement.label ⟨lab.length, lab⟩) ++ [.root]

/-- The question a builder entry denotes. -/
def QuestionBuilder.toQuestion (q : QuestionBuilder) : Question :=
  ⟨textNameElements q.name, q.qType, q.qClass⟩

/-- The resource record a builder entry denotes. -/
def ResourceRecordBuilder.toRecord (r : ResourceRecordBuilder) : ResourceRecord :=
  ⟨textNameElements r.name, r.rrType, r.rrClass, r.ttl, r.rdata.length, r.rdata⟩

theorem take_cons_split {l : Bytes} {p k b : Nat} {rest : Bytes}
    (h : (l.drop p).take (k + 1) = b :: rest) (hp : p < l.length) :
    l.getD p 0 = b ∧ (l.drop (p + 1)).take k = rest := by
  rw [take_split_head hp k] at h
  simp only [List.cons.injEq] at h
  exact h

theorem take_append_split {l : Bytes} {p n m : Nat} {A B : Bytes}
    (h : (l.drop p).take (n + m) = A ++ B) (hA : A.length = n) :
    (l.drop p).take n = A ∧ (l.drop (p + n)).take m = B := by
  constructor
  · have h1 := congrArg (List.take n) h
    rw [List.take_take, Nat.min_eq_left (by omega)] at h1
    rw [h1, ← hA, List.take_left]
  · have h2 := congrArg (List.drop n) h
    rw [List.drop_take, List.drop_drop, show n + m - n = m from by omega] at h2
    rw [h2, ← hA, List.drop_left]

theorem take_four_inv {l : Bytes} {p a b c d : Nat}
    (h : (l.drop p).take 4 = [a, b, c, d]) (hp : p + 4 ≤ l.length) :
    l.getD p 0 = a ∧ l.getD (p + 1) 0 = b ∧ l.getD (p + 2) 0 = c ∧ l.getD (p + 3) 0 = d := by
  rw [take_four hp] at h
  simp only [List.cons.injEq] at h
  obtain ⟨h1, h2, h3, h4, -⟩ := h
  exact ⟨h1, h2, h3, h4⟩

theorem take_ten_inv {l : Bytes} {p b0 b1 b2 b3 b4 b5 b6 b7 b8 b9 : Nat}
    (h : (l.drop p).take 10 = [b0, b1, b2, b3, b4, b5, b6, b7, b8, b9])
    (hp : p + 10 ≤ l.length) :
    l.getD p 0 = b0 ∧ l.getD (p + 1) 0 = b1 ∧ l.getD (p + 2) 0 = b2 ∧
      l.getD (p + 3) 0 = b3 ∧ l.getD (p + 4) 0 = b4 ∧ l.getD (p + 5) 0 = b5 ∧
      l.getD (p + 6) 0 = b6 ∧ l.getD (p + 7) 0 = b7 ∧ l.getD (p + 8) 0 = b8 ∧
      l.getD (p + 9) 0 = b9 := by
  rw [take_ten hp] at h
  simp only [List.cons.injEq] at h
  obtain ⟨h0, h1, h2, h3, h4, h5, h6, h7, h8, h9, -⟩ := h
  exact ⟨h0, h1, h2, h3, h4, h5, h6, h7, h8, h9⟩

theorem getD_append_left_lt (hd rest : Bytes) (k : Nat) (h : k < hd.length) :
    (hd ++ rest).getD k 0 = hd.getD k 0 := by
  simp [List.getD, List.get?_eq_getElem?, List.getElem?_append_left h]

theorem qtype_roundtrip {t : QType} (h : t.code < 65536) :
    QType.fromQuestionBytes t.toQuestionBytes.1 t.toQuestionBytes.2 = t := by
  unfold QType.fromQuestionBytes QType.toQuestionBytes
  dsimp only
  rw [split16_combine _ h]

theorem qclass_roundtrip {t : QClass} (h : t.code < 65536) :
    QClass.fromQuestionBytes t.toQuestionBytes.1 t.toQuestionBytes.2 = t := by
  unfold QClass.fromQuestionBytes QClass.toQuestionBytes
  dsimp only
  rw [split16_combine _ h]

theorem rrtype_roundtrip {t : RRType} (h : t.code < 65536) :
    RRType.fromRRBytes t.toRRBytes.1 t.toRRBytes.2 = t := by
  unfold RRType.fromRRBytes RRType.toRRBytes
  dsimp only
  rw [split16_combine _ h]

theorem rrclass_roundtrip {t : RRClass} (h : t.code < 65536) :
    RRClass.fromRRBytes t.toRRBytes.1 t.toRRBytes.2 = t := by
  unfold RRClass.fromRRBytes RRClass.toRRBytes
  dsimp only
  rw [split16_combine _ h]

theorem split32_combine (v : Nat) (hv : v < 4294967296) :
    (((v >>> 24) % 256) <<< 24) ||| (((v >>> 16) % 256) <<< 16) |||
      (((v >>> 8) % 256) <<< 8) ||| (v % 256) = v := by
  rw [be32_eq_add _ _ _ _ (Nat.mod_lt _ (by norm_num)) (Nat.mod_lt _ (by norm_num))
    (Nat.mod_lt _ (by norm_num))]
  simp only [Nat.shiftRight_eq_div_pow]
  norm_num
  omega

end DnsIO

namespace DnsIO

theorem decodeNameLoop_canonical (data : Bytes) (mo : Nat) :
    ∀ (labs : List Bytes) (bs : Bytes) (fuel off : Nat) (acc : List NameElement),
      encodeLabelsLoop labs = .ok bs →
      (data.drop (mo + off)).take (bs.length + 1) = bs ++ [0] →
      mo + off + (bs.length + 1) ≤ data.length →
      bs.length + 1 ≤ fuel →
      decodeNameLoop data mo fuel off acc =
        .ok (acc ++ ((labs.filter (fun lab => !lab.isEmpty)).map
          (fun lab => NameElement.label ⟨lab.length, lab⟩) ++ [.root]),
          off + (bs.length + 1)) := by
  intro labs
  induction labs with
  | nil =>
    intro bs fuel off acc henc htake hbound hfuel
    simp only [encodeLabelsLoop, Except.ok.injEq] at henc
    subst henc
    simp only [List.length_nil, List.nil_append] at htake hbound hfuel ⊢
    obtain ⟨hb, -⟩ := take_cons_split htake (by omega)
    cases fuel with
    | zero => omega
    | succ f =>
      rw [decodeNameLoop_root (by omega) hb f]
      simp
  | cons lab rest ih =>
    intro bs fuel off acc henc htake hbound hfuel
    simp only [encodeLabelsLoop] at henc
    by_cases hemp : lab.isEmpty
    · rw [if_pos hemp] at henc
      have := ih bs fuel off acc henc htake hbound hfuel
      rw [this]
      simp only [List.filter_cons]
      rw [show (!lab.isEmpty) = false from by simp [hemp]]
      simp
    · rw [if_neg hemp] at henc
      by_cases hlong : lab.length > 63
      · rw [if_pos hlong] at henc
        exact absurd henc (by simp)
      · rw [if_neg hlong] at henc
        cases htl : encodeLabelsLoop rest with
        | error e => rw [htl] at henc; exact absurd henc (by simp)
        | ok tl =>
          rw [htl] at henc
          dsimp only at henc
          simp only [Except.ok.injEq] at henc
          subst henc
          have hlablen : 1 ≤ lab.length := by
            cases lab with
            | nil => simp at hemp
            | cons a l => simp
          have hbslen : ((lab.length :: lab) ++ tl).length = 1 + lab.length + tl.length := by
            simp only [List.length_append, List.length_cons]
            omega
          rw [hbslen] at htake hbound hfuel
          have htake' : (data.drop (mo + off)).take ((lab.length + (tl.length + 1)) + 1) =
              lab.length :: (lab ++ (tl ++ [0])) := by
            rw [show lab.length + (tl.length + 1) + 1 = 1 + lab.length + tl.length + 1
              from by omega]
            rw [htake]
            simp [List.append_assoc]
          obtain ⟨hb0, htail⟩ := take_cons_split htake' (by omega)
          obtain ⟨hlab, hrest⟩ := take_append_split htail rfl
          cases fuel with
          | zero => omega
          | succ f =>
            rw [decodeNameLoop_label_step (by omega) (by rw [hb0]; omega)
              (by rw [hb0]; omega) (by rw [hb0]; omega) f]
            rw [hb0, hlab]
            have hrest' : (data.drop (mo + (off + 1 + lab.length))).take (tl.length + 1) =
                tl ++ [0] := by
              rw [show mo + (off + 1 + lab.length) = mo + off + 1 + lab.length from by omega]
              exact hrest
            rw [ih tl f (off + 1 + lab.length)
              (acc ++ [NameElement.label ⟨lab.length, lab⟩]) htl hrest' (by omega) (by omega)]
            simp only [List.filter_cons]
            rw [show (!lab.isEmpty) = true from by simp [hemp]]
            simp only [if_true, List.map_cons, List.nil_append, List.cons_append,
              List.append_assoc, List.length_cons, List.length_append,
              Except.ok.injEq, Prod.mk.injEq]
            exact ⟨by simp, by omega⟩

theorem decodeName_canonical {data : Bytes} {mo : Nat} {name nb : Bytes}
    (henc : encodeNameBytes name = .ok nb)
    (htake : (data.drop mo).take nb.length = nb)
    (hbound : mo + nb.length ≤ data.length) :
    decodeName data mo = .ok (textNameElements name, nb.length) := by
  unfold encodeNameBytes at henc
  by_cases hemp : name.isEmpty
  · rw [if_pos hemp] at henc
    simp only [Except.ok.injEq] at henc
    subst henc
    have hname : name = [] := by
      cases name with
      | nil => rfl
      | cons a l => simp at hemp
    subst hname
    unfold decodeName
    obtain ⟨hb, -⟩ := @take_cons_split data mo 0 _ _ (by simpa using htake) (by simp at hbound; omega)
    have hfuel : 1 ≤ data.length := by simp at hbound; omega
    rw [show data.length = (data.length - 1) + 1 from by omega]
    rw [decodeNameLoop_root (by simp at hbound; omega) (by simpa using hb) (data.length - 1)]
    rfl
  · rw [if_neg hemp] at henc
    cases hbs : encodeLabelsLoop (splitOnDot name) with
    | error e => rw [hbs] at henc; exact absurd henc (by simp)
    | ok bs =>
      rw [hbs] at henc
      dsimp only at henc
      simp only [Except.ok.injEq] at henc
      subst henc
      have hlen : (bs ++ [0]).length = bs.length + 1 := by simp
      unfold decodeName
      have h0 : (data.drop (mo + 0)).take (bs.length + 1) = bs ++ [0] := by
        rw [show mo + 0 = mo from by omega, ← hlen]
        exact htake
      rw [decodeNameLoop_canonical data mo (splitOnDot name) bs data.length 0 []
        hbs h0 (by rw [hlen] at hbound; omega) (by rw [hlen] at hbound; omega)]
      unfold textNameElements
      rw [hlen]
      simp

end DnsIO


namespace DnsIO

theorem decodeQuestionLoop_canonical (data : Bytes) (mo : Nat) :
    ∀ (qs : List QuestionBuilder) (bs : Bytes) (off : Nat) (accD : List Question),
      buildQuestionsBytes qs = .ok bs →
      (data.drop (mo + off)).take bs.length = bs →
      mo + off + bs.length ≤ data.length →
      (∀ q ∈ qs, q.qType.code < 65536 ∧ q.qClass.code < 65536) →
      decodeQuestionLoop (data.drop mo) data mo qs.length off accD =
        .ok (accD ++ qs.map QuestionBuilder.toQuestion, off + bs.length) := by
  intro qs
  induction qs with
  | nil =>
    intro bs off accD hbuild htake hbound hwf
    simp only [buildQuestionsBytes, Except.ok.injEq] at hbuild
    subst hbuild
    simp only [List.length_nil, List.map_nil, List.append_nil]
    rw [decodeQuestionLoop_zero]
    simp
  | cons q rest ih =>
    intro bs off accD hbuild htake hbound hwf
    simp only [buildQuestionsBytes] at hbuild
    cases hq : buildQuestionBytes q with
    | error e => rw [hq] at hbuild; exact absurd hbuild (by simp)
    | ok qbs =>
      rw [hq] at hbuild
      dsimp only at hbuild
      cases hrb : buildQuestionsBytes rest with
      | error e => rw [hrb] at hbuild; exact absurd hbuild (by simp)
      | ok rbs =>
        rw [hrb] at hbuild
        dsimp only at hbuild
        simp only [Except.ok.injEq] at hbuild
        subst hbuild
        unfold buildQuestionBytes at hq
        cases hn : encodeNameBytes q.name with
        | error e => rw [hn] at hq; exact absurd hq (by simp)
        | ok nb =>
          rw [hn] at hq
          simp only [Except.ok.injEq] at hq
          subst hq
          have hqlen : (nb ++ [q.qType.toQuestionBytes.1, q.qType.toQuestionBytes.2,
              q.qClass.toQuestionBytes.1, q.qClass.toQuestionBytes.2]).length =
              nb.length + 4 := by
            simp
          rw [List.length_append, hqlen] at htake hbound
          obtain ⟨htq, htr⟩ := take_append_split htake hqlen
          obtain ⟨htn, ht4⟩ := take_append_split htq rfl
          have hname : decodeName data (mo + off) = .ok (textNameElements q.name, nb.length) :=
            decodeName_canonical hn htn (by omega)
          obtain ⟨hb0, hb1, hb2, hb3⟩ := take_four_inv ht4 (by omega)
          have hwf0 := hwf q (by simp)
          have hwf' : ∀ x ∈ rest, x.qType.code < 65536 ∧ x.qClass.code < 65536 :=
            fun x hx => hwf x (by simp [hx])
          have hqval : QuestionBuilder.toQuestion q = (⟨textNameElements q.name,
              QType.fromQuestionBytes ((data.drop mo).getD (off + nb.length) 0)
                ((data.drop mo).getD (off + nb.length + 1) 0),
              QClass.fromQuestionBytes ((data.drop mo).getD (off + nb.length + 2) 0)
                ((data.drop mo).getD (off + nb.length + 3) 0)⟩ : Question) := by
            have e0 : (data.drop mo).getD (off + nb.length) 0 =
                q.qType.toQuestionBytes.1 := by
              rw [getD_drop, show mo + (off + nb.length) = mo + off + nb.length
                from by omega, hb0]
            have e1 : (data.drop mo).getD (off + nb.length + 1) 0 =
                q.qType.toQuestionBytes.2 := by
              rw [getD_drop, show mo + (off + nb.length + 1) = mo + off + nb.length + 1
                from by omega, hb1]
            have e2 : (data.drop mo).getD (off + nb.length + 2) 0 =
                q.qClass.toQuestionBytes.1 := by
              rw [getD_drop, show mo + (off + nb.length + 2) = mo + off + nb.length + 2
                from by omega, hb2]
            have e3 : (data.drop mo).getD (off + nb.length + 3) 0 =
                q.qClass.toQuestionBytes.2 := by
              rw [getD_drop, show mo + (off + nb.length + 3) = mo + off + nb.length + 3
                from by omega, hb3]
            rw [e0, e1, e2, e3, qtype_roundtrip hwf0.1, qclass_roundtrip hwf0.2]
            rfl
          simp only [List.length_cons]
          rw [decodeQuestionLoop_step (data.drop mo) data mo rest.length off accD
            (textNameElements q.name) nb.length (QuestionBuilder.toQuestion q) hname
            (by simp only [List.length_drop]; omega) hqval]
          have htr' : (data.drop (mo + (off + nb.length + 4))).take rbs.length = rbs := by
            rw [show mo + (off + nb.length + 4) = mo + off + (nb.length + 4) from by omega]
            exact htr
          rw [ih rbs (off + nb.length + 4) (accD ++ [QuestionBuilder.toQuestion q])
            hrb htr' (by omega) hwf']
          simp only [Except.ok.injEq, Prod.mk.injEq, List.map_cons, List.append_assoc,
            List.singleton_append]
          refine ⟨by simp, ?_⟩
          simp only [List.length_append, List.length_cons, List.length_nil]
          omega

end DnsIO

namespace DnsIO

theorem decodeResourceRecord_canonical {data : Bytes} {mo : Nat}
    {r : ResourceRecordBuilder} {rbs : Bytes}
    (hbuild : buildRecordBytes r = .ok rbs)
    (htake : (data.drop mo).take rbs.length = rbs)
    (hbound : mo + rbs.length ≤ data.length)
    (ht : r.rrType.code < 65536) (hc : r.rrClass.code < 65536)
    (httl : r.ttl < 4294967296) (hrd : r.rdata.length < 65536) :
    decodeResourceRecord (data.drop mo) data mo = .ok (r.toRecord, rbs.length) := by
  unfold buildRecordBytes at hbuild
  cases hn : encodeNameBytes r.name with
  | error e => rw [hn] at hbuild; exact absurd hbuild (by simp)
  | ok nb =>
    rw [hn] at hbuild
    simp only [Except.ok.injEq] at hbuild
    subst hbuild
    have h10 : (nb ++ [r.rrType.toRRBytes.1, r.rrType.toRRBytes.2,
        r.rrClass.toRRBytes.1, r.rrClass.toRRBytes.2,
        (r.ttl >>> 24) % 256, (r.ttl >>> 16) % 256, (r.ttl >>> 8) % 256, r.ttl % 256,
        (r.rdata.length >>> 8) % 256, r.rdata.length % 256]).length = nb.length + 10 := by
      simp
    rw [List.length_append, h10] at htake hbound
    obtain ⟨htnt, htrd⟩ := take_append_split htake h10
    obtain ⟨htn, htt⟩ := take_append_split htnt rfl
    have hname : decodeName data mo = .ok (textNameElements r.name, nb.length) :=
      decodeName_canonical hn htn (by omega)
    obtain ⟨hb0, hb1, hb2, hb3, hb4, hb5, hb6, hb7, hb8, hb9⟩ :=
      take_ten_inv htt (by omega)
    simp only [decodeResourceRecord]
    rw [hname]
    dsimp only
    rw [if_neg (by simp only [List.length_drop]; omega)]
    have e0 : (data.drop mo).getD nb.length 0 = r.rrType.toRRBytes.1 := by
      rw [getD_drop, hb0]
    have e1 : (data.drop mo).getD (nb.length + 1) 0 = r.rrType.toRRBytes.2 := by
      rw [getD_drop, show mo + (nb.length + 1) = mo + nb.length + 1 from by omega, hb1]
    have e2 : (data.drop mo).getD (nb.length + 2) 0 = r.rrClass.toRRBytes.1 := by
      rw [getD_drop, show mo + (nb.length + 2) = mo + nb.length + 2 from by omega, hb2]
    have e3 : (data.drop mo).getD (nb.length + 3) 0 = r.rrClass.toRRBytes.2 := by
      rw [getD_drop, show mo + (nb.length + 3) = mo + nb.length + 3 from by omega, hb3]
    have e4 : (data.drop mo).getD (nb.length + 4) 0 = (r.ttl >>> 24) % 256 := by
      rw [getD_drop, show mo + (nb.length + 4) = mo + nb.length + 4 from by omega, hb4]
    have e5 : (data.drop mo).getD (nb.length + 5) 0 = (r.ttl >>> 16) % 256 := by
      rw [getD_drop, show mo + (nb.length + 5) = mo + nb.length + 5 from by omega, hb5]
    have e6 : (data.drop mo).getD (nb.length + 6) 0 = (r.ttl >>> 8) % 256 := by
      rw [getD_drop, show mo + (nb.length + 6) = mo + nb.length + 6 from by omega, hb6]
    have e7 : (data.drop mo).getD (nb.length + 7) 0 = r.ttl % 256 := by
      rw [getD_drop, show mo + (nb.length + 7) = mo + nb.length + 7 from by omega, hb7]
    have e8 : (data.drop mo).getD (nb.length + 8) 0 = (r.rdata.length >>> 8) % 256 := by
      rw [getD_drop, show mo + (nb.length + 8) = mo + nb.length + 8 from by omega, hb8]
    have e9 : (data.drop mo).getD (nb.length + 9) 0 = r.rdata.length % 256 := by
      rw [getD_drop, show mo + (nb.length + 9) = mo + nb.length + 9 from by omega, hb9]
    rw [e0, e1, e2, e3, e4, e5, e6, e7, e8, e9]
    rw [split16_combine _ hrd]
    rw [if_neg (by simp only [List.length_drop]; omega)]
    rw [rrtype_roundtrip ht, rrclass_roundtrip hc, split32_combine _ httl]
    have hrdata : ((data.drop mo).drop (nb.length + 10)).take r.rdata.length = r.rdata := by
      rw [List.drop_drop]
      rw [show mo + (nb.length + 10) = mo + nb.length + 10 from by omega]
      exact htrd
    rw [hrdata]
    simp only [Except.ok.injEq, Prod.mk.injEq]
    exact ⟨rfl, by simp only [List.length_append, List.length_cons, List.length_nil]⟩

end DnsIO

namespace DnsIO

theorem decodeResourceRecordsLoop_canonical (data : Bytes) (mo : Nat) :
    ∀ (rs : List ResourceRecordBuilder) (bs : Bytes) (off : Nat)
      (accD : List ResourceRecord),
      buildRecordsBytes rs = .ok bs →
      (data.drop (mo + off)).take bs.length = bs →
      mo + off + bs.length ≤ data.length →
      (∀ r ∈ rs, r.rrType.code < 65536 ∧ r.rrClass.code < 65536 ∧
        r.ttl < 4294967296 ∧ r.rdata.length < 65536) →
      decodeResourceRecordsLoop (data.drop mo) data mo rs.length off accD =
        .ok (accD ++ rs.map ResourceRecordBuilder.toRecord, off + bs.length) := by
  intro rs
  induction rs with
  | nil =>
    intro bs off accD hbuild htake hbound hwf
    simp only [buildRecordsBytes, Except.ok.injEq] at hbuild
    subst hbuild
    simp only [List.length_nil, List.map_nil, List.append_nil]
    simp [decodeResourceRecordsLoop]
  | cons r rest ih =>
    intro bs off accD hbuild htake hbound hwf
    simp only [buildRecordsBytes] at hbuild
    cases hr : buildRecordBytes r with
    | error e => rw [hr] at hbuild; exact absurd hbuild (by simp)
    | ok rbs =>
      rw [hr] at hbuild
      dsimp only at hbuild
      cases hrb : buildRecordsBytes rest with
      | error e => rw [hrb] at hbuild; exact absurd hbuild (by simp)
      | ok rsb =>
        rw [hrb] at hbuild
        dsimp only at hbuild
        simp only [Except.ok.injEq] at hbuild
        subst hbuild
        rw [List.length_append] at htake hbound
        obtain ⟨htr, htrs⟩ := take_append_split htake rfl
        have hwf0 := hwf r (by simp)
        have hwf' : ∀ x ∈ rest, x.rrType.code < 65536 ∧ x.rrClass.code < 65536 ∧
            x.ttl < 4294967296 ∧ x.rdata.length < 65536 := fun x hx => hwf x (by simp [hx])
        have hrec : decodeResourceRecord (data.drop (mo + off)) data (mo + off) =
            .ok (r.toRecord, rbs.length) :=
          decodeResourceRecord_canonical hr htr (by omega) hwf0.1 hwf0.2.1 hwf0.2.2.1
            hwf0.2.2.2
        simp only [List.length_cons]
        simp only [decodeResourceRecordsLoop]
        rw [List.drop_drop, hrec]
        dsimp only
        have htrs' : (data.drop (mo + (off + rbs.length))).take rsb.length = rsb := by
          rw [show mo + (off + rbs.length) = mo + off + rbs.length from by omega]
          exact htrs
        rw [ih rsb (off + rbs.length) (accD ++ [r.toRecord]) hrb htrs' (by omega) hwf']
        simp only [Except.ok.injEq, Prod.mk.injEq, List.map_cons, List.append_assoc,
          List.singleton_append]
        refine ⟨by simp, ?_⟩
        simp only [List.length_append]
        omega

end DnsIO

namespace DnsIO

theorem decodeQuestion_canonical {data : Bytes} {mo : Nat} {qs : List QuestionBuilder}
    {bs : Bytes}
    (hbuild : buildQuestionsBytes qs = .ok bs)
    (htake : (data.drop mo).take bs.length = bs)
    (hbound : mo + bs.length ≤ data.length)
    (hwf : ∀ q ∈ qs, q.qType.code < 65536 ∧ q.qClass.code < 65536) :
    decodeQuestion (data.drop mo) data mo qs.length =
      .ok (qs.map QuestionBuilder.toQuestion, bs.length) := by
  have h := decodeQuestionLoop_canonical data mo qs bs 0 [] hbuild
    (by rw [show mo + 0 = mo from by omega]; exact htake) (by omega) hwf
  unfold decodeQuestion
  by_cases hq : qs.length = 0
  · rw [if_pos hq]
    have hqnil : qs = [] := List.length_eq_zero.mp hq
    subst hqnil
    simp only [buildQuestionsBytes, Except.ok.injEq] at hbuild
    subst hbuild
    simp
  · rw [if_neg hq, h]
    simp

theorem decodeResourceRecords_canonical {data : Bytes} {mo : Nat}
    {rs : List ResourceRecordBuilder} {bs : Bytes}
    (hbuild : buildRecordsBytes rs = .ok bs)
    (htake : (data.drop mo).take bs.length = bs)
    (hbound : mo + bs.length ≤ data.length)
    (hwf : ∀ r ∈ rs, r.rrType.code < 65536 ∧ r.rrClass.code < 65536 ∧
      r.ttl < 4294967296 ∧ r.rdata.length < 65536) :
    decodeResourceRecords (data.drop mo) data mo rs.length =
      .ok (rs.map ResourceRecordBuilder.toRecord, bs.length) := by
  have h := decodeResourceRecordsLoop_canonical data mo rs bs 0 [] hbuild
    (by rw [show mo + 0 = mo from by omega]; exact htake) (by omega) hwf
  unfold decodeResourceRecords
  by_cases hq : rs.length = 0
  · rw [if_pos hq]
    have hrnil : rs = [] := List.length_eq_zero.mp hq
    subst hrnil
    simp only [buildRecordsBytes, Except.ok.injEq] at hbuild
    subst hbuild
    simp
  · rw [if_neg hq, h]
    simp

theorem buildEncodeDirect_ok {b : MessageBuilder} {bytes : Bytes}
    (h : b.buildEncodeDirect = .ok bytes) :
    ∃ qb ab nb db, buildQuestionsBytes b.questions = .ok qb ∧
      buildRecordsBytes b.answers = .ok ab ∧ buildRecordsBytes b.authority = .ok nb ∧
      buildRecordsBytes b.additional = .ok db ∧
      bytes = headerBytes (builderHeader b) ++ (qb ++ (ab ++ (nb ++ db))) := by
  unfold MessageBuilder.buildEncodeDirect at h
  cases hq : buildQuestionsBytes b.questions with
  | error e => rw [hq] at h; exact absurd h (by simp)
  | ok qb =>
    rw [hq] at h
    dsimp only at h
    cases ha : buildRecordsBytes b.answers with
    | error e => rw [ha] at h; exact absurd h (by simp)
    | ok ab =>
      rw [ha] at h
      dsimp only at h
      cases hn : buildRecordsBytes b.authority with
      | error e => rw [hn] at h; exact absurd h (by simp)
      | ok nb =>
        rw [hn] at h
        dsimp only at h
        cases hd : buildRecordsBytes b.additional with
        | error e => rw [hd] at h; exact absurd h (by simp)
        | ok db =>
          rw [hd] at h
          dsimp only at h
          simp only [Except.ok.injEq] at h
          exact ⟨qb, ab, nb, db, rfl, rfl, rfl, rfl, by rw [← h]; simp [List.append_assoc]⟩

theorem decodeHeader_builder (b : MessageBuilder) (rest : Bytes) :
    ∃ hid hflags, decodeHeader (headerBytes (builderHeader b) ++ rest) =
      .ok (⟨hid, hflags, b.questions.length % 65536, b.answers.length % 65536,
        b.authority.length % 65536, b.additional.length % 65536⟩, 12) := by
  refine ⟨((((builderHeader b).id >>> 8) % 256) <<< 8) ||| ((builderHeader b).id % 256),
    Flags.fromFlagsBytes (builderHeader b).flags.toFlagsBytes.1
      (builderHeader b).flags.toFlagsBytes.2, ?_⟩
  rw [decodeHeader_of_length _ (by
    simp only [List.length_append, headerBytes_length]
    omega)]
  rw [getD_append_left_lt _ _ 0 (by rw [headerBytes_length]; omega),
    getD_append_left_lt _ _ 1 (by rw [headerBytes_length]; omega),
    getD_append_left_lt _ _ 2 (by rw [headerBytes_length]; omega),
    getD_append_left_lt _ _ 3 (by rw [headerBytes_length]; omega),
    getD_append_left_lt _ _ 4 (by rw [headerBytes_length]; omega),
    getD_append_left_lt _ _ 5 (by rw [headerBytes_length]; omega),
    getD_append_left_lt _ _ 6 (by rw [headerBytes_length]; omega),
    getD_append_left_lt _ _ 7 (by rw [headerBytes_length]; omega),
    getD_append_left_lt _ _ 8 (by rw [headerBytes_length]; omega),
    getD_append_left_lt _ _ 9 (by rw [headerBytes_length]; omega),
    getD_append_left_lt _ _ 10 (by rw [headerBytes_length]; omega),
    getD_append_left_lt _ _ 11 (by rw [headerBytes_length]; omega)]
  rw [show (headerBytes (builderHeader b)).getD 4 0 =
      ((builderHeader b).qdCount >>> 8) % 256 from rfl,
    show (headerBytes (builderHeader b)).getD 5 0 = (builderHeader b).qdCount % 256 from rfl,
    show (headerBytes (builderHeader b)).getD 6 0 =
      ((builderHeader b).anCount >>> 8) % 256 from rfl,
    show (headerBytes (builderHeader b)).getD 7 0 = (builderHeader b).anCount % 256 from rfl,
    show (headerBytes (builderHeader b)).getD 8 0 =
      ((builderHeader b).nsCount >>> 8) % 256 from rfl,
    show (headerBytes (builderHeader b)).getD 9 0 = (builderHeader b).nsCount % 256 from rfl,
    show (headerBytes (builderHeader b)).getD 10 0 =
      ((builderHeader b).arCount >>> 8) % 256 from rfl,
    show (headerBytes (builderHeader b)).getD 11 0 = (builderHeader b).arCount % 256 from rfl]
  rw [split16_combine (builderHeader b).qdCount (Nat.mod_lt _ (by norm_num)),
    split16_combine (builderHeader b).anCount (Nat.mod_lt _ (by norm_num)),
    split16_combine (builderHeader b).nsCount (Nat.mod_lt _ (by norm_num)),
    split16_combine (builderHeader b).arCount (Nat.mod_lt _ (by norm_num))]
  rfl

end DnsIO

namespace DnsIO

/-- C2 (amended): for every message assembled with `MessageBuilder` whose
section counts fit `u16`, whose type and class codes fit `u16`, whose TTLs
fit `u32` and whose RDATA lengths fit `u16`, if `build_encode_direct`
succeeds then `decode_message` of the produced bytes succeeds and restores
identical section counts, the same names (the dot-split non-empty labels
followed by a Root), and identical types, classes, TTLs and RDATA bytes per
entry.  The original claim — for arbitrary numbers of entries — is refuted
by `c2_counterexample`: with 65536 questions the header count wraps to 0
and the decoder restores no questions. -/
theorem c2_builder_roundtrip (b : MessageBuilder) (bytes : Bytes)
    (henc : b.buildEncodeDirect = .ok bytes)
    (hqn : b.questions.length < 65536) (han : b.answers.length < 65536)
    (hnn : b.authority.length < 65536) (hdn : b.additional.length < 65536)
    (hqwf : ∀ q ∈ b.questions, q.qType.code < 65536 ∧ q.qClass.code < 65536)
    (hawf : ∀ r ∈ b.answers, r.rrType.code < 65536 ∧ r.rrClass.code < 65536 ∧
      r.ttl < 4294967296 ∧ r.rdata.length < 65536)
    (hnwf : ∀ r ∈ b.authority, r.rrType.code < 65536 ∧ r.rrClass.code < 65536 ∧
      r.ttl < 4294967296 ∧ r.rdata.length < 65536)
    (hdwf : ∀ r ∈ b.additional, r.rrType.code < 65536 ∧ r.rrClass.code < 65536 ∧
      r.ttl < 4294967296 ∧ r.rdata.length < 65536) :
    ∃ m, decodeMessage bytes = .ok m ∧
      m.question = b.questions.map QuestionBuilder.toQuestion ∧
      m.answer = b.answers.map ResourceRecordBuilder.toRecord ∧
      m.authority = b.authority.map ResourceRecordBuilder.toRecord ∧
      m.additional = b.additional.map ResourceRecordBuilder.toRecord ∧
      m.question.length = b.questions.length ∧ m.answer.length = b.answers.length ∧
      m.authority.length = b.authority.length ∧
      m.additional.length = b.additional.length := by
  obtain ⟨qb, ab, nb, db, hqb, hab, hnb, hdb, hbytes⟩ := buildEncodeDirect_ok henc
  obtain ⟨hid, hflags, hh0⟩ := decodeHeader_builder b (qb ++ (ab ++ (nb ++ db)))
  rw [Nat.mod_eq_of_lt hqn, Nat.mod_eq_of_lt han, Nat.mod_eq_of_lt hnn,
    Nat.mod_eq_of_lt hdn] at hh0
  have hh : decodeHeader bytes = .ok (⟨hid, hflags, b.questions.length, b.answers.length,
      b.authority.length, b.additional.length⟩, 12) := by
    rw [hbytes]
    exact hh0
  have hlenbytes : bytes.length =
      12 + (qb.length + (ab.length + (nb.length + db.length))) := by
    rw [hbytes]
    simp only [List.length_append, headerBytes_length]
  have hdrop12 : bytes.drop 12 = qb ++ (ab ++ (nb ++ db)) := by
    rw [hbytes, ← headerBytes_length (builderHeader b), List.drop_left]
  have htq : (bytes.drop 12).take qb.length = qb := by
    rw [hdrop12]
    exact List.take_left ..
  have hdropq : bytes.drop (12 + qb.length) = ab ++ (nb ++ db) := by
    rw [← List.drop_drop, hdrop12, List.drop_left]
  have hta : (bytes.drop (12 + qb.length)).take ab.length = ab := by
    rw [hdropq]
    exact List.take_left ..
  have hdropa : bytes.drop (12 + qb.length + ab.length) = nb ++ db := by
    rw [← List.drop_drop, hdropq, List.drop_left]
  have htn : (bytes.drop (12 + qb.length + ab.length)).take nb.length = nb := by
    rw [hdropa]
    exact List.take_left ..
  have hdropn : bytes.drop (12 + qb.length + ab.length + nb.length) = db := by
    rw [← List.drop_drop, hdropa, List.drop_left]
  have htd : (bytes.drop (12 + qb.length + ab.length + nb.length)).take db.length = db := by
    rw [hdropn, List.take_length]
  have hq := decodeQuestion_canonical hqb htq (by omega) hqwf
  have ha := decodeResourceRecords_canonical hab hta (by omega) hawf
  have hn := decodeResourceRecords_canonical hnb htn (by omega) hnwf
  have hd := decodeResourceRecords_canonical hdb htd (by omega) hdwf
  refine ⟨⟨⟨hid, hflags, b.questions.length, b.answers.length, b.authority.length,
    b.additional.length⟩, b.questions.map QuestionBuilder.toQuestion,
    b.answers.map ResourceRecordBuilder.toRecord,
    b.authority.map ResourceRecordBuilder.toRecord,
    b.additional.map ResourceRecordBuilder.toRecord⟩, ?_, rfl, rfl, rfl, rfl,
    by simp, by simp, by simp, by simp⟩
  exact decodeMessage_eq bytes _ _ qb.length _ ab.length _ nb.length _ db.length
    hh hq ha hn hd

end DnsIO

namespace DnsIO

/-- Closed instance of the amended C2 round trip on the sample query
builder. -/
theorem c2_witness :
    ∃ m, decodeMessage sampleQueryBytes = .ok m ∧
      m.question = (MessageBuilder.query 1 |>.question
        [101, 120, 97, 109, 112, 108, 101, 46, 99, 111, 109]
        QType.A QClass.IN).questions.map QuestionBuilder.toQuestion ∧
      m.answer = [] ∧ m.authority = [] ∧ m.additional = [] ∧
      m.question.length = 1 ∧ m.answer.length = 0 ∧ m.authority.length = 0 ∧
      m.additional.length = 0 :=
  c2_builder_roundtrip (MessageBuilder.query 1 |>.question
      [101, 120, 97, 109, 112, 108, 101, 46, 99, 111, 109] QType.A QClass.IN)
    sampleQueryBytes (by decide) (by decide) (by decide) (by decide) (by decide)
    (by decide) (by decide) (by decide) (by decide)

/-- All-clear flags for the C2 counterexample builder. -/
def c2Flags : Flags := ⟨false, 0, false, false, false, false, 0, 0⟩

/-- A minimal question entry: empty name, type 1, class 1. -/
def c2Q : QuestionBuilder := ⟨[], ⟨1⟩, ⟨1⟩⟩

/-- A builder with 65536 questions: its header question count wraps to 0. -/
def c2Builder : MessageBuilder := ⟨0, c2Flags, List.replicate 65536 c2Q, [], [], []⟩

theorem c2_qbytes : ∀ n, ∃ bs, buildQuestionsBytes (List.replicate n c2Q) = .ok bs := by
  intro n
  induction n with
  | zero => exact ⟨[], rfl⟩
  | succ n ih =>
    obtain ⟨bs, hbs⟩ := ih
    refine ⟨[0, 0, 1, 0, 1] ++ bs, ?_⟩
    rw [List.replicate_succ]
    simp only [buildQuestionsBytes]
    rw [show buildQuestionBytes c2Q = .ok [0, 0, 1, 0, 1] from rfl]
    dsimp only
    rw [hbs]

theorem buildEncodeDirect_eq (b : MessageBuilder) (qb ab nb db : Bytes)
    (hq : buildQuestionsBytes b.questions = .ok qb)
    (ha : buildRecordsBytes b.answers = .ok ab)
    (hn : buildRecordsBytes b.authority = .ok nb)
    (hd : buildRecordsBytes b.additional = .ok db) :
    b.buildEncodeDirect = .ok (headerBytes (builderHeader b) ++ qb ++ ab ++ nb ++ db) := by
  unfold MessageBuilder.buildEncodeDirect
  rw [hq]
  dsimp only
  rw [ha]
  dsimp only
  rw [hn]
  dsimp only
  rw [hd]

theorem c2_qlen : c2Builder.questions.length = 65536 := by
  show (List.replicate 65536 c2Q).length = 65536
  rw [List.length_replicate]

theorem c2_hbh : builderHeader c2Builder = ⟨0, c2Flags, 0, 0, 0, 0⟩ := by
  unfold builderHeader
  rw [c2_qlen]
  rfl

theorem c2_hhb : headerBytes (builderHeader c2Builder) =
    [0, 0, 0, 0, 0, 0, 0, 0, 0, 0, 0, 0] := by
  rw [c2_hbh]
  rfl

theorem c2_encode : ∃ qbs, c2Builder.buildEncodeDirect =
    .ok ([0, 0, 0, 0, 0, 0, 0, 0, 0, 0, 0, 0] ++ qbs) := by
  obtain ⟨qbs, hqbs⟩ := c2_qbytes 65536
  refine ⟨qbs, ?_⟩
  have hqbs' : buildQuestionsBytes c2Builder.questions = .ok qbs := hqbs
  have henc := buildEncodeDirect_eq c2Builder qbs [] [] [] hqbs' rfl rfl rfl
  rw [henc, c2_hhb]
  simp

theorem decodeQuestion_zero (data messageData : Bytes) (mo : Nat) :
    decodeQuestion data messageData mo 0 = .ok ([], 0) := by
  unfold decodeQuestion
  rw [if_pos rfl]

theorem c2_decode (rest : Bytes) :
    decodeMessage ([0, 0, 0, 0, 0, 0, 0, 0, 0, 0, 0, 0] ++ rest) =
      .ok ⟨⟨0, Flags.fromFlagsBytes 0 0, 0, 0, 0, 0⟩, [], [], [], []⟩ := by
  refine decodeMessage_eq _ _ _ 0 _ 0 _ 0 _ 0 ?_
    (decodeQuestion_zero _ _ _) (decodeResourceRecords_zero _ _ _)
    (decodeResourceRecords_zero _ _ _) (decodeResourceRecords_zero _ _ _)
  rw [decodeHeader_of_length _ (by
    simp only [List.length_append, List.length_cons, List.length_nil]
    omega)]
  rw [getD_append_left_lt _ _ 0 (by decide), getD_append_left_lt _ _ 1 (by decide),
    getD_append_left_lt _ _ 2 (by decide), getD_append_left_lt _ _ 3 (by decide),
    getD_append_left_lt _ _ 4 (by decide), getD_append_left_lt _ _ 5 (by decide),
    getD_append_left_lt _ _ 6 (by decide), getD_append_left_lt _ _ 7 (by decide),
    getD_append_left_lt _ _ 8 (by decide), getD_append_left_lt _ _ 9 (by decide),
    getD_append_left_lt _ _ 10 (by decide), getD_append_left_lt _ _ 11 (by decide)]
  rfl

/-- C2, counterexample to the unamended claim: a builder with 65536
questions encodes successfully, but the header's question count is
`65536 as u16 = 0`, so the decoder restores 0 questions instead of 65536. -/
theorem c2_counterexample :
    ∃ bytes m, c2Builder.buildEncodeDirect = .ok bytes ∧ decodeMessage bytes = .ok m ∧
      m.question.length ≠ c2Builder.questions.length := by
  obtain ⟨qbs, henc⟩ := c2_encode
  refine ⟨_, _, henc, c2_decode qbs, ?_⟩
  rw [c2_qlen]
  decide

end DnsIO
